import Mathlib

/-!
Shallow embedding of the py-radix Patricia trie engine
(`src/radix/compat/_radix/radix.c`) and of the Python binding layer that
drives it (`src/radix/_radix.c`), together with proofs about the claims
of the specification.

Conventions of the embedding:
* machine integers are `Nat`/`Int`; the C `u_int` arithmetic that can
  overflow is written with an explicit `% 2 ^ 32`;
* addresses are byte lists (most significant byte first), exactly as the
  C code stores them in `prefix->add`; out-of-bounds byte reads of the C
  are modelled by `List.getD _ _ 0`;
* a (possibly `NULL`) `radix_node_t *` is a `node_t`, whose `null`
  constructor is the null pointer;
* the `parent` back-pointers are modelled by a zipper: a node in a tree
  is identified by the list of frames (`frame_t`) from it up to the
  root, each frame holding everything of the parent except the child
  slot descended into.  `rebuild path n` reassembles the tree, and the
  `parent`-walking loops of the C become folds over the frame list;
* reference counting of `prefix_t` is memory management without value
  content, so `Ref_Pfx` (C `Ref_Prefix`) is the identity on values;
* the C names are kept wherever Lean's lexer allows it.
-/

namespace PyRadix

/-- Address family, `AF_INET` or `AF_INET6`. -/
inductive Family where
  | af_inet : Family
  | af_inet6 : Family
deriving DecidableEq, Repr

/-- `RADIX_MAXBITS` from radix.h: maximal number of bits of an address. -/
def RADIX_MAXBITS : Nat := 128

/-- `RADIX_MAXBITS_BY_PREFIX`: 32 for IPv4, 128 for IPv6. -/
def radix_maxbits_by_family : Family → Nat
  | .af_inet => 32
  | .af_inet6 => 128

/-- The C `prefix_t`: family, address bytes (`add`, MSB first) and `bitlen`.
The `ref_count` field is allocation bookkeeping with no value content and is
not modelled. -/
structure prefix_t where
  family : Family
  add : List Nat
  bitlen : Nat
deriving DecidableEq, Repr

/-- `BIT_TEST_SEARCH_BIT(addr, bit)`:
`(addr)[(bit) >> 3] & (0x80 >> ((bit) & 0x07))`. -/
def bit_test_search_bit (addr : List Nat) (b : Nat) : Bool :=
  (addr.getD (b >>> 3) 0) &&& (0x80 >>> (b &&& 0x07)) != 0

/-- `comp_with_mask(addr, dest, mask)`: the first `mask/8` bytes are compared
with `memcmp`, then the top `mask%8` bits of the next byte are compared under
the mask `(~0) << (8 - mask%8)` (a 32-bit `u_int`). -/
def comp_with_mask (addr dest : List Nat) (mask : Nat) : Bool :=
  if addr.take (mask / 8) = dest.take (mask / 8) then
    let n := mask / 8
    let m := (0xFFFFFFFF <<< (8 - mask % 8)) % 2 ^ 32
    mask % 8 == 0 || (addr.getD n 0 &&& m == dest.getD n 0 &&& m)
  else false

/-- A `radix_node_t *`: either the null pointer or a node with bit index
`bit`, optional stored prefix `pfx` (C `prefix`; `none` on glue nodes),
children `l`/`r` and payload presence `data` (C `data != NULL`). -/
inductive node_t where
  | null : node_t
  | mk (bit : Nat) (pfx : Option prefix_t) (l : node_t) (r : node_t)
      (data : Bool) : node_t
deriving DecidableEq, Repr

/-- Bit index of a node (`node->bit`); junk value on the null pointer,
which the C would dereference. -/
def node_t.bit : node_t → Nat
  | .null => 0
  | .mk b _ _ _ _ => b

/-- Stored prefix of a node (`node->prefix`); `none` on glue nodes. -/
def node_t.pfx : node_t → Option prefix_t
  | .null => none
  | .mk _ p _ _ _ => p

/-- Left child (`node->l`). -/
def node_t.l : node_t → node_t
  | .null => .null
  | .mk _ _ l _ _ => l

/-- Right child (`node->r`). -/
def node_t.r : node_t → node_t
  | .null => .null
  | .mk _ _ _ r _ => r

/-- Payload presence (`node->data != NULL`). -/
def node_t.data : node_t → Bool
  | .null => false
  | .mk _ _ _ _ d => d

/-- The C `radix_tree_t`: two family roots and the active-node counter
(a C `int`, hence `Int`). -/
structure radix_tree_t where
  head_ipv4 : node_t
  head_ipv6 : node_t
  num_active_node : Int
deriving DecidableEq, Repr

/-- `New_Radix()`. -/
def New_Radix : radix_tree_t :=
  { head_ipv4 := .null, head_ipv6 := .null, num_active_node := 0 }

/-- `RADIX_HEAD_BY_PREFIX`: the family root used for a prefix. -/
def radix_head_by_family (t : radix_tree_t) : Family → node_t
  | .af_inet => t.head_ipv4
  | .af_inet6 => t.head_ipv6

/-- Writing through `RADIX_PHEAD_BY_PREFIX` (`*phead = ...`). -/
def radix_set_head (t : radix_tree_t) : Family → node_t → radix_tree_t
  | .af_inet, h => { t with head_ipv4 := h }
  | .af_inet6, h => { t with head_ipv6 := h }

/-- Direction from a parent to one of its children. -/
inductive dir_t where
  | left : dir_t
  | right : dir_t
deriving DecidableEq, Repr

/-- One zipper frame: the parent node minus the child slot we descended
into.  `d` records which slot, `other` is the sibling subtree. -/
structure frame_t where
  bit : Nat
  pfx : Option prefix_t
  data : Bool
  d : dir_t
  other : node_t
deriving DecidableEq, Repr

/-- Reattach a (possibly null) node into its parent frame. -/
def rebuild1 (f : frame_t) (n : node_t) : node_t :=
  match f.d with
  | .left => .mk f.bit f.pfx n f.other f.data
  | .right => .mk f.bit f.pfx f.other n f.data

/-- Reassemble the whole (sub)tree from a zipper; the head of the frame
list is the immediate parent. -/
def rebuild : List frame_t → node_t → node_t
  | [], n => n
  | f :: fs, n => rebuild fs (rebuild1 f n)

/-- The frame obtained by descending right out of a node. -/
def frameR (n : node_t) : frame_t :=
  { bit := n.bit, pfx := n.pfx, data := n.data, d := .right, other := n.l }

/-- The frame obtained by descending left out of a node. -/
def frameL (n : node_t) : frame_t :=
  { bit := n.bit, pfx := n.pfx, data := n.data, d := .left, other := n.r }

/-- Number of nodes of a subtree (real and glue). -/
def node_size : node_t → Nat
  | .null => 0
  | .mk _ _ l r _ => 1 + node_size l + node_size r

end PyRadix

namespace PyRadix

/-- The loop `RADIX_SEARCH_FOREACH(node, head, prefix)`: descend while
`node != NULL && node->bit < prefix->bitlen`, choosing the child by
`BIT_TEST_SEARCH`; frames of the nodes stepped out of are accumulated. -/
def search_descend (q : prefix_t) : node_t → List frame_t → List frame_t × node_t
  | .null, path => (path, .null)
  | .mk b p l r d, path =>
    if b < q.bitlen then
      if bit_test_search_bit q.add b then
        search_descend q r (frameR (.mk b p l r d) :: path)
      else
        search_descend q l (frameL (.mk b p l r d) :: path)
    else (path, .mk b p l r d)

/-- `radix_search_exact`, with the zipper of the found node. -/
def radix_search_exact_z (t : radix_tree_t) (q : prefix_t) :
    Option (List frame_t × node_t) :=
  match radix_head_by_family t q.family with
  | .null => none
  | .mk b p l r d =>
    match search_descend q (.mk b p l r d) [] with
    | (_, .null) => none
    | (path, .mk b' p' l' r' d') =>
      if b' > q.bitlen ∨ p' = none then none
      else
        let nodeadd := match p' with | some P => P.add | none => []
        if comp_with_mask nodeadd q.add q.bitlen then
          some (path, .mk b' p' l' r' d')
        else none

/-- `radix_search_exact(radix, prefix)`. -/
def radix_search_exact (t : radix_tree_t) (q : prefix_t) : Option node_t :=
  (radix_search_exact_z t q).map (·.2)

/-- The loop `RADIX_SEARCH_FOREACH_INCLUSIVE` of `radix_search_best2`:
descend while `node != NULL && node->bit <= prefix->bitlen`, pushing on
the stack every node with a prefix that passes the `inclusive` filter.
Stack entries carry their zipper so that the parent chain of the result
is available (the C walks `node->parent` pointers instead). -/
def best_descend (q : prefix_t) (incl : Bool) :
    node_t → List frame_t → List (List frame_t × node_t) →
    List (List frame_t × node_t)
  | .null, _, st => st
  | .mk b p l r d, path, st =>
    if b ≤ q.bitlen then
      let st' := if p ≠ none ∧ (incl = true ∨ b ≠ q.bitlen)
                 then st ++ [(path, .mk b p l r d)] else st
      if bit_test_search_bit q.add b then
        best_descend q incl r (frameR (.mk b p l r d) :: path) st'
      else
        best_descend q incl l (frameL (.mk b p l r d) :: path) st'
    else st

/-- `radix_search_best2(radix, prefix, inclusive)`, with the zipper of the
returned node: scan the stack from the deepest entry and return the first
whose prefix agrees with the query on `prefix->bitlen` bits and has
`bitlen <= query bitlen`. -/
def radix_search_best2_z (t : radix_tree_t) (q : prefix_t) (incl : Bool) :
    Option (List frame_t × node_t) :=
  match radix_head_by_family t q.family with
  | .null => none
  | .mk b p l r d =>
    let st := best_descend q incl (.mk b p l r d) [] []
    st.reverse.find? (fun pn =>
      match pn.2.pfx with
      | some P => comp_with_mask P.add q.add P.bitlen && decide (P.bitlen ≤ q.bitlen)
      | none => false)

/-- `radix_search_best2`. -/
def radix_search_best2 (t : radix_tree_t) (q : prefix_t) (incl : Bool) :
    Option node_t :=
  (radix_search_best2_z t q incl).map (·.2)

/-- `radix_search_best(radix, prefix) = radix_search_best2(radix, prefix, 1)`. -/
def radix_search_best (t : radix_tree_t) (q : prefix_t) : Option node_t :=
  radix_search_best2 t q true

/-- The ancestor chain of a zipper position, nearest parent first:
the very node values the C reaches by following `node->parent`. -/
def ancestor_nodes : List frame_t → node_t → List node_t
  | [], _ => []
  | f :: fs, n => rebuild1 f n :: ancestor_nodes fs (rebuild1 f n)

/-- The `do { ... } while ((node = node->parent) != NULL)` loop of
`radix_search_covering`: invoke `func` on every prefix-bearing node from
`n` up to the root, aborting on a non-zero result.  Returns the C return
value together with the list of nodes `func` was invoked on. -/
def covering_walk (func : node_t → Int) : node_t → List frame_t → Int × List node_t
  | n, path =>
    if n.pfx ≠ none then
      let rc := func n
      if rc ≠ 0 then (rc, [n])
      else
        match path with
        | [] => (0, [n])
        | f :: fs =>
          let res := covering_walk func (rebuild1 f n) fs
          (res.1, n :: res.2)
    else
      match path with
      | [] => (0, [])
      | f :: fs => covering_walk func (rebuild1 f n) fs

/-- `radix_search_covering(radix, prefix, func, cbctx)`: start from the
best match (inclusive) and walk to the root. -/
def radix_search_covering (t : radix_tree_t) (q : prefix_t)
    (func : node_t → Int) : Int × List node_t :=
  match radix_search_best2_z t q true with
  | none => (0, [])
  | some (path, n) => covering_walk func n path

end PyRadix

namespace PyRadix

/-- `COMP_NODE_PREFIX(node, prefix)` from `radix_search_covered`:
`comp_with_mask` over `RADIX_MIN(node->prefix->bitlen, prefix->bitlen)`
bits.  The C dereferences `node->prefix` unconditionally; all call sites
guard it, and `false` stands for the unreachable null case. -/
def comp_node_pfx (n : node_t) (q : prefix_t) : Bool :=
  match n.pfx with
  | some P => comp_with_mask P.add q.add (min P.bitlen q.bitlen)
  | none => false

/-- The anchoring loop of `radix_search_covered`
(`RADIX_SEARCH_FOREACH_INCLUSIVE` with `prev_node`/`prefixed_node`
bookkeeping and a `break` at `node->bit == prefix->bitlen`).  Returns
the node the loop stopped at (null if it ran off the tree), `prev_node`
and `prefixed_node`. -/
def covered_find (q : prefix_t) :
    node_t → node_t → node_t → node_t × node_t × node_t
  | .null, prev, prefixed => (.null, prev, prefixed)
  | .mk b p l r d, prev, prefixed =>
    if b ≤ q.bitlen then
      if b = q.bitlen then (.mk b p l r d, .mk b p l r d, prefixed)
      else
        let prefixed' := if p ≠ none then .mk b p l r d else prefixed
        if bit_test_search_bit q.add b then
          covered_find q r (.mk b p l r d) prefixed'
        else
          covered_find q l (.mk b p l r d) prefixed'
    else (.mk b p l r d, prev, prefixed)

/-- The explicit LEFT→RIGHT→SELF stack machine of `radix_search_covered`,
written as the recursion it implements: each stack frame processes its
left subtree, then its right subtree, then itself.  `checked` is the
frame's `checked` flag (query-containment already established above),
`isroot` tells whether this is `stack[0]` (whose SELF step uses the
`inclusive` bound instead of `stackpos > 0`).  Children that are real
and fail `COMP_NODE_PREFIX` are skipped when `checked` is not yet set.
Returns the C return value and the nodes `func` was invoked on. -/
def covered_walk (q : prefix_t) (incl : Bool) (func : node_t → Int) :
    Bool → Bool → node_t → Int × List node_t
  | _, _, .null => (0, [])
  | checked, isroot, .mk b p l r d =>
    let self := node_t.mk b p l r d
    let resL : Int × List node_t :=
      match l with
      | .null => (0, [])
      | .mk bl pl ll rl dl =>
        if ¬checked ∧ pl ≠ none ∧ comp_node_pfx (.mk bl pl ll rl dl) q = false
        then (0, [])
        else covered_walk q incl func (checked || (pl ≠ none : Bool)) false
               (.mk bl pl ll rl dl)
    if resL.1 ≠ 0 then resL else
    let resR : Int × List node_t :=
      match r with
      | .null => (0, [])
      | .mk br pr lr rr dr =>
        if ¬checked ∧ pr ≠ none ∧ comp_node_pfx (.mk br pr lr rr dr) q = false
        then (0, [])
        else covered_walk q incl func (checked || (pr ≠ none : Bool)) false
               (.mk br pr lr rr dr)
    if resR.1 ≠ 0 then (resR.1, resL.2 ++ resR.2) else
    if (¬isroot ∨ (if incl then b ≥ q.bitlen else b > q.bitlen)) ∧ p ≠ none then
      (func self, resL.2 ++ resR.2 ++ [self])
    else (0, resL.2 ++ resR.2)

/-- `radix_search_covered(radix, prefix, func, cbctx, inclusive)`. -/
def radix_search_covered (t : radix_tree_t) (q : prefix_t)
    (func : node_t → Int) (incl : Bool) : Int × List node_t :=
  let fnd := covered_find q (radix_head_by_family t q.family) .null .null
  let exit_node := fnd.1
  let prev_node := fnd.2.1
  let prefixed0 := fnd.2.2
  match exit_node, prev_node with
  | .null, .null => (0, [])
  | _, _ =>
    let node := match exit_node with | .null => prev_node | m => m
    let prefixed := match exit_node with
      | .null => prefixed0
      | m => if m.pfx ≠ none then m else prefixed0
    if prefixed ≠ .null ∧ comp_node_pfx prefixed q = false then (0, [])
    else
      let checked0 := (node == prefixed) && decide (node.bit ≥ q.bitlen)
      covered_walk q incl func checked0 true node

end PyRadix

namespace PyRadix

/-- `Ref_Prefix`: sharing or copying a prefix; pure value identity in the
embedding (reference counts carry no value content). -/
def Ref_Pfx (p : prefix_t) : prefix_t := p

/-- The descent loop of `radix_lookup`:
`while (node->bit < bitlen || node->prefix == NULL)`, stepping right when
`node->bit < maxbits && BIT_TEST_SEARCH(addr, node)` and the right child
is non-null, left otherwise, and breaking on a null child.  The third
component records every bit index at which `BIT_TEST_SEARCH_BIT` was
evaluated (the `&&` evaluates it only under `node->bit < maxbits`). -/
def lookup_descend (addr : List Nat) (bitlen maxbits : Nat) :
    node_t → List frame_t → List frame_t × node_t × List Nat
  | .null, path => (path, .null, [])
  | .mk b p l r d, path =>
    if b < bitlen ∨ p = none then
      let tested := if b < maxbits then [b] else []
      if b < maxbits ∧ bit_test_search_bit addr b then
        match r with
        | .null => (path, .mk b p l r d, tested)
        | .mk br pr lr rr dr =>
          let res := lookup_descend addr bitlen maxbits (.mk br pr lr rr dr)
            (frameR (.mk b p l r d) :: path)
          (res.1, res.2.1, tested ++ res.2.2)
      else
        match l with
        | .null => (path, .mk b p l r d, tested)
        | .mk bl pl ll rl dl =>
          let res := lookup_descend addr bitlen maxbits (.mk bl pl ll rl dl)
            (frameL (.mk b p l r d) :: path)
          (res.1, res.2.1, tested ++ res.2.2)
    else (path, .mk b p l r d, [])

/-- The inner `for (j = 0; j < 8; j++)` loop of `radix_lookup`: the first
`j` with `BIT_TEST(r, 0x80 >> j)`; `8` if the loop runs off (possible
only if `r`'s low byte is zero). -/
def differ_first_bit_in_byte (r : Nat) : Nat :=
  match (List.range 8).find? (fun j => r &&& (0x80 >>> j) != 0) with
  | some j => j
  | none => 8

/-- The `for (i = 0; i * 8 < check_bit; i++)` differ-bit loop of
`radix_lookup` over the XOR of address bytes.  The first argument is an
upper bound on the remaining loop iterations (the loop runs at most
`check_bit` more times once `i * 8 < check_bit`), kept explicit so the
definition is structurally recursive; `find_differ_bit` supplies a bound
that is never exhausted. -/
def differ_scan (addr test_addr : List Nat) (check_bit : Nat) :
    Nat → Nat → Nat → Nat
  | 0, _, differ_bit => differ_bit
  | fuel + 1, i, differ_bit =>
    if i * 8 < check_bit then
      let rxor := addr.getD i 0 ^^^ test_addr.getD i 0
      if rxor = 0 then
        differ_scan addr test_addr check_bit fuel (i + 1) ((i + 1) * 8)
      else i * 8 + differ_first_bit_in_byte rxor
    else differ_bit

/-- The differ-bit computation of `radix_lookup`, including the final cap
`if (differ_bit > check_bit) differ_bit = check_bit`. -/
def find_differ_bit (addr test_addr : List Nat) (check_bit : Nat) : Nat :=
  let db := differ_scan addr test_addr check_bit (check_bit + 1) 0 0
  if db > check_bit then check_bit else db

/-- The climb loop of `radix_lookup`:
`while (parent && parent->bit >= differ_bit) { node = parent; ... }`,
as a fold over the zipper frames. -/
def lookup_climb (differ_bit : Nat) : List frame_t → node_t → List frame_t × node_t
  | [], n => ([], n)
  | f :: fs, n =>
    if f.bit ≥ differ_bit then lookup_climb differ_bit fs (rebuild1 f n)
    else (f :: fs, n)

/-- Result of `radix_lookup`: the updated tree, the zipper of the
returned node (`rebuild path node` is the new family head), the returned
node itself, and the list of bit indices passed to
`BIT_TEST_SEARCH_BIT` during the call. -/
structure lookup_result where
  tree : radix_tree_t
  path : List frame_t
  node : node_t
  tested : List Nat
deriving DecidableEq, Repr

/-- The case dispatch of `radix_lookup` after the descent, differ-bit
computation and climb: `(path1, node1)` is the climbed zipper position,
`differ_bit` the computed differ bit, `test_addr` the address bytes of
the descent-end node's prefix (read before the climb), and `tested0` the
bit indices tested during the descent.  Implements the exact-existing,
new-below, new-above and fork cases in the C's order. -/
def radix_lookup_splice (t : radix_tree_t) (p : prefix_t)
    (path1 : List frame_t) (node1 : node_t) (differ_bit : Nat)
    (test_addr : List Nat) (tested0 : List Nat) : lookup_result :=
  let maxbits := radix_maxbits_by_family p.family
  let addr := p.add
  let bitlen := p.bitlen
  if differ_bit = bitlen ∧ node1.bit = bitlen then
    let node' : node_t :=
      if node1.pfx = none then
        .mk node1.bit (some (Ref_Pfx p)) node1.l node1.r node1.data
      else node1
    { tree := radix_set_head t p.family (rebuild path1 node'),
      path := path1, node := node', tested := tested0 }
  else
    let new_node : node_t := .mk p.bitlen (some (Ref_Pfx p)) .null .null false
    if node1.bit = differ_bit then
      let tested1 := if node1.bit < maxbits then [node1.bit] else []
      let res : node_t × frame_t :=
        if node1.bit < maxbits ∧ bit_test_search_bit addr node1.bit then
          (.mk node1.bit node1.pfx node1.l new_node node1.data,
           { bit := node1.bit, pfx := node1.pfx, data := node1.data,
             d := .right, other := node1.l })
        else
          (.mk node1.bit node1.pfx new_node node1.r node1.data,
           { bit := node1.bit, pfx := node1.pfx, data := node1.data,
             d := .left, other := node1.r })
      { tree := { radix_set_head t p.family (rebuild path1 res.1) with
                  num_active_node := t.num_active_node + 1 },
        path := res.2 :: path1, node := new_node,
        tested := tested0 ++ tested1 }
    else if bitlen = differ_bit then
      let tested1 := if bitlen < maxbits then [bitlen] else []
      let node' : node_t :=
        if bitlen < maxbits ∧ bit_test_search_bit test_addr bitlen then
          .mk bitlen (some (Ref_Pfx p)) .null node1 false
        else
          .mk bitlen (some (Ref_Pfx p)) node1 .null false
      { tree := { radix_set_head t p.family (rebuild path1 node') with
                  num_active_node := t.num_active_node + 1 },
        path := path1, node := node', tested := tested0 ++ tested1 }
    else
      let tested1 := if differ_bit < maxbits then [differ_bit] else []
      let res : node_t × frame_t :=
        if differ_bit < maxbits ∧ bit_test_search_bit addr differ_bit then
          (.mk differ_bit none node1 new_node false,
           { bit := differ_bit, pfx := none, data := false,
             d := .right, other := node1 })
        else
          (.mk differ_bit none new_node node1 false,
           { bit := differ_bit, pfx := none, data := false,
             d := .left, other := node1 })
      { tree := { radix_set_head t p.family (rebuild path1 res.1) with
                  num_active_node := t.num_active_node + 2 },
        path := res.2 :: path1, node := new_node,
        tested := tested0 ++ tested1 }

/-- `test_addr = prefix_touchar(node->prefix)` in `radix_lookup`
(empty when the node stores no prefix; the C would crash there, but the
Patricia invariant rules that case out). -/
def node_test_addr (n : node_t) : List Nat :=
  match n.pfx with | some P => P.add | none => []

/-- `radix_lookup(radix, prefix)` (all allocations succeeding). -/
def radix_lookup (t : radix_tree_t) (p : prefix_t) : lookup_result :=
  let maxbits := radix_maxbits_by_family p.family
  match radix_head_by_family t p.family with
  | .null =>
    let node : node_t := .mk p.bitlen (some (Ref_Pfx p)) .null .null false
    { tree := { radix_set_head t p.family node with
                num_active_node := t.num_active_node + 1 },
      path := [], node := node, tested := [] }
  | .mk hb hp hl hr hd =>
    let addr := p.add
    let bitlen := p.bitlen
    let desc := lookup_descend addr bitlen maxbits (.mk hb hp hl hr hd) []
    let node0 := desc.2.1
    let test_addr := node_test_addr node0
    let check_bit := if node0.bit < bitlen then node0.bit else bitlen
    let differ_bit := find_differ_bit addr test_addr check_bit
    let clm := lookup_climb differ_bit desc.1 node0
    radix_lookup_splice t p clm.1 clm.2 differ_bit test_addr desc.2.2

end PyRadix

namespace PyRadix

/-- `radix_remove(radix, node)` on the node identified by the zipper
`(path, node)` (so `rebuild path node` is the family head the C reaches
through `RADIX_PHEAD_BY_PREFIX(radix, node->prefix)`).
Three cases, in the C's order: two children (demote to glue), no child
(detach, collapsing a glue parent left with one child), one child
(child inherits the slot). -/
def radix_remove (t : radix_tree_t) (path : List frame_t) (node : node_t) :
    radix_tree_t :=
  let fam := match node.pfx with | some P => P.family | none => .af_inet
  if node.r ≠ .null ∧ node.l ≠ .null then
    let node' : node_t := .mk node.bit none node.l node.r false
    radix_set_head t fam (rebuild path node')
  else if node.r = .null ∧ node.l = .null then
    match path with
    | [] =>
      { radix_set_head t fam .null with
        num_active_node := t.num_active_node - 1 }
    | f :: rest =>
      -- parent->r/l = NULL; child = the sibling
      let child := f.other
      if f.pfx ≠ none then
        let parent' : node_t :=
          match f.d with
          | .left => .mk f.bit f.pfx .null f.other f.data
          | .right => .mk f.bit f.pfx f.other .null f.data
        { radix_set_head t fam (rebuild rest parent') with
          num_active_node := t.num_active_node - 1 }
      else
        -- glue parent spliced out as well
        { radix_set_head t fam (rebuild rest child) with
          num_active_node := t.num_active_node - 2 }
  else
    let child := if node.r ≠ .null then node.r else node.l
    { radix_set_head t fam (rebuild path child) with
      num_active_node := t.num_active_node - 1 }

/-- `radix_lookup` under an allocation oracle: `ok_node` is whether the
first `PyMem_Malloc` of a node (the fresh root, or `new_node`) succeeds,
`ok_glue` whether the glue `PyMem_Malloc` succeeds.  On failure the C
returns `NULL`; the second component is the tree state at that return.
Note the glue-failure path returns after `new_node` was allocated and
`radix->num_active_node` incremented, without freeing `new_node`. -/
def radix_lookup_alloc (t : radix_tree_t) (p : prefix_t)
    (ok_node ok_glue : Bool) : Option lookup_result × radix_tree_t :=
  let maxbits := radix_maxbits_by_family p.family
  match radix_head_by_family t p.family with
  | .null =>
    if ok_node = false then (none, t)
    else
      let res := radix_lookup t p
      (some res, res.tree)
  | .mk hb hp hl hr hd =>
    let addr := p.add
    let bitlen := p.bitlen
    let desc := lookup_descend addr bitlen maxbits (.mk hb hp hl hr hd) []
    let node0 := desc.2.1
    let test_addr := match node0.pfx with | some P => P.add | none => []
    let check_bit := if node0.bit < bitlen then node0.bit else bitlen
    let differ_bit := find_differ_bit addr test_addr check_bit
    let clm := lookup_climb differ_bit desc.1 node0
    let node1 := clm.2
    if differ_bit = bitlen ∧ node1.bit = bitlen then
      let res := radix_lookup t p
      (some res, res.tree)
    else if ok_node = false then (none, t)
    else if node1.bit = differ_bit ∨ bitlen = differ_bit then
      let res := radix_lookup t p
      (some res, res.tree)
    else if ok_glue = false then
      -- `return (NULL)` with new_node leaked and the counter bumped
      (none, { t with num_active_node := t.num_active_node + 1 })
    else
      let res := radix_lookup t p
      (some res, res.tree)

end PyRadix

namespace PyRadix

/-- The binding-layer `RadixObject` of `_radix.c`: the C tree plus the
`gen_id` generation counter (`unsigned int`, hence mod `2 ^ 32`). -/
structure RadixObject where
  rt : radix_tree_t
  gen_id : Nat
deriving DecidableEq, Repr

/-- `newRadixObject()`. -/
def newRadixObject : RadixObject := { rt := New_Radix, gen_id := 0 }

/-- `create_add_node(self, prefix)` with a successful lookup: the node
returned by `radix_lookup` gets a Python node object installed in
`node->data` if it had none, and `self->gen_id++` runs unconditionally.
Returns the new object state and the returned node. -/
def create_add_node (R : RadixObject) (p : prefix_t) : RadixObject × node_t :=
  let res := radix_lookup R.rt p
  let node' : node_t :=
    if res.node.data = false then
      .mk res.node.bit res.node.pfx res.node.l res.node.r true
    else res.node
  let t' := radix_set_head res.tree p.family (rebuild res.path node')
  ({ rt := t', gen_id := (R.gen_id + 1) % 2 ^ 32 }, node')

/-- The tree transformation of `Radix_delete`: find the node with
`radix_search_exact` and call `radix_remove` on it; the tree is untouched
when the prefix is absent (`KeyError`). -/
def Radix_delete_t (t : radix_tree_t) (p : prefix_t) : radix_tree_t :=
  match radix_search_exact_z t p with
  | none => t
  | some (path, node) => radix_remove t path node

/-- `Radix_delete(self, ...)`: on a found prefix the node is removed and
`self->gen_id++` runs; on `KeyError` the state is untouched.  The boolean
reports whether the prefix was found. -/
def Radix_delete (R : RadixObject) (p : prefix_t) : RadixObject × Bool :=
  match radix_search_exact_z R.rt p with
  | none => (R, false)
  | some (path, node) =>
    ({ rt := radix_remove R.rt path node, gen_id := (R.gen_id + 1) % 2 ^ 32 },
     true)

/-- Trees reachable from `New_Radix()` by `radix_lookup` insertions and
`Radix_delete`-style removals of valid prefixes (validity defined below
as `pfx_valid`). -/
def pfx_valid (p : prefix_t) : Prop :=
  p.add.length = radix_maxbits_by_family p.family / 8 ∧
  (∀ b ∈ p.add, b < 256) ∧
  p.bitlen ≤ radix_maxbits_by_family p.family ∧
  (∀ i < radix_maxbits_by_family p.family,
    p.bitlen ≤ i → bit_test_search_bit p.add i = false)

instance (p : prefix_t) : Decidable (pfx_valid p) := by
  unfold pfx_valid; infer_instance

/-- Reachability of a tree by a sequence of inserts and deletes. -/
inductive Rchb : radix_tree_t → Prop where
  | new : Rchb New_Radix
  | ins {t p} : Rchb t → pfx_valid p → Rchb (radix_lookup t p).tree
  | del {t p} : Rchb t → pfx_valid p → Rchb (Radix_delete_t t p)

/-- The binding-layer `RadixIterObject`: the explicit DFS stack
(`iterstack`/`sp`, top of stack first), the next node `rn`, the family
phase `af` and the captured generation. -/
structure RadixIterObject where
  iterstack : List node_t
  rn : node_t
  af : Family
  gen_id : Nat
deriving DecidableEq, Repr

/-- `newRadixIterObject(parent)`: empty stack, start at the IPv4 head,
capture the current generation. -/
def newRadixIterObject (R : RadixObject) : RadixIterObject :=
  { iterstack := [], rn := R.rt.head_ipv4, af := .af_inet, gen_id := R.gen_id }

/-- DFS measure for the `again:` loop of `RadixIter_iternext`. -/
def iter_measure (R : RadixObject) (it : RadixIterObject) : Nat :=
  node_size it.rn + (it.iterstack.map node_size).sum +
    (match it.af with
     | .af_inet => node_size R.rt.head_ipv6 + 1
     | .af_inet6 => 0)

/-- The `again:` walking loop of `RadixIter_iternext` (everything after
the generation check): step the DFS, switch to the IPv6 head when the
IPv4 walk is exhausted, and skip nodes without prefix or payload.
Returns `none` at end of iteration.  The fuel argument is an upper bound
on the remaining loop iterations (each iteration strictly decreases
`iter_measure`), kept explicit so the definition is structurally
recursive; `RadixIter_iternext` supplies a bound that is never
exhausted. -/
def iternext_walk (R : RadixObject) :
    Nat → RadixIterObject → Option (node_t × RadixIterObject)
  | 0, _ => none
  | fuel + 1, it =>
    match it.rn with
    | .null =>
      match it.af with
      | .af_inet6 => none
      | .af_inet =>
        iternext_walk R fuel
          { iterstack := [], rn := R.rt.head_ipv6,
            af := .af_inet6, gen_id := it.gen_id }
    | .mk b p l r d =>
      let node := node_t.mk b p l r d
      let it' : RadixIterObject :=
        if l ≠ .null then
          { it with
            rn := l
            iterstack := if r ≠ .null then r :: it.iterstack else it.iterstack }
        else if r ≠ .null then { it with rn := r }
        else
          match it.iterstack with
          | top :: rest => { it with rn := top, iterstack := rest }
          | [] => { it with rn := .null }
      if p = none ∨ d = false then iternext_walk R fuel it'
      else some (node, it')

/-- `RadixIter_iternext(self)`: fail with the `ConcurrentModification`
`RuntimeWarning` exactly when the captured generation differs from the
tree's; otherwise walk. -/
def RadixIter_iternext (R : RadixObject) (it : RadixIterObject) :
    Except Unit (Option (node_t × RadixIterObject)) :=
  if it.gen_id ≠ R.gen_id then .error ()
  else .ok (iternext_walk R (iter_measure R it + 1) it)

end PyRadix

namespace PyRadix

/-! ### Basic lemmas about heads and counters -/

theorem radix_set_head_num (t : radix_tree_t) (fam : Family) (h : node_t) :
    (radix_set_head t fam h).num_active_node = t.num_active_node := by
  cases fam <;> rfl

theorem radix_head_set_head (t : radix_tree_t) (fam : Family) (h : node_t) :
    radix_head_by_family (radix_set_head t fam h) fam = h := by
  cases fam <;> rfl

theorem radix_set_head_self (t : radix_tree_t) (fam : Family) :
    radix_set_head t fam (radix_head_by_family t fam) = t := by
  cases fam <;> rfl

/-! ### Counter behaviour of `radix_remove` -/

theorem radix_remove_num_two (t : radix_tree_t) (path : List frame_t)
    (node : node_t) (hl : node.l ≠ .null) (hr : node.r ≠ .null) :
    (radix_remove t path node).num_active_node = t.num_active_node := by
  unfold radix_remove
  rw [if_pos ⟨hr, hl⟩]
  exact radix_set_head_num ..

theorem radix_remove_num_leaf (t : radix_tree_t) (path : List frame_t)
    (node : node_t) (hl : node.l = .null) (hr : node.r = .null) :
    (radix_remove t path node).num_active_node = t.num_active_node - 1 ∨
    (radix_remove t path node).num_active_node = t.num_active_node - 2 := by
  unfold radix_remove
  rw [if_neg (by simp [hl, hr]), if_pos ⟨hr, hl⟩]
  cases path with
  | nil => left; rfl
  | cons f rest =>
    dsimp only
    by_cases hp : f.pfx ≠ none
    · rw [if_pos hp]; left; rfl
    · rw [if_neg hp]; right; rfl

theorem radix_remove_num_one (t : radix_tree_t) (path : List frame_t)
    (node : node_t)
    (h : (node.l = .null ∧ node.r ≠ .null) ∨ (node.l ≠ .null ∧ node.r = .null)) :
    (radix_remove t path node).num_active_node = t.num_active_node - 1 := by
  unfold radix_remove
  rcases h with ⟨hl, hr⟩ | ⟨hl, hr⟩
  · rw [if_neg (by simp [hl]), if_neg (by simp [hr])]
  · rw [if_neg (by simp [hr]), if_neg (by simp [hl])]

end PyRadix

namespace PyRadix

/-! ### Concrete example inputs used by witnesses and counterexamples -/

/-- 0.0.0.0/0. -/
def ex_p0 : prefix_t := ⟨.af_inet, [0, 0, 0, 0], 0⟩
/-- 0.0.0.0/1. -/
def ex_p1l : prefix_t := ⟨.af_inet, [0, 0, 0, 0], 1⟩
/-- 128.0.0.0/1. -/
def ex_p1r : prefix_t := ⟨.af_inet, [128, 0, 0, 0], 1⟩
/-- 0.0.0.0/2. -/
def ex_p2l : prefix_t := ⟨.af_inet, [0, 0, 0, 0], 2⟩
/-- 192.0.0.0/2. -/
def ex_p2r : prefix_t := ⟨.af_inet, [192, 0, 0, 0], 2⟩
/-- 10.0.0.0/8. -/
def ex_10_8 : prefix_t := ⟨.af_inet, [10, 0, 0, 0], 8⟩
/-- 10.0.0.0/16. -/
def ex_10_16 : prefix_t := ⟨.af_inet, [10, 0, 0, 0], 16⟩
/-- 10.1.0.0/16. -/
def ex_10_1_16 : prefix_t := ⟨.af_inet, [10, 1, 0, 0], 16⟩
/-- 10.1.2.3/32. -/
def ex_host : prefix_t := ⟨.af_inet, [10, 1, 2, 3], 32⟩

/-- Binding state after adding 0.0.0.0/0, 0.0.0.0/1 and 128.0.0.0/1:
the root node holds 0.0.0.0/0 and has two children. -/
def c4R : RadixObject :=
  (create_add_node
    (create_add_node (create_add_node newRadixObject ex_p0).1 ex_p1l).1
    ex_p1r).1

/-- The zipper `radix_search_exact_z` finds for 0.0.0.0/0 in `c4R`. -/
def c4find : List frame_t × node_t :=
  (radix_search_exact_z c4R.rt ex_p0).getD ([], .null)

/-- Claim C4, counterexample: deleting 0.0.0.0/0 from a tree also holding
0.0.0.0/1 and 128.0.0.0/1 removes a real node with two children; the node
is demoted to a glue node and `num_active_node` does not decrease, contrary
to the claim that every removal strictly decreases it. -/
theorem claim_C4_counterexample :
    (radix_search_exact c4R.rt ex_p0).map (fun n => n.pfx) = some (some ex_p0) ∧
    c4find.2.l ≠ .null ∧ c4find.2.r ≠ .null ∧
    (Radix_delete c4R ex_p0).2 = true ∧
    (Radix_delete c4R ex_p0).1.rt.num_active_node = c4R.rt.num_active_node := by
  decide

/-- Claim C4 (amended): a found `Radix_delete` always increments `gen_id`
(mod 2^32); `num_active_node` strictly decreases when the removed node has
no child (by 1, or by 2 when a glue parent collapses) or exactly one child
(by 1), and is unchanged when it has two children (the node is demoted to
a glue node rather than freed). -/
theorem claim_C4 (R : RadixObject) (p : prefix_t) (path : List frame_t)
    (node : node_t)
    (hfound : radix_search_exact_z R.rt p = some (path, node)) :
    (Radix_delete R p).1.gen_id = (R.gen_id + 1) % 2 ^ 32 ∧
    (node.l ≠ .null ∧ node.r ≠ .null →
      (Radix_delete R p).1.rt.num_active_node = R.rt.num_active_node) ∧
    (node.l = .null ∧ node.r = .null →
      (Radix_delete R p).1.rt.num_active_node < R.rt.num_active_node) ∧
    ((node.l = .null ∧ node.r ≠ .null) ∨ (node.l ≠ .null ∧ node.r = .null) →
      (Radix_delete R p).1.rt.num_active_node = R.rt.num_active_node - 1) := by
  have hdel : Radix_delete R p =
      ({ rt := radix_remove R.rt path node,
         gen_id := (R.gen_id + 1) % 2 ^ 32 }, true) := by
    unfold Radix_delete; rw [hfound]
  rw [hdel]
  refine ⟨rfl, ?_, ?_, ?_⟩
  · rintro ⟨hl, hr⟩; exact radix_remove_num_two _ _ _ hl hr
  · rintro ⟨hl, hr⟩
    rcases radix_remove_num_leaf R.rt path node hl hr with h | h <;> rw [h] <;>
      omega
  · intro h; exact radix_remove_num_one _ _ _ h

/-- Claim C4, witness: the amended theorem applied to the concrete deletion
of 0.0.0.0/0 from `c4R`. -/
theorem claim_C4_witness :
    (Radix_delete c4R ex_p0).1.gen_id = (c4R.gen_id + 1) % 2 ^ 32 ∧
    (c4find.2.l ≠ .null ∧ c4find.2.r ≠ .null →
      (Radix_delete c4R ex_p0).1.rt.num_active_node = c4R.rt.num_active_node) :=
  ⟨(claim_C4 c4R ex_p0 c4find.1 c4find.2 (by decide)).1,
   (claim_C4 c4R ex_p0 c4find.1 c4find.2 (by decide)).2.1⟩

end PyRadix

namespace PyRadix

/-- Mutation of a yielded node's `data` dict (`node.data["x"] = ...` in
Python) happens entirely inside the Python node object (`user_attr`); no
field of the `RadixObject` — neither the C tree nor `gen_id` — is
touched, so on the modelled state it is the identity. -/
def Radix_mutate_node_data (R : RadixObject) : RadixObject := R

/-- Binding state after adding 10.0.0.0/8 once. -/
def c5R1 : RadixObject := (create_add_node newRadixObject ex_10_8).1

/-- Claim C5, counterexample: adding 10.0.0.0/8 a second time creates no
node (the tree, including `num_active_node`, is unchanged), yet
`create_add_node` increments `gen_id` unconditionally, contrary to the
claim that such an insert leaves the generation counter unchanged. -/
theorem claim_C5_counterexample :
    (create_add_node c5R1 ex_10_8).1.rt = c5R1.rt ∧
    (create_add_node c5R1 ex_10_8).1.gen_id ≠ c5R1.gen_id := by
  decide

/-- Claim C5 (amended): `gen_id` is incremented (mod 2^32) by every
successful add — even an add of an already-stored prefix, which creates
no node — and by every found delete; an unfound delete (`KeyError`) and
payload mutation leave it unchanged. -/
theorem claim_C5 (R : RadixObject) (p : prefix_t) :
    (create_add_node R p).1.gen_id = (R.gen_id + 1) % 2 ^ 32 ∧
    (Radix_delete R p).1.gen_id =
      (if (Radix_delete R p).2 then (R.gen_id + 1) % 2 ^ 32 else R.gen_id) ∧
    (Radix_mutate_node_data R).gen_id = R.gen_id := by
  refine ⟨rfl, ?_, rfl⟩
  unfold Radix_delete
  cases h : radix_search_exact_z R.rt p with
  | none => rfl
  | some pn => rfl

/-- Tree holding only 0.0.0.0/2 (a single real node). -/
def c7t0 : radix_tree_t := (radix_lookup New_Radix ex_p2l).tree

/-- Claim C7: inserting 192.0.0.0/2 into `c7t0` needs a glue node (fork
case).  When the first node allocation fails (fresh root with `New_Radix`,
or `new_node` with `c7t0`), `radix_lookup` indeed returns NULL with the
tree in its pre-call state; but when the glue allocation fails, the C
returns NULL after allocating `new_node` and incrementing
`num_active_node`, without freeing it: the counter is left incremented
(the heads are untouched), contradicting the claim and §7 of the spec. -/
theorem claim_C7 :
    (radix_lookup_alloc New_Radix ex_p2r false true).1 = none ∧
    (radix_lookup_alloc New_Radix ex_p2r false true).2 = New_Radix ∧
    (radix_lookup_alloc c7t0 ex_p2r false true).1 = none ∧
    (radix_lookup_alloc c7t0 ex_p2r false true).2 = c7t0 ∧
    (radix_lookup_alloc c7t0 ex_p2r true false).1 = none ∧
    (radix_lookup_alloc c7t0 ex_p2r true false).2.head_ipv4 = c7t0.head_ipv4 ∧
    (radix_lookup_alloc c7t0 ex_p2r true false).2.head_ipv6 = c7t0.head_ipv6 ∧
    (radix_lookup_alloc c7t0 ex_p2r true false).2.num_active_node
      = c7t0.num_active_node + 1 := by
  decide

end PyRadix

namespace PyRadix

/-! ### Claim C10: every bit test in `radix_lookup` is guarded -/

theorem lookup_descend_tested_lt (addr : List Nat) (bl mb : Nat) :
    ∀ (n : node_t) (path : List frame_t),
      ∀ i ∈ (lookup_descend addr bl mb n path).2.2, i < mb := by
  intro n
  induction n with
  | null => intro path i hi; simp [lookup_descend] at hi
  | mk b p l r d ihl ihr =>
    intro path i hi
    rw [lookup_descend] at hi
    by_cases hc : b < bl ∨ p = none
    · rw [if_pos hc] at hi
      by_cases hdir : b < mb ∧ bit_test_search_bit addr b
      · rw [if_pos hdir] at hi
        cases r with
        | null =>
          simp only at hi
          split at hi <;> simp_all
        | mk br pr lr rr dr =>
          simp only [List.mem_append] at hi
          rcases hi with hi | hi
          · split at hi <;> simp_all
          · exact ihr _ i hi
      · rw [if_neg hdir] at hi
        cases l with
        | null =>
          simp only at hi
          split at hi <;> simp_all
        | mk bl' pl ll rl dl =>
          simp only [List.mem_append] at hi
          rcases hi with hi | hi
          · split at hi <;> simp_all
          · exact ihl _ i hi
    · rw [if_neg hc] at hi
      simp at hi

/-- Claim C10: every evaluation of `BIT_TEST_SEARCH_BIT` during
`radix_lookup` — in the descent loop and in the new-below, new-above and
fork splice cases — uses a bit index strictly below the family's bit
width, because each one is guarded by `node->bit < maxbits`,
`bitlen < maxbits` or `differ_bit < maxbits` respectively; in particular
inserting or locating a full-length prefix never evaluates the primitive
out of the address's range. -/
theorem radix_lookup_splice_tested_mem (t : radix_tree_t) (p : prefix_t)
    (path1 : List frame_t) (node1 : node_t) (differ_bit : Nat)
    (test_addr tested0 : List Nat) :
    ∀ i ∈ (radix_lookup_splice t p path1 node1 differ_bit
            test_addr tested0).tested,
      i ∈ tested0 ∨ i < radix_maxbits_by_family p.family := by
  intro i hi
  simp only [radix_lookup_splice] at hi
  rw [apply_ite lookup_result.tested, apply_ite lookup_result.tested,
    apply_ite lookup_result.tested] at hi
  dsimp only at hi
  split at hi
  · exact Or.inl hi
  · split at hi
    · rcases List.mem_append.mp hi with h | h
      · exact Or.inl h
      · right; split at h <;> simp_all
    · split at hi <;>
      · rcases List.mem_append.mp hi with h | h
        · exact Or.inl h
        · right; split at h <;> simp_all

set_option maxHeartbeats 1000000 in
theorem claim_C10 (t : radix_tree_t) (p : prefix_t) :
    ∀ i ∈ (radix_lookup t p).tested, i < radix_maxbits_by_family p.family := by
  intro i hi
  unfold radix_lookup at hi
  cases hh : radix_head_by_family t p.family with
  | null => rw [hh] at hi; simp at hi
  | mk hb hp hl hr hd =>
    rw [hh] at hi
    dsimp only at hi
    rcases radix_lookup_splice_tested_mem _ _ _ _ _ _ _ i hi with h | h
    · exact lookup_descend_tested_lt _ _ _ _ _ i h
    · exact h

/-- Tree holding only 0.0.0.0/1. -/
def c10t : radix_tree_t := (radix_lookup New_Radix ex_p1l).tree

/-- Claim C10, witness: the theorem applied to inserting the full-length
prefix 10.1.2.3/32 into the tree holding 0.0.0.0/1 (bit 1 is tested
during that descent). -/
theorem claim_C10_witness : 1 < radix_maxbits_by_family ex_host.family :=
  claim_C10 c10t ex_host 1 (by decide)

end PyRadix

namespace PyRadix

/-! ### Claim C6: iterator invalidation -/

theorem iternext_walk_yields (R : RadixObject) :
    ∀ (fuel : Nat) (it : RadixIterObject) (n : node_t) (it' : RadixIterObject),
      iternext_walk R fuel it = some (n, it') →
      n.pfx ≠ none ∧ n.data = true := by
  intro fuel
  induction fuel with
  | zero => intro it n it' h; simp [iternext_walk] at h
  | succ fuel ih =>
    intro it n it' h
    rw [iternext_walk] at h
    cases hrn : it.rn with
    | null =>
      rw [hrn] at h
      cases haf : it.af with
      | af_inet6 => rw [haf] at h; simp at h
      | af_inet => rw [haf] at h; exact ih _ _ _ h
    | mk b p l r d =>
      rw [hrn] at h
      dsimp only at h
      by_cases hskip : p = none ∨ d = false
      · rw [if_pos hskip] at h
        exact ih _ _ _ h
      · rw [if_neg hskip] at h
        push_neg at hskip
        have hpair := Option.some.inj h
        have h1 : node_t.mk b p l r d = n := congrArg Prod.fst hpair
        subst h1
        simp [node_t.pfx, node_t.data, hskip.1, hskip.2]

/-- Claim C6: a `next` call fails with the `ConcurrentModification`
`RuntimeWarning` exactly when the tree's current generation differs from
the generation captured at the iterator's construction; otherwise it
yields the next node, which bears a prefix and a payload, or signals end
of iteration.  After any insert (`create_add_node` bumps `gen_id`
unconditionally) a `next` on a previously started iterator fails, while
mutating a yielded node's `data` touches neither the tree nor `gen_id`
and so never causes a failure. -/
theorem claim_C6 (R : RadixObject) (it : RadixIterObject) (p : prefix_t) :
    (RadixIter_iternext R it = .error () ↔ it.gen_id ≠ R.gen_id) ∧
    (it.gen_id = R.gen_id →
      ∃ o, RadixIter_iternext R it = .ok o ∧
        ∀ n it', o = some (n, it') → n.pfx ≠ none ∧ n.data = true) ∧
    (it.gen_id = R.gen_id →
      RadixIter_iternext (create_add_node R p).1 it = .error ()) ∧
    RadixIter_iternext (Radix_mutate_node_data R) it = RadixIter_iternext R it := by
  refine ⟨?_, ?_, ?_, rfl⟩
  · unfold RadixIter_iternext
    by_cases hne : it.gen_id ≠ R.gen_id
    · simp [hne]
    · simp [hne]
  · intro heq
    refine ⟨iternext_walk R (iter_measure R it + 1) it, ?_, ?_⟩
    · unfold RadixIter_iternext
      rw [if_neg (by simp [heq])]
    · intro n it' h; exact iternext_walk_yields R _ _ _ _ h
  · intro heq
    unfold RadixIter_iternext
    rw [if_pos]
    show it.gen_id ≠ (create_add_node R p).1.gen_id
    have : (create_add_node R p).1.gen_id = (R.gen_id + 1) % 2 ^ 32 := rfl
    rw [this, heq]
    intro hcon
    omega

/-- Claim C6, witness: the theorem applied to the fresh iterator over the
one-node tree `c5R1` (holding 10.0.0.0/8) and the prefix 10.0.0.0/8. -/
theorem claim_C6_witness :
    (RadixIter_iternext c5R1 (newRadixIterObject c5R1) = .error () ↔
      (newRadixIterObject c5R1).gen_id ≠ c5R1.gen_id) ∧
    ((newRadixIterObject c5R1).gen_id = c5R1.gen_id →
      RadixIter_iternext (create_add_node c5R1 ex_10_8).1
        (newRadixIterObject c5R1) = .error ()) :=
  ⟨(claim_C6 c5R1 (newRadixIterObject c5R1) ex_10_8).1,
   (claim_C6 c5R1 (newRadixIterObject c5R1) ex_10_8).2.2.1⟩

end PyRadix

namespace PyRadix

/-! ### Bit-level characterizations of the primitives -/

/-- `a` and `b` agree on address bits `0, ..., k-1`. -/
def agrees (a b : List Nat) (k : Nat) : Prop :=
  ∀ i, i < k → bit_test_search_bit a i = bit_test_search_bit b i

theorem agrees_mono {a b : List Nat} {j k : Nat} (h : agrees a b k)
    (hjk : j ≤ k) : agrees a b j :=
  fun i hi => h i (lt_of_lt_of_le hi hjk)

theorem agrees_refl (a : List Nat) (k : Nat) : agrees a a k := fun _ _ => rfl

theorem agrees_symm {a b : List Nat} {k : Nat} (h : agrees a b k) :
    agrees b a k := fun i hi => (h i hi).symm

theorem agrees_trans {a b c : List Nat} {k : Nat} (h1 : agrees a b k)
    (h2 : agrees b c k) : agrees a c k :=
  fun i hi => (h1 i hi).trans (h2 i hi)

theorem getD_lt_256 {a : List Nat} (ha : ∀ x ∈ a, x < 256) (i : Nat) :
    a.getD i 0 < 256 := by
  rcases Nat.lt_or_ge i a.length with h | h
  · rw [List.getD_eq_getElem a 0 h]; exact ha _ (List.getElem_mem h)
  · rw [List.getD_eq_default a 0 h]; norm_num

theorem bit_test_eq_testBit (a : List Nat) (i : Nat) :
    bit_test_search_bit a i = (a.getD (i / 8) 0).testBit (7 - i % 8) := by
  unfold bit_test_search_bit
  have h1 : i >>> 3 = i / 8 := by
    rw [Nat.shiftRight_eq_div_pow]
  have h2 : i &&& 0x07 = i % 8 := by
    have h7 : (0x07 : Nat) = 2 ^ 3 - 1 := by norm_num
    rw [h7, Nat.and_pow_two_sub_one_eq_mod]
  have h3 : (0x80 : Nat) >>> (i &&& 0x07) = 2 ^ (7 - i % 8) := by
    rw [h2, Nat.shiftRight_eq_div_pow]
    have h80 : (0x80 : Nat) = 2 ^ 7 := by norm_num
    rw [h80, Nat.pow_div (by omega : i % 8 ≤ 7) (by norm_num)]
  rw [h1, h3, Nat.and_two_pow]
  cases h : (a.getD (i / 8) 0).testBit (7 - i % 8) <;> simp [h]

theorem bit_test_byte (a : List Nat) (i j : Nat) (hj : j < 8) :
    bit_test_search_bit a (8 * i + j) = (a.getD i 0).testBit (7 - j) := by
  rw [bit_test_eq_testBit]
  have h1 : (8 * i + j) / 8 = i := by omega
  have h2 : (8 * i + j) % 8 = j := by omega
  rw [h1, h2]

theorem byte_testBit_high {x : Nat} (hx : x < 256) {j : Nat} (hj : 8 ≤ j) :
    x.testBit j = false := by
  apply Nat.testBit_lt_two_pow
  calc x < 256 := hx
    _ = 2 ^ 8 := by norm_num
    _ ≤ 2 ^ j := Nat.pow_le_pow_right (by norm_num) hj

/-- Address bits at and beyond `8 * a.length` read as zero. -/
theorem bit_test_beyond (a : List Nat) {i : Nat} (h : 8 * a.length ≤ i) :
    bit_test_search_bit a i = false := by
  rw [bit_test_eq_testBit, List.getD_eq_default a 0 (by omega)]
  simp

theorem byte_eq_iff {x y : Nat} (hx : x < 256) (hy : y < 256) :
    x = y ↔ ∀ j, j < 8 → x.testBit (7 - j) = y.testBit (7 - j) := by
  constructor
  · rintro rfl _ _; rfl
  · intro h
    apply Nat.eq_of_testBit_eq
    intro i
    rcases Nat.lt_or_ge i 8 with hi | hi
    · have := h (7 - i) (by omega)
      rwa [Nat.sub_sub_self (by omega : i ≤ 7)] at this
    · rw [byte_testBit_high hx hi, byte_testBit_high hy hi]

theorem mask_m_testBit {r : Nat} (hr0 : 0 < r) (hr : r < 8) (j : Nat) :
    ((0xFFFFFFFF <<< (8 - r)) % 2 ^ 32).testBit j
      = decide (8 - r ≤ j ∧ j < 32) := by
  rw [Nat.testBit_mod_two_pow, Nat.testBit_shiftLeft]
  have hf : (0xFFFFFFFF : Nat) = 2 ^ 32 - 1 := by norm_num
  rw [hf, Nat.testBit_two_pow_sub_one]
  by_cases h1 : j < 32 <;> by_cases h2 : 8 - r ≤ j
  · have h3 : j - (8 - r) < 32 := by omega
    simp [h1, h2, h3]
  · simp [h1, h2]
  · simp [h1, h2]
  · simp [h1, h2]

theorem masked_eq_iff {x y : Nat} (hx : x < 256) (hy : y < 256)
    {r : Nat} (hr0 : 0 < r) (hr : r < 8) :
    (x &&& ((0xFFFFFFFF <<< (8 - r)) % 2 ^ 32)
      = y &&& ((0xFFFFFFFF <<< (8 - r)) % 2 ^ 32)) ↔
    ∀ j, j < r → x.testBit (7 - j) = y.testBit (7 - j) := by
  constructor
  · intro h j hj
    have hb := congrArg (fun z => z.testBit (7 - j)) h
    simp only [Nat.testBit_and, mask_m_testBit hr0 hr] at hb
    have hc : 8 - r ≤ 7 - j ∧ 7 - j < 32 := ⟨by omega, by omega⟩
    simpa [hc.1, hc.2] using hb
  · intro h
    apply Nat.eq_of_testBit_eq
    intro j
    rw [Nat.testBit_and, Nat.testBit_and, mask_m_testBit hr0 hr]
    by_cases hm : 8 - r ≤ j ∧ j < 32
    · rcases Nat.lt_or_ge j 8 with hj8 | hj8
      · have := h (7 - j) (by omega)
        rw [Nat.sub_sub_self (by omega : j ≤ 7)] at this
        simp [this]
      · rw [byte_testBit_high hx hj8, byte_testBit_high hy hj8]
    · have h32 : ¬ (8 ≤ j + r) ∨ ¬ (j < 32) := by omega
      rcases h32 with h' | h' <;> simp [h']

theorem take_eq_iff_getD {a b : List Nat} {n : Nat}
    (hla : n ≤ a.length) (hlb : n ≤ b.length) :
    a.take n = b.take n ↔ ∀ i, i < n → a.getD i 0 = b.getD i 0 := by
  constructor
  · intro h i hi
    have h1 : a.getD i 0 = (a.take n).getD i 0 := by
      rw [List.getD_eq_getElem a 0 (by omega),
        List.getD_eq_getElem (a.take n) 0
          (by rw [List.length_take]; omega)]
      exact (List.getElem_take a).symm
    have h2 : b.getD i 0 = (b.take n).getD i 0 := by
      rw [List.getD_eq_getElem b 0 (by omega),
        List.getD_eq_getElem (b.take n) 0
          (by rw [List.length_take]; omega)]
      exact (List.getElem_take b).symm
    rw [h1, h2, h]
  · intro h
    apply List.ext_getElem
    · rw [List.length_take, List.length_take]; omega
    · intro i h1 h2
      rw [List.length_take] at h1
      have := h i (by omega)
      rw [List.getD_eq_getElem a 0 (by omega),
        List.getD_eq_getElem b 0 (by omega)] at this
      simpa [List.getElem_take] using this

end PyRadix

namespace PyRadix

/-- `comp_with_mask` decides agreement on the first `mask` bits. -/
theorem comp_with_mask_true_iff {a b : List Nat} {k : Nat}
    (ha : ∀ x ∈ a, x < 256) (hb : ∀ x ∈ b, x < 256)
    (hla : k ≤ 8 * a.length) (hlb : k ≤ 8 * b.length) :
    comp_with_mask a b k = true ↔ agrees a b k := by
  unfold comp_with_mask
  have hna : k / 8 ≤ a.length := by omega
  have hnb : k / 8 ≤ b.length := by omega
  by_cases htake : a.take (k / 8) = b.take (k / 8)
  · rw [if_pos htake]
    have hbytes := (take_eq_iff_getD hna hnb).mp htake
    by_cases hr : k % 8 = 0
    · rw [show ((k % 8 == 0) : Bool) = true by simp [hr], Bool.true_or]
      simp only [true_iff]
      intro i hi
      have hbyte := hbytes (i / 8) (by omega)
      rw [bit_test_eq_testBit, bit_test_eq_testBit, hbyte]
    · have hr0 : 0 < k % 8 := Nat.pos_of_ne_zero hr
      have hr8 : k % 8 < 8 := Nat.mod_lt _ (by norm_num)
      rw [show ((k % 8 == 0) : Bool) = false by simp [hr], Bool.false_or,
        beq_iff_eq,
        masked_eq_iff (getD_lt_256 ha _) (getD_lt_256 hb _) hr0 hr8]
      constructor
      · intro h i hi
        rcases Nat.lt_or_ge (i / 8) (k / 8) with hi8 | hi8
        · rw [bit_test_eq_testBit, bit_test_eq_testBit, hbytes (i / 8) hi8]
        · have hieq : i / 8 = k / 8 := by omega
          have hj : i % 8 < k % 8 := by omega
          have := h (i % 8) hj
          rw [bit_test_eq_testBit, bit_test_eq_testBit, hieq]
          exact this
      · intro h j hj
        have hidx : 8 * (k / 8) + j < k := by omega
        have := h (8 * (k / 8) + j) hidx
        rwa [bit_test_byte a _ _ (by omega), bit_test_byte b _ _ (by omega)]
          at this
  · rw [if_neg htake]
    simp only [Bool.false_eq_true, false_iff]
    intro hag
    apply htake
    apply (take_eq_iff_getD hna hnb).mpr
    intro i hi
    rw [byte_eq_iff (getD_lt_256 ha i) (getD_lt_256 hb i)]
    intro j hj
    have hijk : 8 * i + j < k := by omega
    have := hag (8 * i + j) hijk
    rwa [bit_test_byte a _ _ hj, bit_test_byte b _ _ hj] at this

/-- `comp_with_mask` of an address with itself. -/
theorem comp_with_mask_self (a : List Nat) (k : Nat) :
    comp_with_mask a a k = true := by
  unfold comp_with_mask
  rw [if_pos rfl]
  simp

set_option maxRecDepth 100000 in
/-- The inner 8-bit scan of the differ loop: for a nonzero byte, the
found index is below 8, the bit there is set, and all earlier bits are
clear. -/
theorem differ_first_bit_spec :
    ∀ r, r < 256 → r ≠ 0 →
      differ_first_bit_in_byte r < 8 ∧
      r.testBit (7 - differ_first_bit_in_byte r) = true ∧
      ∀ j, j < differ_first_bit_in_byte r → r.testBit (7 - j) = false := by
  decide

end PyRadix

namespace PyRadix

/-- Invariant proof of the differ loop: entering iteration `i` with the
accumulator at `8 * i` and the first `8 * i` bits known to agree, the
scan result bounds the agreeing bits and, when below `check_bit`, points
at a differing bit. -/
theorem differ_scan_spec (a b : List Nat)
    (ha : ∀ x ∈ a, x < 256) (hb : ∀ x ∈ b, x < 256) (k : Nat) :
    ∀ (fuel i : Nat), k ≤ 8 * (i + fuel) → agrees a b (8 * i) →
      agrees a b (min (differ_scan a b k fuel i (8 * i)) k) ∧
      (differ_scan a b k fuel i (8 * i) < k →
        bit_test_search_bit a (differ_scan a b k fuel i (8 * i))
          ≠ bit_test_search_bit b (differ_scan a b k fuel i (8 * i))) := by
  intro fuel
  induction fuel with
  | zero =>
    intro i hk hag
    rw [differ_scan]
    constructor
    · rw [min_eq_right (by omega)]
      exact agrees_mono hag (by omega)
    · intro hlt; omega
  | succ fuel ih =>
    intro i hk hag
    rw [differ_scan]
    by_cases hc : i * 8 < k
    · rw [if_pos hc]
      by_cases hxy : a.getD i 0 ^^^ b.getD i 0 = 0
      · rw [if_pos hxy]
        have hbyte : a.getD i 0 = b.getD i 0 := Nat.xor_eq_zero.mp hxy
        have hag' : agrees a b (8 * (i + 1)) := by
          intro m hm
          rcases Nat.lt_or_ge m (8 * i) with h' | h'
          · exact hag m h'
          · have hj : m - 8 * i < 8 := by omega
            have hmeq : m = 8 * i + (m - 8 * i) := by omega
            rw [hmeq, bit_test_byte a _ _ hj, bit_test_byte b _ _ hj, hbyte]
        have hstep := ih (i + 1) (by omega) hag'
        rw [show (i + 1) * 8 = 8 * (i + 1) by ring]
        exact hstep
      · rw [if_neg hxy]
        have hx : a.getD i 0 < 256 := getD_lt_256 ha i
        have hy : b.getD i 0 < 256 := getD_lt_256 hb i
        have hrlt : a.getD i 0 ^^^ b.getD i 0 < 256 := by
          have h256 : (256 : Nat) = 2 ^ 8 := by norm_num
          rw [h256] at hx hy ⊢
          exact Nat.xor_lt_two_pow hx hy
        obtain ⟨hj8, hset, hclear⟩ :=
          differ_first_bit_spec (a.getD i 0 ^^^ b.getD i 0) hrlt hxy
        constructor
        · intro m hm
          rw [lt_min_iff] at hm
          rcases Nat.lt_or_ge m (8 * i) with h' | h'
          · exact hag m h'
          · have hj' : m - 8 * i < 8 := by omega
            have hb' := hclear (m - 8 * i) (by omega)
            rw [Nat.testBit_xor] at hb'
            have hmeq : m = 8 * i + (m - 8 * i) := by omega
            rw [hmeq, bit_test_byte a _ _ hj', bit_test_byte b _ _ hj']
            cases hxb : (a.getD i 0).testBit (7 - (m - 8 * i)) <;>
              cases hyb : (b.getD i 0).testBit (7 - (m - 8 * i))
            · rfl
            · rw [hxb, hyb] at hb'; simp at hb'
            · rw [hxb, hyb] at hb'; simp at hb'
            · rfl
        · intro _
          rw [show i * 8 + differ_first_bit_in_byte (a.getD i 0 ^^^ b.getD i 0)
              = 8 * i + differ_first_bit_in_byte (a.getD i 0 ^^^ b.getD i 0)
                by ring,
            bit_test_byte a _ _ hj8, bit_test_byte b _ _ hj8]
          rw [Nat.testBit_xor] at hset
          intro heq
          rw [heq] at hset
          simp at hset
    · rw [if_neg hc]
      constructor
      · rw [min_eq_right (by omega)]
        exact agrees_mono hag (by omega)
      · intro hlt; omega

/-- The differ-bit computation of `radix_lookup` finds exactly the first
differing bit (capped at `check_bit`). -/
theorem find_differ_bit_spec (a b : List Nat)
    (ha : ∀ x ∈ a, x < 256) (hb : ∀ x ∈ b, x < 256) (k : Nat) :
    find_differ_bit a b k ≤ k ∧
    agrees a b (find_differ_bit a b k) ∧
    (find_differ_bit a b k < k →
      bit_test_search_bit a (find_differ_bit a b k)
        ≠ bit_test_search_bit b (find_differ_bit a b k)) := by
  have h := differ_scan_spec a b ha hb k (k + 1) 0 (by omega)
    (fun i hi => absurd hi (by omega))
  rw [Nat.mul_zero] at h
  unfold find_differ_bit
  by_cases hgt : differ_scan a b k (k + 1) 0 0 > k
  · rw [if_pos hgt]
    refine ⟨le_refl k, ?_, by omega⟩
    have h1 := h.1
    rwa [min_eq_right (by omega)] at h1
  · rw [if_neg hgt]
    refine ⟨by omega, ?_, h.2⟩
    have h1 := h.1
    rwa [min_eq_left (by omega)] at h1

/-- The differ bit of an address against itself is `check_bit`. -/
theorem find_differ_bit_self (a : List Nat) (ha : ∀ x ∈ a, x < 256)
    (k : Nat) : find_differ_bit a a k = k := by
  have h := find_differ_bit_spec a a ha ha k
  rcases Nat.lt_or_ge (find_differ_bit a a k) k with hlt | hge
  · exact absurd rfl (h.2.2 hlt)
  · omega

end PyRadix

namespace PyRadix

/-! ### The Patricia invariant -/

/-- The real (prefix-bearing) nodes of a subtree, in left-right-self
order (the emission order of `radix_search_covered`'s stack machine). -/
def real_nodes : node_t → List node_t
  | .null => []
  | .mk b p l r d =>
    real_nodes l ++ real_nodes r ++
      (if p ≠ none then [.mk b p l r d] else [])

/-- The prefixes stored in a subtree. -/
def subPfxs (n : node_t) : List prefix_t :=
  (real_nodes n).filterMap (fun m => m.pfx)

theorem subPfxs_null : subPfxs .null = [] := rfl

theorem subPfxs_mk (b : Nat) (p : Option prefix_t) (l r : node_t) (d : Bool) :
    subPfxs (.mk b p l r d) =
      subPfxs l ++ subPfxs r ++ (match p with | some P => [P] | none => []) := by
  unfold subPfxs
  rw [real_nodes, List.filterMap_append, List.filterMap_append]
  cases p <;> simp [node_t.pfx]

theorem mem_subPfxs_mk {P : prefix_t} {b : Nat} {p : Option prefix_t}
    {l r : node_t} {d : Bool} :
    P ∈ subPfxs (.mk b p l r d) ↔
      P ∈ subPfxs l ∨ P ∈ subPfxs r ∨ p = some P := by
  rw [subPfxs_mk]
  cases p <;> simp [or_assoc, eq_comm]

/-- All the nodes of a subtree (the node itself first). -/
def all_nodes : node_t → List node_t
  | .null => []
  | .mk b p l r d => .mk b p l r d :: (all_nodes l ++ all_nodes r)

/-- The Patricia invariant of a (sub)tree of family `fam`: bit indices
bounded by the family width and strictly increasing downward; real nodes
anchored (`bit = prefix->bitlen`, valid prefix of the family); glue
nodes have two children; prefixes in the left (right) subtree have bit
`bit` clear (set); and all prefixes of the subtree agree on the first
`bit` bits. -/
inductive InvN (fam : Family) : node_t → Prop where
  | null : InvN fam .null
  | mk {b : Nat} {p : Option prefix_t} {l r : node_t} {d : Bool} :
      b ≤ radix_maxbits_by_family fam →
      (∀ P, p = some P → P.family = fam ∧ pfx_valid P ∧ P.bitlen = b) →
      (p = none → l ≠ .null ∧ r ≠ .null) →
      (l ≠ .null → b < l.bit) →
      (r ≠ .null → b < r.bit) →
      InvN fam l → InvN fam r →
      (∀ P ∈ subPfxs l, bit_test_search_bit P.add b = false) →
      (∀ P ∈ subPfxs r, bit_test_search_bit P.add b = true) →
      (∀ P ∈ subPfxs (.mk b p l r d), ∀ Q ∈ subPfxs (.mk b p l r d),
        agrees P.add Q.add b) →
      InvN fam (.mk b p l r d)

/-- The global invariant used throughout: both family subtrees satisfy
the Patricia invariant and `num_active_node` counts the reachable
nodes. -/
def InvT (t : radix_tree_t) : Prop :=
  InvN .af_inet t.head_ipv4 ∧ InvN .af_inet6 t.head_ipv6 ∧
  t.num_active_node = (node_size t.head_ipv4 : Int) + node_size t.head_ipv6

theorem InvN_mk_iff {fam : Family} {b : Nat} {p : Option prefix_t}
    {l r : node_t} {d : Bool} :
    InvN fam (.mk b p l r d) ↔
      b ≤ radix_maxbits_by_family fam ∧
      (∀ P, p = some P → P.family = fam ∧ pfx_valid P ∧ P.bitlen = b) ∧
      (p = none → l ≠ .null ∧ r ≠ .null) ∧
      (l ≠ .null → b < l.bit) ∧
      (r ≠ .null → b < r.bit) ∧
      InvN fam l ∧ InvN fam r ∧
      (∀ P ∈ subPfxs l, bit_test_search_bit P.add b = false) ∧
      (∀ P ∈ subPfxs r, bit_test_search_bit P.add b = true) ∧
      (∀ P ∈ subPfxs (.mk b p l r d), ∀ Q ∈ subPfxs (.mk b p l r d),
        agrees P.add Q.add b) := by
  constructor
  · intro h
    cases h with
    | mk h1 h2 h3 h4 h5 h6 h7 h8 h9 h10 =>
      exact ⟨h1, h2, h3, h4, h5, h6, h7, h8, h9, h10⟩
  · rintro ⟨h1, h2, h3, h4, h5, h6, h7, h8, h9, h10⟩
    exact InvN.mk h1 h2 h3 h4 h5 h6 h7 h8 h9 h10

/-- A nonempty invariant subtree stores at least one prefix
(glue nodes have two children, so some descendant is real). -/
theorem subPfxs_ne_nil {fam : Family} {n : node_t} (h : InvN fam n)
    (hn : n ≠ .null) : subPfxs n ≠ [] := by
  induction h with
  | null => exact absurd rfl hn
  | @mk b p l r d h1 h2 h3 h4 h5 h6 h7 h8 h9 h10 ihl ihr =>
    rw [subPfxs_mk]
    cases p with
    | some P => simp
    | none =>
      have hl := (h3 rfl).1
      have := ihl hl
      intro hcon
      rcases List.append_eq_nil.mp ((List.append_eq_nil.mp hcon).1) with ⟨hl', _⟩
      exact this hl'

end PyRadix

namespace PyRadix

theorem subPfxs_valid {fam : Family} {n : node_t} (h : InvN fam n) :
    ∀ P ∈ subPfxs n, P.family = fam ∧ pfx_valid P := by
  induction h with
  | null => intro P hP; rw [subPfxs_null] at hP; cases hP
  | @mk b p l r d h1 h2 h3 h4 h5 h6 h7 h8 h9 h10 ihl ihr =>
    intro P hP
    rcases mem_subPfxs_mk.mp hP with h | h | h
    · exact ihl P h
    · exact ihr P h
    · exact ⟨(h2 P h).1, (h2 P h).2.1⟩

theorem subPfxs_bitlen {fam : Family} {n : node_t} (h : InvN fam n) :
    ∀ P ∈ subPfxs n, (n.pfx = some P ∧ P.bitlen = n.bit) ∨ n.bit < P.bitlen := by
  induction h with
  | null => intro P hP; rw [subPfxs_null] at hP; cases hP
  | @mk b p l r d h1 h2 h3 h4 h5 h6 h7 h8 h9 h10 ihl ihr =>
    intro P hP
    rcases mem_subPfxs_mk.mp hP with h | h | h
    · right
      have hl : l ≠ .null := by
        intro hc; rw [hc, subPfxs_null] at h; cases h
      have hbl := h4 hl
      rcases ihl P h with ⟨_, h'⟩ | h' <;>
        simp only [node_t.bit] <;> omega
    · right
      have hr : r ≠ .null := by
        intro hc; rw [hc, subPfxs_null] at h; cases h
      have hbr := h5 hr
      rcases ihr P h with ⟨_, h'⟩ | h' <;>
        simp only [node_t.bit] <;> omega
    · left; exact ⟨h, ((h2 P h).2.2)⟩

/-! ### Rebuild and zipper lemmas -/

theorem node_size_rebuild1 (f : frame_t) (n : node_t) :
    node_size (rebuild1 f n) = 1 + node_size f.other + node_size n := by
  cases hd : f.d <;> simp [rebuild1, hd, node_size] <;> ring

/-- Total node count contributed by a reassembled path. -/
def path_weight (path : List frame_t) : Nat :=
  (path.map (fun f => 1 + node_size f.other)).sum

theorem node_size_rebuild (path : List frame_t) (n : node_t) :
    node_size (rebuild path n) = node_size n + path_weight path := by
  induction path generalizing n with
  | nil => simp [rebuild, path_weight]
  | cons f fs ih =>
    rw [rebuild, ih, node_size_rebuild1]
    simp [path_weight]
    ring

theorem rebuild_append (fs1 fs2 : List frame_t) (n : node_t) :
    rebuild (fs1 ++ fs2) n = rebuild fs2 (rebuild fs1 n) := by
  induction fs1 generalizing n with
  | nil => rfl
  | cons f fs ih => rw [List.cons_append, rebuild, ih, rebuild]

theorem rebuild1_bit (f : frame_t) (n : node_t) :
    (rebuild1 f n).bit = f.bit := by
  cases hd : f.d <;> simp [rebuild1, hd, node_t.bit]

theorem rebuild1_pfx (f : frame_t) (n : node_t) :
    (rebuild1 f n).pfx = f.pfx := by
  cases hd : f.d <;> simp [rebuild1, hd, node_t.pfx]

theorem rebuild1_ne_null (f : frame_t) (n : node_t) :
    rebuild1 f n ≠ .null := by
  cases hd : f.d <;> simp [rebuild1, hd]

theorem subPfxs_rebuild1 (f : frame_t) (n : node_t) :
    subPfxs (rebuild1 f n) =
      match f.d with
      | .left => subPfxs n ++ subPfxs f.other ++
          (match f.pfx with | some P => [P] | none => [])
      | .right => subPfxs f.other ++ subPfxs n ++
          (match f.pfx with | some P => [P] | none => []) := by
  cases hd : f.d <;> simp [rebuild1, hd, subPfxs_mk]

theorem mem_subPfxs_rebuild1 {P : prefix_t} (f : frame_t) (n : node_t)
    (h : P ∈ subPfxs n) : P ∈ subPfxs (rebuild1 f n) := by
  rw [subPfxs_rebuild1]
  cases hd : f.d <;> simp [h]

theorem mem_subPfxs_rebuild {P : prefix_t} (path : List frame_t) (n : node_t)
    (h : P ∈ subPfxs n) : P ∈ subPfxs (rebuild path n) := by
  induction path generalizing n with
  | nil => exact h
  | cons f fs ih => exact ih _ (mem_subPfxs_rebuild1 f n h)

theorem InvN_of_rebuild1 {fam : Family} {f : frame_t} {n : node_t}
    (h : InvN fam (rebuild1 f n)) : InvN fam n := by
  cases hd : f.d <;> rw [rebuild1, hd] at h
  · exact (InvN_mk_iff.mp h).2.2.2.2.2.1
  · exact (InvN_mk_iff.mp h).2.2.2.2.2.2.1

theorem InvN_of_rebuild {fam : Family} {path : List frame_t} {n : node_t}
    (h : InvN fam (rebuild path n)) : InvN fam n := by
  induction path generalizing n with
  | nil => exact h
  | cons f fs ih => exact InvN_of_rebuild1 (@ih (rebuild1 f n) h)

theorem frame_bit_lt_of_rebuild1 {fam : Family} {f : frame_t} {n : node_t}
    (h : InvN fam (rebuild1 f n)) (hn : n ≠ .null) : f.bit < n.bit := by
  cases hd : f.d <;> rw [rebuild1, hd] at h
  · exact (InvN_mk_iff.mp h).2.2.2.1 hn
  · exact (InvN_mk_iff.mp h).2.2.2.2.1 hn

theorem path_bits_lt {fam : Family} {path : List frame_t} {n : node_t}
    (h : InvN fam (rebuild path n)) (hn : n ≠ .null) :
    ∀ f ∈ path, f.bit < n.bit := by
  induction path generalizing n with
  | nil => intro f hf; cases hf
  | cons g gs ih =>
    intro f hf
    rw [rebuild] at h
    rcases List.mem_cons.mp hf with rfl | hf'
    · exact frame_bit_lt_of_rebuild1 (InvN_of_rebuild h) hn
    · have hg := @ih (rebuild1 g n) h (rebuild1_ne_null g n) f hf'
      rw [rebuild1_bit] at hg
      have := frame_bit_lt_of_rebuild1 (InvN_of_rebuild h) hn
      omega

/-- Direction invariant seen through a frame: every prefix of the hole
subtree has bit `f.bit` equal to the frame's direction. -/
theorem frame_dir_of_rebuild1 {fam : Family} {f : frame_t} {n : node_t}
    (h : InvN fam (rebuild1 f n)) :
    ∀ P ∈ subPfxs n, bit_test_search_bit P.add f.bit = (f.d == .right) := by
  cases hd : f.d <;> rw [rebuild1, hd] at h <;> intro P hP
  · rw [(InvN_mk_iff.mp h).2.2.2.2.2.2.2.1 P hP]; simp
  · rw [(InvN_mk_iff.mp h).2.2.2.2.2.2.2.2.1 P hP]; simp

/-- Pairwise agreement seen through a frame: a prefix of the hole
subtree agrees with every prefix of the rebuilt parent on the parent's
bit count. -/
theorem frame_pairwise_of_rebuild1 {fam : Family} {f : frame_t} {n : node_t}
    (h : InvN fam (rebuild1 f n)) :
    ∀ P ∈ subPfxs n, ∀ Q ∈ subPfxs (rebuild1 f n),
      agrees P.add Q.add f.bit := by
  intro P hP Q hQ
  have hP' : P ∈ subPfxs (rebuild1 f n) := mem_subPfxs_rebuild1 f n hP
  cases hd : f.d <;> rw [rebuild1, hd] at h hP' hQ
  · exact (InvN_mk_iff.mp h).2.2.2.2.2.2.2.2.2 P hP' Q hQ
  · exact (InvN_mk_iff.mp h).2.2.2.2.2.2.2.2.2 P hP' Q hQ

end PyRadix

namespace PyRadix

/-- Pairwise agreement of all prefixes of an invariant subtree on its
root's bit count. -/
theorem subPfxs_pairwise {fam : Family} {n : node_t} (h : InvN fam n) :
    ∀ P ∈ subPfxs n, ∀ Q ∈ subPfxs n, agrees P.add Q.add n.bit := by
  cases h with
  | null => intro P hP; rw [subPfxs_null] at hP; cases hP
  | mk h1 h2 h3 h4 h5 h6 h7 h8 h9 h10 => exact h10

/-- One-frame version of the replacement lemma: if the old parent
`rebuild1 f m` is invariant, the new subtree `m'` is invariant, all new
prefixes agree with all old ones up to `K > f.bit`, and `f.bit < m'.bit`,
then the new parent is invariant and its prefixes pairwise agree with
the old parent's up to `f.bit`. -/
theorem rebuild1_inv_replace {fam : Family} {f : frame_t} {m m' : node_t}
    {K : Nat}
    (hM : InvN fam (rebuild1 f m)) (hm' : InvN fam m')
    (hm0 : m ≠ .null) (hm'0 : m' ≠ .null)
    (hag : ∀ P' ∈ subPfxs m', ∀ P ∈ subPfxs m, agrees P'.add P.add K)
    (hfK : f.bit < K) (hfm' : f.bit < m'.bit) :
    InvN fam (rebuild1 f m') ∧
    (∀ P' ∈ subPfxs (rebuild1 f m'), ∀ P ∈ subPfxs (rebuild1 f m),
      agrees P'.add P.add f.bit) := by
  have hm : InvN fam m := InvN_of_rebuild1 hM
  obtain ⟨P0, hP0⟩ := List.exists_mem_of_ne_nil _ (subPfxs_ne_nil hm hm0)
  have hnew : ∀ P' ∈ subPfxs m', ∀ Q ∈ subPfxs (rebuild1 f m),
      agrees P'.add Q.add f.bit := by
    intro P' hP' Q hQ
    exact agrees_trans (agrees_mono (hag P' hP' P0 hP0) (by omega))
      (frame_pairwise_of_rebuild1 hM P0 hP0 Q hQ)
  have hnewnew : ∀ P' ∈ subPfxs m', ∀ Q' ∈ subPfxs m',
      agrees P'.add Q'.add f.bit := by
    intro P' hP' Q' hQ'
    exact agrees_trans (agrees_mono (hag P' hP' P0 hP0) (by omega))
      (agrees_symm (agrees_mono (hag Q' hQ' P0 hP0) (by omega)))
  have hdir : ∀ P' ∈ subPfxs m',
      bit_test_search_bit P'.add f.bit = (f.d == .right) := by
    intro P' hP'
    rw [← frame_dir_of_rebuild1 hM P0 hP0]
    exact hag P' hP' P0 hP0 f.bit hfK
  constructor
  · cases hd : f.d <;> rw [rebuild1, hd] at hM ⊢
    case left =>
      obtain ⟨h1, h2, h3, h4, h5, h6, h7, h8, h9, h10⟩ := InvN_mk_iff.mp hM
      have hold : ∀ X : prefix_t, (X ∈ subPfxs f.other ∨ f.pfx = some X) →
          X ∈ subPfxs (node_t.mk f.bit f.pfx m f.other f.data) := by
        intro X hX
        exact mem_subPfxs_mk.mpr (Or.inr (hX.imp id id))
      apply InvN_mk_iff.mpr
      refine ⟨h1, h2, fun hp => ⟨hm'0, (h3 hp).2⟩, fun _ => hfm', h5, hm', h7,
        ?_, h9, ?_⟩
      · intro P hP
        have := hdir P hP
        rw [hd] at this
        simpa using this
      · intro P hP Q hQ
        rcases mem_subPfxs_mk.mp hP with hP' | hP' | hP' <;>
          rcases mem_subPfxs_mk.mp hQ with hQ' | hQ' | hQ'
        · exact hnewnew P hP' Q hQ'
        · exact hnew P hP' Q (by rw [rebuild1, hd]; exact hold Q (Or.inl hQ'))
        · exact hnew P hP' Q (by rw [rebuild1, hd]; exact hold Q (Or.inr hQ'))
        · exact agrees_symm
            (hnew Q hQ' P (by rw [rebuild1, hd]; exact hold P (Or.inl hP')))
        · exact h10 P (hold P (Or.inl hP')) Q (hold Q (Or.inl hQ'))
        · exact h10 P (hold P (Or.inl hP')) Q (hold Q (Or.inr hQ'))
        · exact agrees_symm
            (hnew Q hQ' P (by rw [rebuild1, hd]; exact hold P (Or.inr hP')))
        · exact h10 P (hold P (Or.inr hP')) Q (hold Q (Or.inl hQ'))
        · exact h10 P (hold P (Or.inr hP')) Q (hold Q (Or.inr hQ'))
    case right =>
      obtain ⟨h1, h2, h3, h4, h5, h6, h7, h8, h9, h10⟩ := InvN_mk_iff.mp hM
      have hold : ∀ X : prefix_t, (X ∈ subPfxs f.other ∨ f.pfx = some X) →
          X ∈ subPfxs (node_t.mk f.bit f.pfx f.other m f.data) := by
        intro X hX
        rcases hX with hX | hX
        · exact mem_subPfxs_mk.mpr (Or.inl hX)
        · exact mem_subPfxs_mk.mpr (Or.inr (Or.inr hX))
      apply InvN_mk_iff.mpr
      refine ⟨h1, h2, fun hp => ⟨(h3 hp).1, hm'0⟩, h4, fun _ => hfm', h6, hm',
        h8, ?_, ?_⟩
      · intro P hP
        have := hdir P hP
        rw [hd] at this
        simpa using this
      · intro P hP Q hQ
        rcases mem_subPfxs_mk.mp hP with hP' | hP' | hP' <;>
          rcases mem_subPfxs_mk.mp hQ with hQ' | hQ' | hQ'
        · exact h10 P (hold P (Or.inl hP')) Q (hold Q (Or.inl hQ'))
        · exact agrees_symm
            (hnew Q hQ' P (by rw [rebuild1, hd]; exact hold P (Or.inl hP')))
        · exact h10 P (hold P (Or.inl hP')) Q (hold Q (Or.inr hQ'))
        · exact hnew P hP' Q (by rw [rebuild1, hd]; exact hold Q (Or.inl hQ'))
        · exact hnewnew P hP' Q hQ'
        · exact hnew P hP' Q (by rw [rebuild1, hd]; exact hold Q (Or.inr hQ'))
        · exact h10 P (hold P (Or.inr hP')) Q (hold Q (Or.inl hQ'))
        · exact agrees_symm
            (hnew Q hQ' P (by rw [rebuild1, hd]; exact hold P (Or.inr hP')))
        · exact h10 P (hold P (Or.inr hP')) Q (hold Q (Or.inr hQ'))
  · intro P' hP' P hP
    have hoP : ∀ X : prefix_t,
        (X ∈ subPfxs f.other ∨ f.pfx = some X) →
        X ∈ subPfxs (rebuild1 f m) := by
      intro X hX
      cases hd : f.d <;> rw [rebuild1, hd]
      · exact mem_subPfxs_mk.mpr (Or.inr (hX.imp id id))
      · rcases hX with hX | hX
        · exact mem_subPfxs_mk.mpr (Or.inl hX)
        · exact mem_subPfxs_mk.mpr (Or.inr (Or.inr hX))
    have hsplit : P' ∈ subPfxs m' ∨
        (P' ∈ subPfxs f.other ∨ f.pfx = some P') := by
      cases hd : f.d <;> rw [rebuild1, hd] at hP'
      · rcases mem_subPfxs_mk.mp hP' with h' | h' | h'
        · exact Or.inl h'
        · exact Or.inr (Or.inl h')
        · exact Or.inr (Or.inr h')
      · rcases mem_subPfxs_mk.mp hP' with h' | h' | h'
        · exact Or.inr (Or.inl h')
        · exact Or.inl h'
        · exact Or.inr (Or.inr h')
    rcases hsplit with h' | h'
    · exact hnew P' h' P hP
    · have := subPfxs_pairwise hM P' (hoP P' h') P hP
      rwa [rebuild1_bit] at this

end PyRadix

namespace PyRadix

/-- The replacement lemma: replacing the subtree at a zipper position
preserves the invariant, provided the new subtree is invariant, every
new prefix agrees with every old prefix up to some `K` exceeding the
parent frame's bit, and the parent frame's bit stays below the new
root's bit. -/
theorem rebuild_inv_replace {fam : Family} :
    ∀ (path : List frame_t) (m m' : node_t) (K : Nat),
      InvN fam (rebuild path m) → InvN fam m' →
      m ≠ .null → m' ≠ .null →
      (∀ P' ∈ subPfxs m', ∀ P ∈ subPfxs m, agrees P'.add P.add K) →
      (∀ f fs, path = f :: fs → f.bit < K ∧ f.bit < m'.bit) →
      InvN fam (rebuild path m') := by
  intro path
  induction path with
  | nil => intro m m' K h hm' _ _ _ _; exact hm'
  | cons f fs ih =>
    intro m m' K h hm' hm0 hm'0 hag hhead
    obtain ⟨hfK, hfm'⟩ := hhead f fs rfl
    rw [rebuild] at h ⊢
    have hM : InvN fam (rebuild1 f m) := InvN_of_rebuild h
    obtain ⟨hM', hag'⟩ := rebuild1_inv_replace hM hm' hm0 hm'0 hag hfK hfm'
    apply ih (rebuild1 f m) (rebuild1 f m') f.bit h hM'
      (rebuild1_ne_null f m) (rebuild1_ne_null f m') hag'
    intro g gs hfs
    subst hfs
    have hInner : InvN fam (rebuild1 g (rebuild1 f m)) := by
      rw [rebuild] at h
      exact InvN_of_rebuild h
    have hglt : g.bit < f.bit := by
      have := frame_bit_lt_of_rebuild1 hInner (rebuild1_ne_null f m)
      rwa [rebuild1_bit] at this
    rw [rebuild1_bit]
    exact ⟨hglt, hglt⟩

end PyRadix

namespace PyRadix

/-! ### Structural lemmas for the `radix_lookup` descent and climb -/

/-- Conditions holding of every frame the `radix_lookup` descent
creates: the recorded direction matches the guarded bit test of the
query address, and the loop condition held at the node stepped out of. -/
def lookup_frame_ok (addr : List Nat) (bl mb : Nat) (f : frame_t) : Prop :=
  ((f.d = .right) ↔ (f.bit < mb ∧ bit_test_search_bit addr f.bit = true)) ∧
  (f.bit < bl ∨ f.pfx = none)

theorem lookup_descend_rebuild (addr : List Nat) (bl mb : Nat) :
    ∀ (n : node_t) (path : List frame_t),
      rebuild (lookup_descend addr bl mb n path).1
        (lookup_descend addr bl mb n path).2.1 = rebuild path n := by
  intro n
  induction n with
  | null => intro path; rfl
  | mk b p l r d ihl ihr =>
    intro path
    rw [lookup_descend]
    by_cases hc : b < bl ∨ p = none
    · rw [if_pos hc]
      by_cases hdir : b < mb ∧ bit_test_search_bit addr b
      · rw [if_pos hdir]
        cases r with
        | null => rfl
        | mk br pr lr rr dr =>
          dsimp only
          rw [ihr]
          simp [rebuild, rebuild1, frameR, node_t.bit, node_t.pfx,
            node_t.data, node_t.l]
      · rw [if_neg hdir]
        cases l with
        | null => rfl
        | mk bl' pl ll rl dl =>
          dsimp only
          rw [ihl]
          simp [rebuild, rebuild1, frameL, node_t.bit, node_t.pfx,
            node_t.data, node_t.r]
    · rw [if_neg hc]

theorem frameR_ok {addr : List Nat} {bl mb : Nat} {n : node_t}
    (hdir : n.bit < mb ∧ bit_test_search_bit addr n.bit = true)
    (hc : n.bit < bl ∨ n.pfx = none) :
    lookup_frame_ok addr bl mb (frameR n) :=
  ⟨⟨fun _ => hdir, fun _ => rfl⟩, hc⟩

theorem frameL_ok {addr : List Nat} {bl mb : Nat} {n : node_t}
    (hdir : ¬ (n.bit < mb ∧ bit_test_search_bit addr n.bit = true))
    (hc : n.bit < bl ∨ n.pfx = none) :
    lookup_frame_ok addr bl mb (frameL n) :=
  ⟨⟨fun h => absurd h (by simp [frameL]), fun h => absurd h hdir⟩, hc⟩

theorem lookup_descend_frames (addr : List Nat) (bl mb : Nat) :
    ∀ (n : node_t) (path : List frame_t),
      ∃ new, (lookup_descend addr bl mb n path).1 = new ++ path ∧
        ∀ f ∈ new, lookup_frame_ok addr bl mb f := by
  intro n
  induction n with
  | null =>
    intro path
    exact ⟨[], rfl, fun f hf => absurd hf (List.not_mem_nil f)⟩
  | mk b p l r d ihl ihr =>
    intro path
    rw [lookup_descend]
    by_cases hc : b < bl ∨ p = none
    · rw [if_pos hc]
      have hc' : (node_t.mk b p l r d).bit < bl ∨
          (node_t.mk b p l r d).pfx = none := by
        simpa [node_t.bit, node_t.pfx] using hc
      by_cases hdir : b < mb ∧ bit_test_search_bit addr b
      · rw [if_pos hdir]
        have hdir' : (node_t.mk b p l r d).bit < mb ∧
            bit_test_search_bit addr (node_t.mk b p l r d).bit = true := by
          simpa [node_t.bit] using hdir
        cases r with
        | null => exact ⟨[], rfl, fun f hf => absurd hf (List.not_mem_nil f)⟩
        | mk br pr lr rr dr =>
          dsimp only
          obtain ⟨new, hnew, hok⟩ := ihr
            (frameR (.mk b p l (.mk br pr lr rr dr) d) :: path)
          refine ⟨new ++ [frameR (.mk b p l (.mk br pr lr rr dr) d)],
            by simpa using hnew, ?_⟩
          intro f hf
          rcases List.mem_append.mp hf with hf | hf
          · exact hok f hf
          · rcases List.mem_singleton.mp hf with rfl
            exact frameR_ok hdir' hc'
      · rw [if_neg hdir]
        have hdir' : ¬ ((node_t.mk b p l r d).bit < mb ∧
            bit_test_search_bit addr (node_t.mk b p l r d).bit = true) := by
          simpa [node_t.bit] using hdir
        cases l with
        | null => exact ⟨[], rfl, fun f hf => absurd hf (List.not_mem_nil f)⟩
        | mk bl' pl ll rl dl =>
          dsimp only
          obtain ⟨new, hnew, hok⟩ := ihl
            (frameL (.mk b p (.mk bl' pl ll rl dl) r d) :: path)
          refine ⟨new ++ [frameL (.mk b p (.mk bl' pl ll rl dl) r d)],
            by simpa using hnew, ?_⟩
          intro f hf
          rcases List.mem_append.mp hf with hf | hf
          · exact hok f hf
          · rcases List.mem_singleton.mp hf with rfl
            exact frameL_ok hdir' hc'
    · rw [if_neg hc]
      exact ⟨[], rfl, fun f hf => absurd hf (List.not_mem_nil f)⟩

theorem lookup_descend_exit (addr : List Nat) (bl mb : Nat) :
    ∀ (n : node_t) (path : List frame_t), n ≠ .null →
      (lookup_descend addr bl mb n path).2.1 ≠ .null ∧
      ((¬ ((lookup_descend addr bl mb n path).2.1.bit < bl ∨
           (lookup_descend addr bl mb n path).2.1.pfx = none)) ∨
       (((lookup_descend addr bl mb n path).2.1.bit < bl ∨
         (lookup_descend addr bl mb n path).2.1.pfx = none) ∧
        (((lookup_descend addr bl mb n path).2.1.bit < mb ∧
          bit_test_search_bit addr (lookup_descend addr bl mb n path).2.1.bit
            = true ∧
          (lookup_descend addr bl mb n path).2.1.r = .null) ∨
         (¬ ((lookup_descend addr bl mb n path).2.1.bit < mb ∧
             bit_test_search_bit addr
               (lookup_descend addr bl mb n path).2.1.bit = true) ∧
          (lookup_descend addr bl mb n path).2.1.l = .null)))) := by
  intro n
  induction n with
  | null => intro path hn; exact absurd rfl hn
  | mk b p l r d ihl ihr =>
    intro path _
    rw [lookup_descend]
    by_cases hc : b < bl ∨ p = none
    · rw [if_pos hc]
      by_cases hdir : b < mb ∧ bit_test_search_bit addr b
      · rw [if_pos hdir]
        cases r with
        | null =>
          refine ⟨by simp, Or.inr ⟨?_, Or.inl ?_⟩⟩
          · simpa [node_t.bit, node_t.pfx] using hc
          · exact ⟨by simpa [node_t.bit] using hdir.1,
              by simpa [node_t.bit] using hdir.2, rfl⟩
        | mk br pr lr rr dr =>
          dsimp only
          exact ihr _ (by simp)
      · rw [if_neg hdir]
        cases l with
        | null =>
          refine ⟨by simp, Or.inr ⟨?_, Or.inr ⟨?_, rfl⟩⟩⟩
          · simpa [node_t.bit, node_t.pfx] using hc
          · simpa [node_t.bit] using hdir
        | mk bl' pl ll rl dl =>
          dsimp only
          exact ihl _ (by simp)
    · rw [if_neg hc]
      exact ⟨by simp, Or.inl (by simpa [node_t.bit, node_t.pfx] using hc)⟩

end PyRadix

namespace PyRadix

theorem lookup_climb_rebuild (db : Nat) :
    ∀ (path : List frame_t) (n : node_t),
      rebuild (lookup_climb db path n).1 (lookup_climb db path n).2
        = rebuild path n := by
  intro path
  induction path with
  | nil => intro n; rfl
  | cons f fs ih =>
    intro n
    rw [lookup_climb]
    by_cases h : f.bit ≥ db
    · rw [if_pos h, ih, rebuild]
    · rw [if_neg h]

theorem lookup_climb_suffix (db : Nat) :
    ∀ (path : List frame_t) (n : node_t),
      ∃ dropped, path = dropped ++ (lookup_climb db path n).1 ∧
        (lookup_climb db path n).2 = rebuild dropped n := by
  intro path
  induction path with
  | nil => intro n; exact ⟨[], rfl, rfl⟩
  | cons f fs ih =>
    intro n
    rw [lookup_climb]
    by_cases h : f.bit ≥ db
    · rw [if_pos h]
      obtain ⟨dropped, h1, h2⟩ := ih (rebuild1 f n)
      exact ⟨f :: dropped, by rw [List.cons_append, ← h1], h2⟩
    · rw [if_neg h]
      exact ⟨[], rfl, rfl⟩

theorem lookup_climb_head (db : Nat) :
    ∀ (path : List frame_t) (n : node_t) (f : frame_t) (fs : List frame_t),
      (lookup_climb db path n).1 = f :: fs → f.bit < db := by
  intro path
  induction path with
  | nil => intro n f fs h; cases h
  | cons g gs ih =>
    intro n f fs h
    rw [lookup_climb] at h
    by_cases hg : g.bit ≥ db
    · rw [if_pos hg] at h
      exact ih _ f fs h
    · rw [if_neg hg] at h
      cases h
      omega

theorem lookup_climb_bit (db : Nat) :
    ∀ (path : List frame_t) (n : node_t), db ≤ n.bit →
      db ≤ (lookup_climb db path n).2.bit := by
  intro path
  induction path with
  | nil => intro n h; exact h
  | cons f fs ih =>
    intro n h
    rw [lookup_climb]
    by_cases hf : f.bit ≥ db
    · rw [if_pos hf]
      exact ih (rebuild1 f n) (by rw [rebuild1_bit]; omega)
    · rw [if_neg hf]
      exact h

theorem lookup_climb_ne_null (db : Nat) :
    ∀ (path : List frame_t) (n : node_t), n ≠ .null →
      (lookup_climb db path n).2 ≠ .null := by
  intro path
  induction path with
  | nil => intro n h; exact h
  | cons f fs ih =>
    intro n h
    rw [lookup_climb]
    by_cases hf : f.bit ≥ db
    · rw [if_pos hf]
      exact ih (rebuild1 f n) (rebuild1_ne_null f n)
    · rw [if_neg hf]
      exact h

/-- Frames surviving the climb are frames of the original path, so
retain any per-frame property. -/
theorem lookup_climb_frames_sub (db : Nat) :
    ∀ (path : List frame_t) (n : node_t) (f : frame_t),
      f ∈ (lookup_climb db path n).1 → f ∈ path := by
  intro path n f hf
  obtain ⟨dropped, h1, _⟩ := lookup_climb_suffix db path n
  rw [h1]
  exact List.mem_append_right _ hf

end PyRadix

namespace PyRadix

/-- A valid prefix reads `false` at every bit index at or beyond its
`bitlen` (sanitization below the family width, zero bytes beyond the
address length). -/
theorem pfx_bit_high {P : prefix_t} (hP : pfx_valid P) {i : Nat}
    (hi : P.bitlen ≤ i) : bit_test_search_bit P.add i = false := by
  obtain ⟨hlen, _, hbl, hsan⟩ := hP
  rcases Nat.lt_or_ge i (radix_maxbits_by_family P.family) with h | h
  · exact hsan i h hi
  · apply bit_test_beyond
    rw [hlen]
    cases hf : P.family <;> rw [hf] at h <;>
      simp [radix_maxbits_by_family] at h ⊢ <;> omega

/-- Two valid prefixes of the same family and length agreeing on their
length's bits are equal as values. -/
theorem pfx_eq_of_agrees {P Q : prefix_t} (hP : pfx_valid P)
    (hQ : pfx_valid Q) (hfam : P.family = Q.family)
    (hlen : P.bitlen = Q.bitlen) (hag : agrees P.add Q.add P.bitlen) :
    P = Q := by
  have hPl := hP.1
  have hPb := hP.2.1
  have hQl := hQ.1
  have hQb := hQ.2.1
  have hlens : P.add.length = Q.add.length := by rw [hPl, hQl, hfam]
  have haddr : P.add = Q.add := by
    apply List.ext_getElem hlens
    intro i h1 h2
    have hbyte : ∀ j, j < 8 → bit_test_search_bit P.add (8 * i + j)
        = bit_test_search_bit Q.add (8 * i + j) := by
      intro j hj
      rcases Nat.lt_or_ge (8 * i + j) P.bitlen with hlt | hge
      · exact hag _ hlt
      · rw [pfx_bit_high hP hge, pfx_bit_high hQ (by omega)]
    rw [← List.getD_eq_getElem P.add 0 h1, ← List.getD_eq_getElem Q.add 0 h2]
    rw [byte_eq_iff (getD_lt_256 hPb i) (getD_lt_256 hQb i)]
    intro j hj
    have := hbyte j hj
    rwa [bit_test_byte P.add i j hj, bit_test_byte Q.add i j hj] at this
  cases P with
  | mk Pf Pa Pb =>
    cases Q with
    | mk Qf Qa Qb =>
      simp only at hfam hlen haddr
      rw [hfam, hlen, haddr]

/-- The invariant for a freshly allocated real leaf. -/
theorem InvN_leaf {fam : Family} {p : prefix_t} (hp : pfx_valid p)
    (hfam : p.family = fam) (dd : Bool) :
    InvN fam (.mk p.bitlen (some p) .null .null dd) := by
  apply InvN_mk_iff.mpr
  refine ⟨?_, ?_, ?_, ?_, ?_, InvN.null, InvN.null, ?_, ?_, ?_⟩
  · rw [← hfam]; exact hp.2.2.1
  · rintro P hP; cases hP; exact ⟨hfam, hp, rfl⟩
  · intro h; cases h
  · intro h; exact absurd rfl h
  · intro h; exact absurd rfl h
  · intro P hP; rw [subPfxs_null] at hP; cases hP
  · intro P hP; rw [subPfxs_null] at hP; cases hP
  · intro P hP Q hQ
    rw [subPfxs_mk] at hP hQ
    simp only [subPfxs_null] at hP hQ
    rcases List.mem_singleton.mp (by simpa using hP) with rfl
    rcases List.mem_singleton.mp (by simpa using hQ) with rfl
    exact agrees_refl _ _

end PyRadix

namespace PyRadix

/-- Everything `radix_lookup` guarantees about its result on an
invariant tree. -/
structure lookup_good (t : radix_tree_t) (p : prefix_t)
    (res : lookup_result) : Prop where
  inv : InvT res.tree
  pfx : res.node.pfx = some p
  bit : res.node.bit = p.bitlen
  head : radix_head_by_family res.tree p.family = rebuild res.path res.node
  other : ∀ fam', fam' ≠ p.family →
    radix_head_by_family res.tree fam' = radix_head_by_family t fam'
  frames : ∀ f ∈ res.path,
    lookup_frame_ok p.add p.bitlen (radix_maxbits_by_family p.family) f ∧
    f.bit < p.bitlen

theorem InvT_update {t : radix_tree_t} {fam : Family} {h' : node_t} {δ : Int}
    (hI : InvT t) (hinv : InvN fam h')
    (hsz : (node_size h' : Int)
      = node_size (radix_head_by_family t fam) + δ) :
    InvT { radix_set_head t fam h' with
           num_active_node := t.num_active_node + δ } := by
  obtain ⟨h4, h6, hc⟩ := hI
  cases fam
  · refine ⟨hinv, h6, ?_⟩
    simp only [radix_set_head, radix_head_by_family] at hsz ⊢
    omega
  · refine ⟨h4, hinv, ?_⟩
    simp only [radix_set_head, radix_head_by_family] at hsz ⊢
    omega

end PyRadix

namespace PyRadix

theorem InvT_head {t : radix_tree_t} (hI : InvT t) (fam : Family) :
    InvN fam (radix_head_by_family t fam) := by
  cases fam
  · exact hI.1
  · exact hI.2.1

theorem head_set_head_same (t : radix_tree_t) (fam : Family) (h : node_t) :
    radix_head_by_family (radix_set_head t fam h) fam = h := by
  cases fam <;> rfl

theorem head_set_head_other (t : radix_tree_t) (fam fam' : Family)
    (h : node_t) (hne : fam' ≠ fam) :
    radix_head_by_family (radix_set_head t fam h) fam'
      = radix_head_by_family t fam' := by
  cases fam <;> cases fam' <;> first | rfl | exact absurd rfl hne

theorem head_num_update (t : radix_tree_t) (x : Int) (fam : Family) :
    radix_head_by_family { t with num_active_node := x } fam
      = radix_head_by_family t fam := by
  cases fam <;> rfl

theorem set_head_self (t : radix_tree_t) (fam : Family) :
    radix_set_head t fam (radix_head_by_family t fam) = t := by
  cases fam <;> rfl

theorem InvT_set_head {t : radix_tree_t} {fam : Family} {h' : node_t}
    (hI : InvT t) (hinv : InvN fam h')
    (hsz : node_size h' = node_size (radix_head_by_family t fam)) :
    InvT (radix_set_head t fam h') := by
  obtain ⟨h4, h6, hc⟩ := hI
  cases fam
  · refine ⟨hinv, h6, ?_⟩
    simp only [radix_set_head, radix_head_by_family] at hsz ⊢
    omega
  · refine ⟨h4, hinv, ?_⟩
    simp only [radix_set_head, radix_head_by_family] at hsz ⊢
    omega

/-- In an invariant zipper, every frame below the immediate parent has a
smaller bit than the parent. -/
theorem path_bits_head_max {fam : Family} {path : List frame_t} {n : node_t}
    (h : InvN fam (rebuild path n)) :
    ∀ f fs, path = f :: fs → ∀ g ∈ fs, g.bit < f.bit := by
  intro f fs hp g hg
  subst hp
  rw [rebuild] at h
  have := path_bits_lt h (rebuild1_ne_null f n) g hg
  rwa [rebuild1_bit] at this

end PyRadix

namespace PyRadix

set_option maxHeartbeats 2000000 in
/-- The case dispatch of `radix_lookup` preserves the invariant and
returns a correct zipper, given the facts established by the descent,
differ-bit computation and climb. -/
theorem radix_lookup_splice_good (t : radix_tree_t) (p : prefix_t)
    (path1 : List frame_t) (b1 : Nat) (q1 : Option prefix_t)
    (l1 r1 : node_t) (d1 : Bool) (differ_bit : Nat)
    (test_addr tested0 : List Nat)
    (hI : InvT t) (hp : pfx_valid p)
    (hheadeq : radix_head_by_family t p.family
      = rebuild path1 (.mk b1 q1 l1 r1 d1))
    (hdb_bl : differ_bit ≤ p.bitlen)
    (hdb_n1 : differ_bit ≤ b1)
    (hlt : ∀ f ∈ path1, f.bit < differ_bit)
    (hframes : ∀ f ∈ path1,
      lookup_frame_ok p.add p.bitlen (radix_maxbits_by_family p.family) f)
    (hagQ : ∀ Q ∈ subPfxs (node_t.mk b1 q1 l1 r1 d1),
      agrees p.add Q.add differ_bit)
    (hP0 : ∃ P0 ∈ subPfxs (node_t.mk b1 q1 l1 r1 d1), P0.add = test_addr)
    (hdiff : differ_bit < p.bitlen → differ_bit < b1 →
      bit_test_search_bit p.add differ_bit
        ≠ bit_test_search_bit test_addr differ_bit)
    (hslot : b1 = differ_bit → differ_bit ≠ p.bitlen →
      if b1 < radix_maxbits_by_family p.family ∧
          bit_test_search_bit p.add b1 = true
      then r1 = .null else l1 = .null) :
    lookup_good t p (radix_lookup_splice t p path1 (.mk b1 q1 l1 r1 d1)
      differ_bit test_addr tested0) := by
  obtain ⟨P0, hP0mem, hP0add⟩ := hP0
  have hHead : InvN p.family (rebuild path1 (.mk b1 q1 l1 r1 d1)) := by
    rw [← hheadeq]; exact InvT_head hI p.family
  have hInv1 : InvN p.family (.mk b1 q1 l1 r1 d1) := InvN_of_rebuild hHead
  have hpair := subPfxs_pairwise hInv1
  simp only [node_t.bit] at hpair
  obtain ⟨i1, i2, i3, i4, i5, i6, i7, i8, i9, i10⟩ := InvN_mk_iff.mp hInv1
  have hbl_mb : p.bitlen ≤ radix_maxbits_by_family p.family := hp.2.2.1
  have hfb : ∀ f ∈ path1, f.bit < p.bitlen :=
    fun f hf => lt_of_lt_of_le (hlt f hf) hdb_bl
  simp only [radix_lookup_splice, node_t.bit, node_t.pfx, node_t.l, node_t.r,
    node_t.data, Ref_Pfx]
  by_cases hA : differ_bit = p.bitlen ∧ b1 = p.bitlen
  · rw [if_pos hA]
    obtain ⟨hAd, hAb⟩ := hA
    have hdb1 : differ_bit = b1 := by omega
    cases q1 with
    | none =>
      rw [if_pos rfl]
      have classifyA : ∀ P,
          P ∈ subPfxs (node_t.mk b1 (some p) l1 r1 d1) →
          P ∈ subPfxs (node_t.mk b1 (none : Option prefix_t) l1 r1 d1)
            ∨ P = p := by
        intro P hP
        rcases mem_subPfxs_mk.mp hP with h | h | h
        · exact Or.inl (mem_subPfxs_mk.mpr (Or.inl h))
        · exact Or.inl (mem_subPfxs_mk.mpr (Or.inr (Or.inl h)))
        · injection h with h; exact Or.inr h.symm
      have hAg : ∀ Q ∈ subPfxs (node_t.mk b1 (none : Option prefix_t)
          l1 r1 d1), agrees p.add Q.add b1 := by
        intro Q hQ
        have := hagQ Q hQ
        rwa [hdb1] at this
      have hinv' : InvN p.family (node_t.mk b1 (some p) l1 r1 d1) := by
        refine InvN_mk_iff.mpr ⟨i1, ?_, ?_, i4, i5, i6, i7, i8, i9, ?_⟩
        · rintro P hP
          injection hP with hP
          subst hP
          exact ⟨rfl, hp, hAb.symm⟩
        · intro h; exact absurd h (by simp)
        · intro P hP Q hQ
          rcases classifyA P hP with hPc | rfl <;>
            rcases classifyA Q hQ with hQc | rfl
          · exact i10 P hPc Q hQc
          · exact agrees_symm (hAg P hPc)
          · exact hAg Q hQc
          · exact agrees_refl _ _
      have hrep : InvN p.family
          (rebuild path1 (node_t.mk b1 (some p) l1 r1 d1)) := by
        apply rebuild_inv_replace path1 (.mk b1 none l1 r1 d1)
          (.mk b1 (some p) l1 r1 d1) differ_bit hHead hinv'
          (by simp) (by simp)
        · intro P' hP' P hPm
          rcases classifyA P' hP' with hPc | rfl
          · exact agrees_mono (i10 P' hPc P hPm) hdb_n1
          · exact hagQ P hPm
        · intro f fs hfs
          subst hfs
          have := hlt f (by simp)
          refine ⟨this, ?_⟩
          simp only [node_t.bit]
          omega
      refine ⟨?_, ?_, ?_, ?_, ?_, ?_⟩
      · dsimp only
        apply InvT_set_head hI hrep
        rw [hheadeq, node_size_rebuild, node_size_rebuild]
        simp only [node_size]
      · rfl
      · dsimp only [node_t.bit]
        exact hAb
      · dsimp only
        exact head_set_head_same _ _ _
      · intro fam' hne
        dsimp only
        exact head_set_head_other _ _ _ _ hne
      · intro f hf
        dsimp only at hf
        exact ⟨hframes f hf, hfb f hf⟩
    | some P1 =>
      rw [if_neg (by simp)]
      have hP1mem : P1 ∈ subPfxs (node_t.mk b1 (some P1) l1 r1 d1) :=
        mem_subPfxs_mk.mpr (Or.inr (Or.inr rfl))
      have hP1v := subPfxs_valid hInv1 P1 hP1mem
      have hP1b : P1.bitlen = b1 := (i2 P1 rfl).2.2
      have hpeq : P1 = p := by
        apply pfx_eq_of_agrees hP1v.2 hp hP1v.1 (by omega)
        have := agrees_symm (hagQ P1 hP1mem)
        rwa [hdb1, ← hP1b] at this
      refine ⟨?_, ?_, ?_, ?_, ?_, ?_⟩
      · dsimp only
        rw [← hheadeq, set_head_self]
        exact hI
      · dsimp only [node_t.pfx]
        rw [hpeq]
      · dsimp only [node_t.bit]
        exact hAb
      · dsimp only
        exact head_set_head_same _ _ _
      · intro fam' hne
        dsimp only
        exact head_set_head_other _ _ _ _ hne
      · intro f hf
        dsimp only at hf
        exact ⟨hframes f hf, hfb f hf⟩
  · rw [if_neg hA]
    have hleaf : InvN p.family
        (node_t.mk p.bitlen (some p) .null .null false) :=
      InvN_leaf hp rfl false
    by_cases hB : b1 = differ_bit
    · rw [if_pos hB]
      have hdbl : differ_bit < p.bitlen := by
        rcases Nat.lt_or_ge differ_bit p.bitlen with h | h
        · exact h
        · exact absurd ⟨by omega, by omega⟩ hA
      have hb1bl : b1 < p.bitlen := by omega
      have hb1mb : b1 < radix_maxbits_by_family p.family := by omega
      have hslot' := hslot hB (by omega)
      by_cases hdir : b1 < radix_maxbits_by_family p.family ∧
          bit_test_search_bit p.add b1 = true
      · rw [if_pos hdir]
        rw [if_pos hdir] at hslot'
        subst hslot'
        dsimp only
        have classifyB : ∀ P, P ∈ subPfxs (node_t.mk b1 q1 l1
            (node_t.mk p.bitlen (some p) .null .null false) d1) →
            P ∈ subPfxs (node_t.mk b1 q1 l1 .null d1) ∨ P = p := by
          intro P hP
          rcases mem_subPfxs_mk.mp hP with h | h | h
          · exact Or.inl (mem_subPfxs_mk.mpr (Or.inl h))
          · right
            rw [subPfxs_mk, subPfxs_null] at h
            simpa using h
          · exact Or.inl (mem_subPfxs_mk.mpr (Or.inr (Or.inr h)))
        have hAg1 : ∀ Q ∈ subPfxs (node_t.mk b1 q1 l1 .null d1),
            agrees p.add Q.add b1 := by
          intro Q hQ
          have := hagQ Q hQ
          rwa [← hB] at this
        have hinv' : InvN p.family (node_t.mk b1 q1 l1
            (node_t.mk p.bitlen (some p) .null .null false) d1) := by
          refine InvN_mk_iff.mpr ⟨i1, i2, ?_, i4, ?_, i6, hleaf, i8, ?_, ?_⟩
          · intro h
            exact ⟨(i3 h).1, by simp⟩
          · intro _
            simp only [node_t.bit]
            omega
          · intro P hP
            have hPp : P = p := by
              rw [subPfxs_mk, subPfxs_null] at hP
              simpa using hP
            rw [hPp]
            exact hdir.2
          · intro P hP Q hQ
            rcases classifyB P hP with hPc | rfl <;>
              rcases classifyB Q hQ with hQc | rfl
            · exact i10 P hPc Q hQc
            · exact agrees_symm (hAg1 P hPc)
            · exact hAg1 Q hQc
            · exact agrees_refl _ _
        have hrep : InvN p.family (rebuild path1 (node_t.mk b1 q1 l1
            (node_t.mk p.bitlen (some p) .null .null false) d1)) := by
          apply rebuild_inv_replace path1 (.mk b1 q1 l1 .null d1)
            _ differ_bit hHead hinv' (by simp) (by simp)
          · intro P' hP' P hPm
            rcases classifyB P' hP' with hPc | rfl
            · exact agrees_mono (i10 P' hPc P hPm) hdb_n1
            · exact hagQ P hPm
          · intro f fs hfs
            subst hfs
            have := hlt f (by simp)
            refine ⟨this, ?_⟩
            simp only [node_t.bit]
            omega
        refine ⟨?_, ?_, ?_, ?_, ?_, ?_⟩
        · dsimp only
          apply InvT_update hI hrep
          rw [hheadeq, node_size_rebuild, node_size_rebuild]
          simp only [node_size]
          push_cast
          ring
        · rfl
        · rfl
        · dsimp only
          rw [head_num_update, head_set_head_same, rebuild]
          dsimp only [rebuild1]
        · intro fam' hne
          dsimp only
          rw [head_num_update]
          exact head_set_head_other _ _ _ _ hne
        · intro f hf
          dsimp only at hf
          rcases List.mem_cons.mp hf with rfl | hf
          · exact ⟨⟨⟨fun _ => hdir, fun _ => rfl⟩, Or.inl hb1bl⟩, hb1bl⟩
          · exact ⟨hframes f hf, hfb f hf⟩
      · rw [if_neg hdir]
        rw [if_neg hdir] at hslot'
        subst hslot'
        dsimp only
        have hx : bit_test_search_bit p.add b1 = false := by
          cases hxv : bit_test_search_bit p.add b1
          · rfl
          · exact absurd ⟨hb1mb, hxv⟩ hdir
        have classifyB : ∀ P, P ∈ subPfxs (node_t.mk b1 q1
            (node_t.mk p.bitlen (some p) .null .null false) r1 d1) →
            P ∈ subPfxs (node_t.mk b1 q1 .null r1 d1) ∨ P = p := by
          intro P hP
          rcases mem_subPfxs_mk.mp hP with h | h | h
          · right
            rw [subPfxs_mk, subPfxs_null] at h
            simpa using h
          · exact Or.inl (mem_subPfxs_mk.mpr (Or.inr (Or.inl h)))
          · exact Or.inl (mem_subPfxs_mk.mpr (Or.inr (Or.inr h)))
        have hAg1 : ∀ Q ∈ subPfxs (node_t.mk b1 q1 .null r1 d1),
            agrees p.add Q.add b1 := by
          intro Q hQ
          have := hagQ Q hQ
          rwa [← hB] at this
        have hinv' : InvN p.family (node_t.mk b1 q1
            (node_t.mk p.bitlen (some p) .null .null false) r1 d1) := by
          refine InvN_mk_iff.mpr ⟨i1, i2, ?_, ?_, i5, hleaf, i7, ?_, i9, ?_⟩
          · intro h
            exact ⟨by simp, (i3 h).2⟩
          · intro _
            simp only [node_t.bit]
            omega
          · intro P hP
            have hPp : P = p := by
              rw [subPfxs_mk, subPfxs_null] at hP
              simpa using hP
            rw [hPp]
            exact hx
          · intro P hP Q hQ
            rcases classifyB P hP with hPc | rfl <;>
              rcases classifyB Q hQ with hQc | rfl
            · exact i10 P hPc Q hQc
            · exact agrees_symm (hAg1 P hPc)
            · exact hAg1 Q hQc
            · exact agrees_refl _ _
        have hrep : InvN p.family (rebuild path1 (node_t.mk b1 q1
            (node_t.mk p.bitlen (some p) .null .null false) r1 d1)) := by
          apply rebuild_inv_replace path1 (.mk b1 q1 .null r1 d1)
            _ differ_bit hHead hinv' (by simp) (by simp)
          · intro P' hP' P hPm
            rcases classifyB P' hP' with hPc | rfl
            · exact agrees_mono (i10 P' hPc P hPm) hdb_n1
            · exact hagQ P hPm
          · intro f fs hfs
            subst hfs
            have := hlt f (by simp)
            refine ⟨this, ?_⟩
            simp only [node_t.bit]
            omega
        refine ⟨?_, ?_, ?_, ?_, ?_, ?_⟩
        · dsimp only
          apply InvT_update hI hrep
          rw [hheadeq, node_size_rebuild, node_size_rebuild]
          simp only [node_size]
          push_cast
          ring
        · rfl
        · rfl
        · dsimp only
          rw [head_num_update, head_set_head_same, rebuild]
          dsimp only [rebuild1]
        · intro fam' hne
          dsimp only
          rw [head_num_update]
          exact head_set_head_other _ _ _ _ hne
        · intro f hf
          dsimp only at hf
          rcases List.mem_cons.mp hf with rfl | hf
          · exact ⟨⟨⟨fun h => (nomatch h), fun hc => absurd hc hdir⟩,
              Or.inl hb1bl⟩, hb1bl⟩
          · exact ⟨hframes f hf, hfb f hf⟩
    · rw [if_neg hB]
      by_cases hC : p.bitlen = differ_bit
      · rw [if_pos hC]
        have hblb1 : p.bitlen < b1 := by omega
        have hblmb : p.bitlen < radix_maxbits_by_family p.family := by omega
        have hQbit : ∀ Q ∈ subPfxs (node_t.mk b1 q1 l1 r1 d1),
            bit_test_search_bit Q.add p.bitlen
              = bit_test_search_bit test_addr p.bitlen := by
          intro Q hQ
          rw [← hP0add]
          exact hpair Q hQ P0 hP0mem p.bitlen hblb1
        have hAgC : ∀ Q ∈ subPfxs (node_t.mk b1 q1 l1 r1 d1),
            agrees p.add Q.add p.bitlen := by
          intro Q hQ
          have := hagQ Q hQ
          rwa [← hC] at this
        by_cases hdir : p.bitlen < radix_maxbits_by_family p.family ∧
            bit_test_search_bit test_addr p.bitlen = true
        · rw [if_pos hdir]
          have classifyC : ∀ P, P ∈ subPfxs (node_t.mk p.bitlen (some p)
              .null (node_t.mk b1 q1 l1 r1 d1) false) →
              P ∈ subPfxs (node_t.mk b1 q1 l1 r1 d1) ∨ P = p := by
            intro P hP
            rcases mem_subPfxs_mk.mp hP with h | h | h
            · rw [subPfxs_null] at h; cases h
            · exact Or.inl h
            · injection h with h; exact Or.inr h.symm
          have hinv' : InvN p.family (node_t.mk p.bitlen (some p)
              .null (node_t.mk b1 q1 l1 r1 d1) false) := by
            refine InvN_mk_iff.mpr
              ⟨hbl_mb, ?_, ?_, ?_, ?_, InvN.null, hInv1, ?_, ?_, ?_⟩
            · rintro P hP
              injection hP with hP
              subst hP
              exact ⟨rfl, hp, rfl⟩
            · intro h; exact absurd h (by simp)
            · intro h; exact absurd rfl h
            · intro _
              simp only [node_t.bit]
              omega
            · intro P hP
              rw [subPfxs_null] at hP
              cases hP
            · intro Q hQ
              rw [hQbit Q hQ]
              exact hdir.2
            · intro P hP Q hQ
              rcases classifyC P hP with hPc | rfl <;>
                rcases classifyC Q hQ with hQc | rfl
              · exact agrees_mono (i10 P hPc Q hQc) (le_of_lt hblb1)
              · exact agrees_symm (hAgC P hPc)
              · exact hAgC Q hQc
              · exact agrees_refl _ _
          have hrep : InvN p.family (rebuild path1 (node_t.mk p.bitlen
              (some p) .null (node_t.mk b1 q1 l1 r1 d1) false)) := by
            apply rebuild_inv_replace path1 (.mk b1 q1 l1 r1 d1)
              _ differ_bit hHead hinv' (by simp) (by simp)
            · intro P' hP' P hPm
              rcases classifyC P' hP' with hPc | rfl
              · exact agrees_mono (i10 P' hPc P hPm) hdb_n1
              · exact hagQ P hPm
            · intro f fs hfs
              subst hfs
              have := hlt f (by simp)
              refine ⟨this, ?_⟩
              simp only [node_t.bit]
              omega
          refine ⟨?_, ?_, ?_, ?_, ?_, ?_⟩
          · dsimp only
            apply InvT_update hI hrep
            rw [hheadeq, node_size_rebuild, node_size_rebuild]
            simp only [node_size]
            push_cast
            ring
          · rfl
          · rfl
          · dsimp only
            rw [head_num_update]
            exact head_set_head_same _ _ _
          · intro fam' hne
            dsimp only
            rw [head_num_update]
            exact head_set_head_other _ _ _ _ hne
          · intro f hf
            dsimp only at hf
            exact ⟨hframes f hf, hfb f hf⟩
        · rw [if_neg hdir]
          have hx : bit_test_search_bit test_addr p.bitlen = false := by
            cases hxv : bit_test_search_bit test_addr p.bitlen
            · rfl
            · exact absurd ⟨hblmb, hxv⟩ hdir
          have classifyC : ∀ P, P ∈ subPfxs (node_t.mk p.bitlen (some p)
              (node_t.mk b1 q1 l1 r1 d1) .null false) →
              P ∈ subPfxs (node_t.mk b1 q1 l1 r1 d1) ∨ P = p := by
            intro P hP
            rcases mem_subPfxs_mk.mp hP with h | h | h
            · exact Or.inl h
            · rw [subPfxs_null] at h; cases h
            · injection h with h; exact Or.inr h.symm
          have hinv' : InvN p.family (node_t.mk p.bitlen (some p)
              (node_t.mk b1 q1 l1 r1 d1) .null false) := by
            refine InvN_mk_iff.mpr
              ⟨hbl_mb, ?_, ?_, ?_, ?_, hInv1, InvN.null, ?_, ?_, ?_⟩
            · rintro P hP
              injection hP with hP
              subst hP
              exact ⟨rfl, hp, rfl⟩
            · intro h; exact absurd h (by simp)
            · intro _
              simp only [node_t.bit]
              omega
            · intro h; exact absurd rfl h
            · intro Q hQ
              rw [hQbit Q hQ]
              exact hx
            · intro P hP
              rw [subPfxs_null] at hP
              cases hP
            · intro P hP Q hQ
              rcases classifyC P hP with hPc | rfl <;>
                rcases classifyC Q hQ with hQc | rfl
              · exact agrees_mono (i10 P hPc Q hQc) (le_of_lt hblb1)
              · exact agrees_symm (hAgC P hPc)
              · exact hAgC Q hQc
              · exact agrees_refl _ _
          have hrep : InvN p.family (rebuild path1 (node_t.mk p.bitlen
              (some p) (node_t.mk b1 q1 l1 r1 d1) .null false)) := by
            apply rebuild_inv_replace path1 (.mk b1 q1 l1 r1 d1)
              _ differ_bit hHead hinv' (by simp) (by simp)
            · intro P' hP' P hPm
              rcases classifyC P' hP' with hPc | rfl
              · exact agrees_mono (i10 P' hPc P hPm) hdb_n1
              · exact hagQ P hPm
            · intro f fs hfs
              subst hfs
              have := hlt f (by simp)
              refine ⟨this, ?_⟩
              simp only [node_t.bit]
              omega
          refine ⟨?_, ?_, ?_, ?_, ?_, ?_⟩
          · dsimp only
            apply InvT_update hI hrep
            rw [hheadeq, node_size_rebuild, node_size_rebuild]
            simp only [node_size]
            push_cast
            ring
          · rfl
          · rfl
          · dsimp only
            rw [head_num_update]
            exact head_set_head_same _ _ _
          · intro fam' hne
            dsimp only
            rw [head_num_update]
            exact head_set_head_other _ _ _ _ hne
          · intro f hf
            dsimp only at hf
            exact ⟨hframes f hf, hfb f hf⟩
      · rw [if_neg hC]
        have hdbl : differ_bit < p.bitlen := by omega
        have hdb1' : differ_bit < b1 := by omega
        have hdmb : differ_bit < radix_maxbits_by_family p.family := by omega
        have hne := hdiff hdbl hdb1'
        have hQbit : ∀ Q ∈ subPfxs (node_t.mk b1 q1 l1 r1 d1),
            bit_test_search_bit Q.add differ_bit
              = bit_test_search_bit test_addr differ_bit := by
          intro Q hQ
          rw [← hP0add]
          exact hpair Q hQ P0 hP0mem differ_bit hdb1'
        by_cases hdir : differ_bit < radix_maxbits_by_family p.family ∧
            bit_test_search_bit p.add differ_bit = true
        · rw [if_pos hdir]
          dsimp only
          have hx : bit_test_search_bit test_addr differ_bit = false := by
            cases hxv : bit_test_search_bit test_addr differ_bit
            · rfl
            · exact absurd (hdir.2.trans hxv.symm) hne
          have classifyD : ∀ P, P ∈ subPfxs (node_t.mk differ_bit none
              (node_t.mk b1 q1 l1 r1 d1)
              (node_t.mk p.bitlen (some p) .null .null false) false) →
              P ∈ subPfxs (node_t.mk b1 q1 l1 r1 d1) ∨ P = p := by
            intro P hP
            rcases mem_subPfxs_mk.mp hP with h | h | h
            · exact Or.inl h
            · right
              rw [subPfxs_mk, subPfxs_null] at h
              simpa using h
            · cases h
          have hinv' : InvN p.family (node_t.mk differ_bit none
              (node_t.mk b1 q1 l1 r1 d1)
              (node_t.mk p.bitlen (some p) .null .null false) false) := by
            refine InvN_mk_iff.mpr ⟨by omega, ?_, ?_, ?_, ?_, hInv1, hleaf,
              ?_, ?_, ?_⟩
            · rintro P hP; cases hP
            · intro _; exact ⟨by simp, by simp⟩
            · intro _
              simp only [node_t.bit]
              omega
            · intro _
              simp only [node_t.bit]
              omega
            · intro Q hQ
              rw [hQbit Q hQ]
              exact hx
            · intro P hP
              have hPp : P = p := by
                rw [subPfxs_mk, subPfxs_null] at hP
                simpa using hP
              rw [hPp]
              exact hdir.2
            · intro P hP Q hQ
              rcases classifyD P hP with hPc | rfl <;>
                rcases classifyD Q hQ with hQc | rfl
              · exact agrees_mono (i10 P hPc Q hQc) (le_of_lt hdb1')
              · exact agrees_symm (agrees_mono (hagQ P hPc) (le_refl _))
              · exact agrees_mono (hagQ Q hQc) (le_refl _)
              · exact agrees_refl _ _
          have hrep : InvN p.family (rebuild path1 (node_t.mk differ_bit
              none (node_t.mk b1 q1 l1 r1 d1)
              (node_t.mk p.bitlen (some p) .null .null false) false)) := by
            apply rebuild_inv_replace path1 (.mk b1 q1 l1 r1 d1)
              _ differ_bit hHead hinv' (by simp) (by simp)
            · intro P' hP' P hPm
              rcases classifyD P' hP' with hPc | rfl
              · exact agrees_mono (i10 P' hPc P hPm) hdb_n1
              · exact hagQ P hPm
            · intro f fs hfs
              subst hfs
              have := hlt f (by simp)
              refine ⟨this, ?_⟩
              simp only [node_t.bit]
              omega
          refine ⟨?_, ?_, ?_, ?_, ?_, ?_⟩
          · dsimp only
            apply InvT_update hI hrep
            rw [hheadeq, node_size_rebuild, node_size_rebuild]
            simp only [node_size]
            push_cast
            ring
          · rfl
          · rfl
          · dsimp only
            rw [head_num_update, head_set_head_same, rebuild]
            dsimp only [rebuild1]
          · intro fam' hne'
            dsimp only
            rw [head_num_update]
            exact head_set_head_other _ _ _ _ hne'
          · intro f hf
            dsimp only at hf
            rcases List.mem_cons.mp hf with rfl | hf
            · exact ⟨⟨⟨fun _ => hdir, fun _ => rfl⟩, Or.inl hdbl⟩, hdbl⟩
            · exact ⟨hframes f hf, hfb f hf⟩
        · rw [if_neg hdir]
          dsimp only
          have hx : bit_test_search_bit p.add differ_bit = false := by
            cases hxv : bit_test_search_bit p.add differ_bit
            · rfl
            · exact absurd ⟨hdmb, hxv⟩ hdir
          have hx' : bit_test_search_bit test_addr differ_bit = true := by
            cases hxv : bit_test_search_bit test_addr differ_bit
            · exact absurd (hx.trans hxv.symm) hne
            · rfl
          have classifyD : ∀ P, P ∈ subPfxs (node_t.mk differ_bit none
              (node_t.mk p.bitlen (some p) .null .null false)
              (node_t.mk b1 q1 l1 r1 d1) false) →
              P ∈ subPfxs (node_t.mk b1 q1 l1 r1 d1) ∨ P = p := by
            intro P hP
            rcases mem_subPfxs_mk.mp hP with h | h | h
            · right
              rw [subPfxs_mk, subPfxs_null] at h
              simpa using h
            · exact Or.inl h
            · cases h
          have hinv' : InvN p.family (node_t.mk differ_bit none
              (node_t.mk p.bitlen (some p) .null .null false)
              (node_t.mk b1 q1 l1 r1 d1) false) := by
            refine InvN_mk_iff.mpr ⟨by omega, ?_, ?_, ?_, ?_, hleaf, hInv1,
              ?_, ?_, ?_⟩
            · rintro P hP; cases hP
            · intro _; exact ⟨by simp, by simp⟩
            · intro _
              simp only [node_t.bit]
              omega
            · intro _
              simp only [node_t.bit]
              omega
            · intro P hP
              have hPp : P = p := by
                rw [subPfxs_mk, subPfxs_null] at hP
                simpa using hP
              rw [hPp]
              exact hx
            · intro Q hQ
              rw [hQbit Q hQ]
              exact hx'
            · intro P hP Q hQ
              rcases classifyD P hP with hPc | rfl <;>
                rcases classifyD Q hQ with hQc | rfl
              · exact agrees_mono (i10 P hPc Q hQc) (le_of_lt hdb1')
              · exact agrees_symm (agrees_mono (hagQ P hPc) (le_refl _))
              · exact agrees_mono (hagQ Q hQc) (le_refl _)
              · exact agrees_refl _ _
          have hrep : InvN p.family (rebuild path1 (node_t.mk differ_bit
              none (node_t.mk p.bitlen (some p) .null .null false)
              (node_t.mk b1 q1 l1 r1 d1) false)) := by
            apply rebuild_inv_replace path1 (.mk b1 q1 l1 r1 d1)
              _ differ_bit hHead hinv' (by simp) (by simp)
            · intro P' hP' P hPm
              rcases classifyD P' hP' with hPc | rfl
              · exact agrees_mono (i10 P' hPc P hPm) hdb_n1
              · exact hagQ P hPm
            · intro f fs hfs
              subst hfs
              have := hlt f (by simp)
              refine ⟨this, ?_⟩
              simp only [node_t.bit]
              omega
          refine ⟨?_, ?_, ?_, ?_, ?_, ?_⟩
          · dsimp only
            apply InvT_update hI hrep
            rw [hheadeq, node_size_rebuild, node_size_rebuild]
            simp only [node_size]
            push_cast
            ring
          · rfl
          · rfl
          · dsimp only
            rw [head_num_update, head_set_head_same, rebuild]
            dsimp only [rebuild1]
          · intro fam' hne'
            dsimp only
            rw [head_num_update]
            exact head_set_head_other _ _ _ _ hne'
          · intro f hf
            dsimp only at hf
            rcases List.mem_cons.mp hf with rfl | hf
            · exact ⟨⟨⟨fun h => (nomatch h), fun hc => absurd hc hdir⟩,
                Or.inl hdbl⟩, hdbl⟩
            · exact ⟨hframes f hf, hfb f hf⟩

end PyRadix

namespace PyRadix

theorem node_test_addr_eq {n : node_t} {P : prefix_t} (h : n.pfx = some P) :
    node_test_addr n = P.add := by
  unfold node_test_addr
  rw [h]

/-- The root of an invariant zipper rebuild sits at or above the hole. -/
theorem rebuild_bit_le {fam : Family} :
    ∀ {path : List frame_t} {n : node_t},
      InvN fam (rebuild path n) → n ≠ .null →
      (rebuild path n).bit ≤ n.bit := by
  intro path
  induction path with
  | nil => intro n _ _; exact le_refl _
  | cons f fs ih =>
    intro n h hn
    rw [rebuild] at h ⊢
    have h1 := ih h (rebuild1_ne_null f n)
    have h2 : f.bit < n.bit :=
      frame_bit_lt_of_rebuild1 (InvN_of_rebuild h) hn
    rw [rebuild1_bit] at h1
    omega

end PyRadix

namespace PyRadix

theorem rebuild_ne_null_of (path : List frame_t) (n : node_t)
    (hn : n ≠ .null) : rebuild path n ≠ .null := by
  induction path generalizing n with
  | nil => exact hn
  | cons f fs ih => exact ih (rebuild1 f n) (rebuild1_ne_null f n)

set_option maxHeartbeats 2000000 in
/-- `radix_lookup` on an invariant tree with a sanitized prefix:
the invariant is preserved, the returned node stores the prefix at its
bit length, the zipper rebuilds to the new family head, the other family
is untouched, and every frame of the zipper was produced by a correct
guarded bit test strictly below the prefix length. -/
theorem radix_lookup_good (t : radix_tree_t) (p : prefix_t)
    (hI : InvT t) (hp : pfx_valid p) :
    lookup_good t p (radix_lookup t p) := by
  cases hh : radix_head_by_family t p.family with
  | null =>
    unfold radix_lookup
    rw [hh]
    dsimp only [Ref_Pfx]
    refine ⟨?_, rfl, rfl, ?_, ?_, ?_⟩
    · apply InvT_update hI (InvN_leaf hp rfl false)
      rw [hh]
      simp [node_size]
    · rw [head_num_update, head_set_head_same]
      rfl
    · intro fam' hne
      rw [head_num_update]
      exact head_set_head_other _ _ _ _ hne
    · intro f hf
      exact absurd hf (List.not_mem_nil f)
  | mk hb hq hl hr hd =>
    unfold radix_lookup
    rw [hh]
    dsimp only
    have hbl_mb : p.bitlen ≤ radix_maxbits_by_family p.family := hp.2.2.1
    have hreb0 : rebuild (lookup_descend p.add p.bitlen
        (radix_maxbits_by_family p.family) (.mk hb hq hl hr hd) []).1
        (lookup_descend p.add p.bitlen (radix_maxbits_by_family p.family)
          (.mk hb hq hl hr hd) []).2.1 = .mk hb hq hl hr hd :=
      lookup_descend_rebuild _ _ _ _ []
    have hexit := lookup_descend_exit p.add p.bitlen
      (radix_maxbits_by_family p.family) (.mk hb hq hl hr hd) [] (by simp)
    obtain ⟨descnew, hdescnew, hdescok⟩ := lookup_descend_frames p.add
      p.bitlen (radix_maxbits_by_family p.family) (.mk hb hq hl hr hd) []
    rw [List.append_nil] at hdescnew
    cases hn0 : (lookup_descend p.add p.bitlen
        (radix_maxbits_by_family p.family) (.mk hb hq hl hr hd) []).2.1 with
    | null => exact absurd hn0 hexit.1
    | mk nb nq nl nr nd =>
    rw [hn0] at hexit hreb0
    have hInv0 : InvN p.family (node_t.mk nb nq nl nr nd) := by
      have hX := InvT_head hI p.family
      rw [hh, ← hreb0] at hX
      exact InvN_of_rebuild hX
    obtain ⟨j1, j2, j3, j4, j5, j6, j7, j8, j9, j10⟩ := InvN_mk_iff.mp hInv0
    cases nq with
    | none =>
      exfalso
      rcases hexit.2 with hcon | ⟨hcond, hbrk⟩
      · simp only [node_t.pfx] at hcon
        exact hcon (Or.inr (by trivial))
      · obtain ⟨hlne, hrne⟩ := j3 rfl
        simp only [node_t.bit, node_t.pfx, node_t.l, node_t.r] at hbrk
        rcases hbrk with ⟨_, _, hrn⟩ | ⟨_, hln⟩
        · exact hrne hrn
        · exact hlne hln
    | some P0 =>
    simp only [node_t.bit, node_t.pfx, node_t.l, node_t.r] at hexit
    have hP0v : P0.family = p.family ∧ pfx_valid P0 := by
      apply subPfxs_valid hInv0
      exact mem_subPfxs_mk.mpr (Or.inr (Or.inr rfl))
    have hta : node_test_addr (node_t.mk nb (some P0) nl nr nd) = P0.add :=
      node_test_addr_eq rfl
    rw [hta]
    simp only [node_t.bit]
    have hpa : ∀ x ∈ p.add, x < 256 := hp.2.1
    have hP0a : ∀ x ∈ P0.add, x < 256 := hP0v.2.2.1
    have hspec := find_differ_bit_spec p.add P0.add hpa hP0a
      (if nb < p.bitlen then nb else p.bitlen)
    have hcb_bl : (if nb < p.bitlen then nb else p.bitlen) ≤ p.bitlen := by
      split <;> omega
    have hcb_nb : (if nb < p.bitlen then nb else p.bitlen) ≤ nb := by
      split <;> omega
    have hdb_bl : find_differ_bit p.add P0.add
        (if nb < p.bitlen then nb else p.bitlen) ≤ p.bitlen :=
      le_trans hspec.1 hcb_bl
    have hdb_nb : find_differ_bit p.add P0.add
        (if nb < p.bitlen then nb else p.bitlen) ≤ nb :=
      le_trans hspec.1 hcb_nb
    have hclm_reb : rebuild
        (lookup_climb (find_differ_bit p.add P0.add
          (if nb < p.bitlen then nb else p.bitlen))
          (lookup_descend p.add p.bitlen (radix_maxbits_by_family p.family)
            (.mk hb hq hl hr hd) []).1 (node_t.mk nb (some P0) nl nr nd)).1
        (lookup_climb (find_differ_bit p.add P0.add
          (if nb < p.bitlen then nb else p.bitlen))
          (lookup_descend p.add p.bitlen (radix_maxbits_by_family p.family)
            (.mk hb hq hl hr hd) []).1 (node_t.mk nb (some P0) nl nr nd)).2
        = .mk hb hq hl hr hd := by
      rw [lookup_climb_rebuild]
      exact hreb0
    have hheadeq : radix_head_by_family t p.family = rebuild
        (lookup_climb (find_differ_bit p.add P0.add
          (if nb < p.bitlen then nb else p.bitlen))
          (lookup_descend p.add p.bitlen (radix_maxbits_by_family p.family)
            (.mk hb hq hl hr hd) []).1 (node_t.mk nb (some P0) nl nr nd)).1
        (lookup_climb (find_differ_bit p.add P0.add
          (if nb < p.bitlen then nb else p.bitlen))
          (lookup_descend p.add p.bitlen (radix_maxbits_by_family p.family)
            (.mk hb hq hl hr hd) []).1 (node_t.mk nb (some P0) nl nr nd)).2
        := by rw [hh, hclm_reb]
    have hClimbInv : InvN p.family (rebuild
        (lookup_climb (find_differ_bit p.add P0.add
          (if nb < p.bitlen then nb else p.bitlen))
          (lookup_descend p.add p.bitlen (radix_maxbits_by_family p.family)
            (.mk hb hq hl hr hd) []).1 (node_t.mk nb (some P0) nl nr nd)).1
        (lookup_climb (find_differ_bit p.add P0.add
          (if nb < p.bitlen then nb else p.bitlen))
          (lookup_descend p.add p.bitlen (radix_maxbits_by_family p.family)
            (.mk hb hq hl hr hd) []).1 (node_t.mk nb (some P0) nl nr nd)).2)
        := by
      rw [← hheadeq]
      exact InvT_head hI p.family
    have hInvClm2 : InvN p.family
        (lookup_climb (find_differ_bit p.add P0.add
          (if nb < p.bitlen then nb else p.bitlen))
          (lookup_descend p.add p.bitlen (radix_maxbits_by_family p.family)
            (.mk hb hq hl hr hd) []).1 (node_t.mk nb (some P0) nl nr nd)).2 :=
      InvN_of_rebuild hClimbInv
    have hclm_ne : (lookup_climb (find_differ_bit p.add P0.add
          (if nb < p.bitlen then nb else p.bitlen))
          (lookup_descend p.add p.bitlen (radix_maxbits_by_family p.family)
            (.mk hb hq hl hr hd) []).1 (node_t.mk nb (some P0) nl nr nd)).2
        ≠ .null :=
      lookup_climb_ne_null _ _ _ (by simp)
    obtain ⟨dropped, hdropped, hrebd⟩ := lookup_climb_suffix
      (find_differ_bit p.add P0.add (if nb < p.bitlen then nb else p.bitlen))
      (lookup_descend p.add p.bitlen (radix_maxbits_by_family p.family)
        (.mk hb hq hl hr hd) []).1 (node_t.mk nb (some P0) nl nr nd)
    have hP0mem0 : P0 ∈ subPfxs (node_t.mk nb (some P0) nl nr nd) :=
      mem_subPfxs_mk.mpr (Or.inr (Or.inr rfl))
    have hP0mem2 : P0 ∈ subPfxs (lookup_climb (find_differ_bit p.add P0.add
          (if nb < p.bitlen then nb else p.bitlen))
          (lookup_descend p.add p.bitlen (radix_maxbits_by_family p.family)
            (.mk hb hq hl hr hd) []).1 (node_t.mk nb (some P0) nl nr nd)).2
        := by
      rw [hrebd]
      exact mem_subPfxs_rebuild _ _ hP0mem0
    have hdb_clm : find_differ_bit p.add P0.add
          (if nb < p.bitlen then nb else p.bitlen)
        ≤ (lookup_climb (find_differ_bit p.add P0.add
          (if nb < p.bitlen then nb else p.bitlen))
          (lookup_descend p.add p.bitlen (radix_maxbits_by_family p.family)
            (.mk hb hq hl hr hd) []).1 (node_t.mk nb (some P0) nl nr nd)).2.bit
        := by
      apply lookup_climb_bit
      simp only [node_t.bit]
      exact hdb_nb
    have hInvD : InvN p.family
        (rebuild dropped (node_t.mk nb (some P0) nl nr nd)) := by
      rw [← hrebd]
      exact hInvClm2
    have hclm_nb : (lookup_climb (find_differ_bit p.add P0.add
          (if nb < p.bitlen then nb else p.bitlen))
          (lookup_descend p.add p.bitlen (radix_maxbits_by_family p.family)
            (.mk hb hq hl hr hd) []).1 (node_t.mk nb (some P0) nl nr nd)).2.bit
        ≤ nb := by
      rw [hrebd]
      have hX := rebuild_bit_le hInvD (by simp)
      simpa only [node_t.bit] using hX
    have hlt : ∀ f ∈ (lookup_climb (find_differ_bit p.add P0.add
          (if nb < p.bitlen then nb else p.bitlen))
          (lookup_descend p.add p.bitlen (radix_maxbits_by_family p.family)
            (.mk hb hq hl hr hd) []).1 (node_t.mk nb (some P0) nl nr nd)).1,
        f.bit < find_differ_bit p.add P0.add
          (if nb < p.bitlen then nb else p.bitlen) := by
      cases hcl : (lookup_climb (find_differ_bit p.add P0.add
          (if nb < p.bitlen then nb else p.bitlen))
          (lookup_descend p.add p.bitlen (radix_maxbits_by_family p.family)
            (.mk hb hq hl hr hd) []).1 (node_t.mk nb (some P0) nl nr nd)).1 with
      | nil => intro f hf; exact absurd hf (List.not_mem_nil f)
      | cons g gs =>
        intro f hf
        have hg := lookup_climb_head _ _ _ g gs hcl
        have hCI := hClimbInv
        rw [hcl] at hCI
        rcases List.mem_cons.mp hf with rfl | hf'
        · exact hg
        · have := path_bits_head_max hCI g gs rfl f hf'
          omega
    have hframes : ∀ f ∈ (lookup_climb (find_differ_bit p.add P0.add
          (if nb < p.bitlen then nb else p.bitlen))
          (lookup_descend p.add p.bitlen (radix_maxbits_by_family p.family)
            (.mk hb hq hl hr hd) []).1 (node_t.mk nb (some P0) nl nr nd)).1,
        lookup_frame_ok p.add p.bitlen (radix_maxbits_by_family p.family) f
        := by
      intro f hf
      have hfd := lookup_climb_frames_sub _ _ _ f hf
      rw [hdescnew] at hfd
      exact hdescok f hfd
    have hagQ : ∀ Q ∈ subPfxs (lookup_climb (find_differ_bit p.add P0.add
          (if nb < p.bitlen then nb else p.bitlen))
          (lookup_descend p.add p.bitlen (radix_maxbits_by_family p.family)
            (.mk hb hq hl hr hd) []).1 (node_t.mk nb (some P0) nl nr nd)).2,
        agrees p.add Q.add (find_differ_bit p.add P0.add
          (if nb < p.bitlen then nb else p.bitlen)) := by
      intro Q hQ
      have h2 := subPfxs_pairwise hInvClm2 P0 hP0mem2 Q hQ
      exact agrees_trans hspec.2.1 (agrees_mono h2 hdb_clm)
    have hdiff : find_differ_bit p.add P0.add
          (if nb < p.bitlen then nb else p.bitlen) < p.bitlen →
        find_differ_bit p.add P0.add
          (if nb < p.bitlen then nb else p.bitlen)
          < (lookup_climb (find_differ_bit p.add P0.add
            (if nb < p.bitlen then nb else p.bitlen))
            (lookup_descend p.add p.bitlen
              (radix_maxbits_by_family p.family)
              (.mk hb hq hl hr hd) []).1
            (node_t.mk nb (some P0) nl nr nd)).2.bit →
        bit_test_search_bit p.add (find_differ_bit p.add P0.add
          (if nb < p.bitlen then nb else p.bitlen))
          ≠ bit_test_search_bit P0.add (find_differ_bit p.add P0.add
            (if nb < p.bitlen then nb else p.bitlen)) := by
      intro h1 h2
      apply hspec.2.2
      have h3 := lt_of_lt_of_le h2 hclm_nb
      rcases Nat.lt_or_ge nb p.bitlen with h | h
      · rw [if_pos h] at h3 ⊢
        omega
      · rw [if_neg (by omega)] at h1 ⊢
        omega
    have hslot : (lookup_climb (find_differ_bit p.add P0.add
          (if nb < p.bitlen then nb else p.bitlen))
          (lookup_descend p.add p.bitlen (radix_maxbits_by_family p.family)
            (.mk hb hq hl hr hd) []).1
          (node_t.mk nb (some P0) nl nr nd)).2.bit
          = find_differ_bit p.add P0.add
            (if nb < p.bitlen then nb else p.bitlen) →
        find_differ_bit p.add P0.add
          (if nb < p.bitlen then nb else p.bitlen) ≠ p.bitlen →
        (if (lookup_climb (find_differ_bit p.add P0.add
              (if nb < p.bitlen then nb else p.bitlen))
              (lookup_descend p.add p.bitlen
                (radix_maxbits_by_family p.family)
                (.mk hb hq hl hr hd) []).1
              (node_t.mk nb (some P0) nl nr nd)).2.bit
            < radix_maxbits_by_family p.family ∧
            bit_test_search_bit p.add
              (lookup_climb (find_differ_bit p.add P0.add
                (if nb < p.bitlen then nb else p.bitlen))
                (lookup_descend p.add p.bitlen
                  (radix_maxbits_by_family p.family)
                  (.mk hb hq hl hr hd) []).1
                (node_t.mk nb (some P0) nl nr nd)).2.bit = true
         then (lookup_climb (find_differ_bit p.add P0.add
              (if nb < p.bitlen then nb else p.bitlen))
              (lookup_descend p.add p.bitlen
                (radix_maxbits_by_family p.family)
                (.mk hb hq hl hr hd) []).1
              (node_t.mk nb (some P0) nl nr nd)).2.r = .null
         else (lookup_climb (find_differ_bit p.add P0.add
              (if nb < p.bitlen then nb else p.bitlen))
              (lookup_descend p.add p.bitlen
                (radix_maxbits_by_family p.family)
                (.mk hb hq hl hr hd) []).1
              (node_t.mk nb (some P0) nl nr nd)).2.l = .null) := by
      intro hbeq hnebl
      rcases dropped.eq_nil_or_concat with hdnil | ⟨init, g, hdcat⟩
      · rw [hdnil] at hrebd
        rw [show rebuild [] (node_t.mk nb (some P0) nl nr nd)
            = node_t.mk nb (some P0) nl nr nd from rfl] at hrebd
        rw [hrebd] at hbeq ⊢
        simp only [node_t.bit, node_t.l, node_t.r] at hbeq ⊢
        rcases hexit.2 with hcon | ⟨hcond, hbrk⟩
        · exfalso
          apply hcon
          left
          omega
        · rcases hbrk with ⟨hmb', htest, hrn⟩ | ⟨hnd, hln⟩
          · rw [if_pos ⟨hmb', htest⟩]
            exact hrn
          · rw [if_neg hnd]
            exact hln
      · exfalso
        rw [List.concat_eq_append] at hdcat
        rw [hdcat] at hrebd hdropped
        rw [rebuild_append] at hrebd
        simp only [rebuild] at hrebd
        have hgmem : g ∈ descnew := by
          have hX : g ∈ (lookup_descend p.add p.bitlen
              (radix_maxbits_by_family p.family)
              (.mk hb hq hl hr hd) []).1 := by
            rw [hdropped]
            simp
          rwa [hdescnew] at hX
        have hgok := hdescok g hgmem
        have hInvC : InvN p.family (rebuild1 g
            (rebuild init (node_t.mk nb (some P0) nl nr nd))) := by
          rw [← hrebd]
          exact hInvClm2
        have hInvM : InvN p.family
            (rebuild init (node_t.mk nb (some P0) nl nr nd)) :=
          InvN_of_rebuild1 hInvC
        have hmne : rebuild init (node_t.mk nb (some P0) nl nr nd)
            ≠ .null := rebuild_ne_null_of _ _ (by simp)
        have hgbit : g.bit = find_differ_bit p.add P0.add
            (if nb < p.bitlen then nb else p.bitlen) := by
          have hX := rebuild1_bit g
            (rebuild init (node_t.mk nb (some P0) nl nr nd))
          rw [← hrebd] at hX
          rw [← hX]
          exact hbeq
        have hgm : g.bit
            < (rebuild init (node_t.mk nb (some P0) nl nr nd)).bit :=
          frame_bit_lt_of_rebuild1 hInvC hmne
        have hmnb : (rebuild init (node_t.mk nb (some P0) nl nr nd)).bit
            ≤ nb := by
          have hX := rebuild_bit_le hInvM (by simp)
          simpa only [node_t.bit] using hX
        have hdbbl : find_differ_bit p.add P0.add
            (if nb < p.bitlen then nb else p.bitlen) < p.bitlen := by
          omega
        have hstrict := hspec.2.2 (by
          rcases Nat.lt_or_ge nb p.bitlen with h | h
          · rw [if_pos h] at hgbit ⊢
            omega
          · rw [if_neg (by omega)] at hdbbl ⊢
            omega)
        have hP0m : P0 ∈ subPfxs
            (rebuild init (node_t.mk nb (some P0) nl nr nd)) :=
          mem_subPfxs_rebuild _ _ hP0mem0
        have hdir := frame_dir_of_rebuild1 hInvC P0 hP0m
        rw [hgbit] at hdir
        obtain ⟨hgiff, _⟩ := hgok
        cases hgd : g.d with
        | right =>
          have hcond := hgiff.mp hgd
          rw [hgbit] at hcond
          rw [hgd] at hdir
          simp only [BEq.beq] at hdir
          exact hstrict (hcond.2.trans hdir.symm)
        | left =>
          rw [hgd] at hdir
          simp only [BEq.beq] at hdir
          have hpt : bit_test_search_bit p.add (find_differ_bit p.add
              P0.add (if nb < p.bitlen then nb else p.bitlen)) = true := by
            cases hx : bit_test_search_bit p.add (find_differ_bit p.add
                P0.add (if nb < p.bitlen then nb else p.bitlen))
            · exact absurd (hx.trans hdir.symm) hstrict
            · rfl
          have hc : g.bit < radix_maxbits_by_family p.family ∧
              bit_test_search_bit p.add g.bit = true := by
            constructor
            · rw [hgbit]; omega
            · rw [hgbit]; exact hpt
          have hX := hgiff.mpr hc
          rw [hgd] at hX
          cases hX
    cases hc2 : (lookup_climb (find_differ_bit p.add P0.add
        (if nb < p.bitlen then nb else p.bitlen))
        (lookup_descend p.add p.bitlen (radix_maxbits_by_family p.family)
          (.mk hb hq hl hr hd) []).1 (node_t.mk nb (some P0) nl nr nd)).2 with
    | null => exact absurd hc2 hclm_ne
    | mk b1 q1 l1 r1 d1 =>
      rw [hc2] at hheadeq hdb_clm hagQ hP0mem2 hdiff hslot
      simp only [node_t.bit, node_t.l, node_t.r] at hdb_clm hdiff hslot
      exact radix_lookup_splice_good t p _ b1 q1 l1 r1 d1 _ P0.add _
        hI hp hheadeq hdb_bl hdb_clm hlt hframes hagQ ⟨P0, hP0mem2, rfl⟩
        hdiff hslot

end PyRadix

namespace PyRadix

/-- Replacing the hole subtree by one whose prefixes form a subset, at a
bit no smaller than before, preserves the invariant. -/
theorem rebuild_inv_shrink {fam : Family} {path : List frame_t}
    {m m' : node_t}
    (h : InvN fam (rebuild path m)) (hm' : InvN fam m')
    (hm0 : m ≠ .null) (hm'0 : m' ≠ .null)
    (hsub : ∀ Q ∈ subPfxs m', Q ∈ subPfxs m)
    (hbit : m.bit ≤ m'.bit) :
    InvN fam (rebuild path m') := by
  apply rebuild_inv_replace path m m' m.bit h hm' hm0 hm'0
  · intro P' hP' Q hQ
    exact subPfxs_pairwise (InvN_of_rebuild h) P' (hsub P' hP') Q hQ
  · intro f fs hfs
    subst hfs
    have hfb : f.bit < m.bit := path_bits_lt h hm0 f (by simp)
    exact ⟨hfb, lt_of_lt_of_le hfb hbit⟩

theorem InvT_any {t : radix_tree_t} {fam : Family} {h' : node_t} {x : Int}
    (hI : InvT t) (hinv : InvN fam h')
    (hx : x = t.num_active_node + (node_size h' : Int)
      - node_size (radix_head_by_family t fam)) :
    InvT { radix_set_head t fam h' with num_active_node := x } := by
  obtain ⟨h4, h6, hc⟩ := hI
  cases fam
  · refine ⟨hinv, h6, ?_⟩
    simp only [radix_set_head, radix_head_by_family] at hx ⊢
    omega
  · refine ⟨h4, hinv, ?_⟩
    simp only [radix_set_head, radix_head_by_family] at hx ⊢
    omega

theorem search_descend_rebuild (q : prefix_t) :
    ∀ (n : node_t) (path : List frame_t),
      rebuild (search_descend q n path).1 (search_descend q n path).2
        = rebuild path n := by
  intro n
  induction n with
  | null => intro path; rfl
  | mk b p l r d ihl ihr =>
    intro path
    rw [search_descend]
    by_cases hc : b < q.bitlen
    · rw [if_pos hc]
      by_cases hdir : bit_test_search_bit q.add b = true
      · rw [if_pos hdir]
        rw [ihr]
        simp [rebuild, rebuild1, frameR, node_t.bit, node_t.pfx,
          node_t.data, node_t.l]
      · rw [if_neg hdir]
        rw [ihl]
        simp [rebuild, rebuild1, frameL, node_t.bit, node_t.pfx,
          node_t.data, node_t.r]
    · rw [if_neg hc]

theorem search_exact_z_spec (t : radix_tree_t) (q : prefix_t)
    (path : List frame_t) (node : node_t)
    (hz : radix_search_exact_z t q = some (path, node)) :
    radix_head_by_family t q.family = rebuild path node ∧
    node.pfx ≠ none ∧ node ≠ .null := by
  unfold radix_search_exact_z at hz
  cases hh : radix_head_by_family t q.family with
  | null => rw [hh] at hz; cases hz
  | mk b p l r d =>
    rw [hh] at hz
    dsimp only at hz
    have hreb := search_descend_rebuild q (.mk b p l r d) []
    cases hsd : search_descend q (.mk b p l r d) [] with
    | mk path' node' =>
    rw [hsd] at hz hreb
    cases node' with
    | null => simp at hz
    | mk b' p' l' r' d' =>
      dsimp only at hz hreb
      cases p' with
      | none =>
        rw [if_pos (Or.inr rfl)] at hz
        cases hz
      | some P =>
        by_cases hc1 : b' > q.bitlen ∨ (some P : Option prefix_t) = none
        · rw [if_pos hc1] at hz
          cases hz
        · rw [if_neg hc1] at hz
          dsimp only at hz
          by_cases hc2 : comp_with_mask P.add q.add q.bitlen = true
          · rw [if_pos hc2] at hz
            simp only [Option.some.injEq, Prod.mk.injEq] at hz
            obtain ⟨rfl, rfl⟩ := hz
            refine ⟨?_, ?_, by simp⟩
            · exact hreb.symm
            · simp [node_t.pfx]
          · rw [if_neg hc2] at hz
            cases hz

set_option maxHeartbeats 1000000 in
/-- `radix_remove` on a real node of an invariant tree (identified by
its zipper) preserves the invariant, counter included, in all three
removal cases. -/
theorem radix_remove_good {t : radix_tree_t} {path : List frame_t}
    {b : Nat} {P : prefix_t} {l r : node_t} {d : Bool}
    (hI : InvT t)
    (hheadeq : radix_head_by_family t P.family
      = rebuild path (.mk b (some P) l r d)) :
    InvT (radix_remove t path (.mk b (some P) l r d)) := by
  have hHead : InvN P.family (rebuild path (.mk b (some P) l r d)) := by
    rw [← hheadeq]
    exact InvT_head hI P.family
  have hInvN : InvN P.family (.mk b (some P) l r d) := InvN_of_rebuild hHead
  obtain ⟨i1, i2, i3, i4, i5, i6, i7, i8, i9, i10⟩ := InvN_mk_iff.mp hInvN
  unfold radix_remove
  simp only [node_t.pfx, node_t.bit, node_t.l, node_t.r]
  by_cases h2 : r ≠ node_t.null ∧ l ≠ node_t.null
  · rw [if_pos h2]
    have classify1 : ∀ Q, Q ∈ subPfxs (node_t.mk b none l r false) →
        Q ∈ subPfxs (node_t.mk b (some P) l r d) := by
      intro Q hQ
      rcases mem_subPfxs_mk.mp hQ with h | h | h
      · exact mem_subPfxs_mk.mpr (Or.inl h)
      · exact mem_subPfxs_mk.mpr (Or.inr (Or.inl h))
      · cases h
    have hinv' : InvN P.family (node_t.mk b none l r false) := by
      refine InvN_mk_iff.mpr ⟨i1, ?_, ?_, i4, i5, i6, i7, i8, i9, ?_⟩
      · rintro Q hQ; cases hQ
      · intro _; exact ⟨h2.2, h2.1⟩
      · intro Q hQ Q' hQ'
        exact i10 Q (classify1 Q hQ) Q' (classify1 Q' hQ')
    have hrep := rebuild_inv_shrink hHead hinv' (by simp) (by simp)
      classify1 (by simp [node_t.bit])
    apply InvT_set_head hI hrep
    rw [hheadeq, node_size_rebuild, node_size_rebuild]
    simp only [node_size]
  · rw [if_neg h2]
    by_cases h0 : r = node_t.null ∧ l = node_t.null
    · rw [if_pos h0]
      obtain ⟨rfl, rfl⟩ := h0
      cases path with
      | nil =>
        dsimp only
        apply InvT_any hI InvN.null
        rw [hheadeq]
        simp only [rebuild, node_size]
        push_cast
        ring
      | cons f rest =>
        dsimp only
        have hHead' : InvN P.family (rebuild rest
            (rebuild1 f (node_t.mk b (some P) .null .null d))) := hHead
        by_cases hfp : f.pfx ≠ none
        · rw [if_pos hfp]
          cases hfd : f.d with
          | left =>
            have e1 : rebuild1 f (node_t.mk b (some P) .null .null d)
                = node_t.mk f.bit f.pfx (node_t.mk b (some P) .null .null d)
                  f.other f.data := by
              simp [rebuild1, hfd]
            rw [e1] at hHead'
            obtain ⟨k1, k2, k3, k4, k5, k6, k7, k8, k9, k10⟩ :=
              InvN_mk_iff.mp (InvN_of_rebuild hHead')
            have classify2 : ∀ Q, Q ∈ subPfxs
                (node_t.mk f.bit f.pfx .null f.other f.data) →
                Q ∈ subPfxs (node_t.mk f.bit f.pfx
                  (node_t.mk b (some P) .null .null d) f.other f.data) := by
              intro Q hQ
              rcases mem_subPfxs_mk.mp hQ with h | h | h
              · rw [subPfxs_null] at h; cases h
              · exact mem_subPfxs_mk.mpr (Or.inr (Or.inl h))
              · exact mem_subPfxs_mk.mpr (Or.inr (Or.inr h))
            have hinv' : InvN P.family
                (node_t.mk f.bit f.pfx .null f.other f.data) := by
              refine InvN_mk_iff.mpr
                ⟨k1, k2, ?_, ?_, k5, InvN.null, k7, ?_, k9, ?_⟩
              · intro h; exact absurd h hfp
              · intro h; exact absurd rfl h
              · intro Q hQ; rw [subPfxs_null] at hQ; cases hQ
              · intro Q hQ Q' hQ'
                exact k10 Q (classify2 Q hQ) Q' (classify2 Q' hQ')
            have hrep := rebuild_inv_shrink hHead' hinv' (by simp) (by simp)
              classify2 (by simp [node_t.bit])
            apply InvT_any hI hrep
            rw [hheadeq, node_size_rebuild, node_size_rebuild]
            simp only [node_size, path_weight, List.map_cons, List.sum_cons]
            push_cast
            ring
          | right =>
            have e1 : rebuild1 f (node_t.mk b (some P) .null .null d)
                = node_t.mk f.bit f.pfx f.other
                  (node_t.mk b (some P) .null .null d) f.data := by
              simp [rebuild1, hfd]
            rw [e1] at hHead'
            obtain ⟨k1, k2, k3, k4, k5, k6, k7, k8, k9, k10⟩ :=
              InvN_mk_iff.mp (InvN_of_rebuild hHead')
            have classify2 : ∀ Q, Q ∈ subPfxs
                (node_t.mk f.bit f.pfx f.other .null f.data) →
                Q ∈ subPfxs (node_t.mk f.bit f.pfx f.other
                  (node_t.mk b (some P) .null .null d) f.data) := by
              intro Q hQ
              rcases mem_subPfxs_mk.mp hQ with h | h | h
              · exact mem_subPfxs_mk.mpr (Or.inl h)
              · rw [subPfxs_null] at h; cases h
              · exact mem_subPfxs_mk.mpr (Or.inr (Or.inr h))
            have hinv' : InvN P.family
                (node_t.mk f.bit f.pfx f.other .null f.data) := by
              refine InvN_mk_iff.mpr
                ⟨k1, k2, ?_, k4, ?_, k6, InvN.null, k8, ?_, ?_⟩
              · intro h; exact absurd h hfp
              · intro h; exact absurd rfl h
              · intro Q hQ; rw [subPfxs_null] at hQ; cases hQ
              · intro Q hQ Q' hQ'
                exact k10 Q (classify2 Q hQ) Q' (classify2 Q' hQ')
            have hrep := rebuild_inv_shrink hHead' hinv' (by simp) (by simp)
              classify2 (by simp [node_t.bit])
            apply InvT_any hI hrep
            rw [hheadeq, node_size_rebuild, node_size_rebuild]
            simp only [node_size, path_weight, List.map_cons, List.sum_cons]
            push_cast
            ring
        · rw [if_neg hfp]
          push_neg at hfp
          cases hfd : f.d with
          | left =>
            have e1 : rebuild1 f (node_t.mk b (some P) .null .null d)
                = node_t.mk f.bit none (node_t.mk b (some P) .null .null d)
                  f.other f.data := by
              simp [rebuild1, hfd, hfp]
            rw [e1] at hHead'
            obtain ⟨k1, k2, k3, k4, k5, k6, k7, k8, k9, k10⟩ :=
              InvN_mk_iff.mp (InvN_of_rebuild hHead')
            have hother : f.other ≠ node_t.null := (k3 rfl).2
            have classify2 : ∀ Q, Q ∈ subPfxs f.other →
                Q ∈ subPfxs (node_t.mk f.bit none
                  (node_t.mk b (some P) .null .null d) f.other f.data) :=
              fun Q hQ => mem_subPfxs_mk.mpr (Or.inr (Or.inl hQ))
            have hrep := rebuild_inv_shrink hHead' k7 (by simp) hother
              classify2 (by simp only [node_t.bit]; exact le_of_lt (k5 hother))
            apply InvT_any hI hrep
            rw [hheadeq, node_size_rebuild, node_size_rebuild]
            simp only [node_size, path_weight, List.map_cons, List.sum_cons]
            push_cast
            ring
          | right =>
            have e1 : rebuild1 f (node_t.mk b (some P) .null .null d)
                = node_t.mk f.bit none f.other
                  (node_t.mk b (some P) .null .null d) f.data := by
              simp [rebuild1, hfd, hfp]
            rw [e1] at hHead'
            obtain ⟨k1, k2, k3, k4, k5, k6, k7, k8, k9, k10⟩ :=
              InvN_mk_iff.mp (InvN_of_rebuild hHead')
            have hother : f.other ≠ node_t.null := (k3 rfl).1
            have classify2 : ∀ Q, Q ∈ subPfxs f.other →
                Q ∈ subPfxs (node_t.mk f.bit none f.other
                  (node_t.mk b (some P) .null .null d) f.data) :=
              fun Q hQ => mem_subPfxs_mk.mpr (Or.inl hQ)
            have hrep := rebuild_inv_shrink hHead' k6 (by simp) hother
              classify2 (by simp only [node_t.bit]; exact le_of_lt (k4 hother))
            apply InvT_any hI hrep
            rw [hheadeq, node_size_rebuild, node_size_rebuild]
            simp only [node_size, path_weight, List.map_cons, List.sum_cons]
            push_cast
            ring
    · rw [if_neg h0]
      by_cases hrn : r = node_t.null
      · have hln : l ≠ node_t.null := fun hc => h0 ⟨hrn, hc⟩
        rw [if_neg (not_not_intro hrn)]
        subst hrn
        have classify3 : ∀ Q ∈ subPfxs l,
            Q ∈ subPfxs (node_t.mk b (some P) l node_t.null d) :=
          fun Q hQ => mem_subPfxs_mk.mpr (Or.inl hQ)
        have hrep := rebuild_inv_shrink hHead i6 (by simp) hln classify3
          (by simp only [node_t.bit]; exact le_of_lt (i4 hln))
        apply InvT_any hI hrep
        rw [hheadeq, node_size_rebuild, node_size_rebuild]
        simp only [node_size]
        push_cast
        ring
      · have hln : l = node_t.null := by
          by_contra hc
          exact h2 ⟨hrn, hc⟩
        rw [if_pos hrn]
        subst hln
        have classify3 : ∀ Q ∈ subPfxs r,
            Q ∈ subPfxs (node_t.mk b (some P) node_t.null r d) :=
          fun Q hQ => mem_subPfxs_mk.mpr (Or.inr (Or.inl hQ))
        have hrep := rebuild_inv_shrink hHead i7 (by simp) hrn classify3
          (by simp only [node_t.bit]; exact le_of_lt (i5 hrn))
        apply InvT_any hI hrep
        rw [hheadeq, node_size_rebuild, node_size_rebuild]
        simp only [node_size]
        push_cast
        ring

theorem Radix_delete_t_InvT (t : radix_tree_t) (q : prefix_t)
    (hI : InvT t) : InvT (Radix_delete_t t q) := by
  unfold Radix_delete_t
  cases hz : radix_search_exact_z t q with
  | none => exact hI
  | some pr =>
    obtain ⟨path, node⟩ := pr
    obtain ⟨hhead, hpfx, hnn⟩ := search_exact_z_spec t q path node hz
    cases node with
    | null => exact absurd rfl hnn
    | mk b p' l r d =>
      cases p' with
      | none => exact absurd rfl hpfx
      | some P =>
        have hPfam : P.family = q.family := by
          have hH : InvN q.family (rebuild path (.mk b (some P) l r d)) := by
            rw [← hhead]
            exact InvT_head hI q.family
          have hm : P ∈ subPfxs (rebuild path (.mk b (some P) l r d)) :=
            mem_subPfxs_rebuild _ _ (mem_subPfxs_mk.mpr (Or.inr (Or.inr rfl)))
          exact (subPfxs_valid hH P hm).1
        exact radix_remove_good hI (by rw [hPfam]; exact hhead)

/-- Every reachable tree satisfies the Patricia invariant with a
synchronized node counter. -/
theorem Rchb_InvT {t : radix_tree_t} (h : Rchb t) : InvT t := by
  induction h with
  | new => exact ⟨InvN.null, InvN.null, by simp [New_Radix, node_size]⟩
  | ins _ hp ih => exact (radix_lookup_good _ _ ih hp).inv
  | del _ _ ih => exact Radix_delete_t_InvT _ _ ih

end PyRadix

namespace PyRadix

/-- Claim C8: after every sequence of inserts and deletes starting from
a new tree, `num_active_node` equals the number of nodes (real and
glue) reachable from the two family heads. -/
theorem claim_C8 (t : radix_tree_t) (h : Rchb t) :
    t.num_active_node
      = (node_size t.head_ipv4 : Int) + node_size t.head_ipv6 :=
  (Rchb_InvT h).2.2

/-- Claim C8, witness: inserting 10.0.0.0/8 into a fresh tree and then
deleting it again leaves the counter equal to the reachable node
count. -/
theorem claim_C8_witness :
    (Radix_delete_t (radix_lookup New_Radix ex_10_8).tree
        ex_10_8).num_active_node
      = ((node_size (Radix_delete_t (radix_lookup New_Radix ex_10_8).tree
            ex_10_8).head_ipv4 : Int)
        + node_size (Radix_delete_t (radix_lookup New_Radix ex_10_8).tree
            ex_10_8).head_ipv6) :=
  claim_C8 _ (Rchb.del (Rchb.ins Rchb.new (by decide)) (by decide))

/-- Every node of an invariant subtree heads an invariant subtree. -/
theorem InvN_all_nodes {fam : Family} {n : node_t} (h : InvN fam n) :
    ∀ m ∈ all_nodes n, InvN fam m := by
  induction h with
  | null => intro m hm; rw [show all_nodes .null = [] from rfl] at hm; cases hm
  | @mk b p l r d h1 h2 h3 h4 h5 h6 h7 h8 h9 h10 ihl ihr =>
    intro m hm
    rw [show all_nodes (.mk b p l r d)
        = .mk b p l r d :: (all_nodes l ++ all_nodes r) from rfl] at hm
    rcases List.mem_cons.mp hm with rfl | hm
    · exact InvN.mk h1 h2 h3 h4 h5 h6 h7 h8 h9 h10
    · rcases List.mem_append.mp hm with hm | hm
      · exact ihl m hm
      · exact ihr m hm

/-- A stored prefix of any node of a subtree is a stored prefix of the
subtree. -/
theorem subPfxs_of_all_nodes {n m : node_t} {P : prefix_t}
    (hm : m ∈ all_nodes n) (hP : m.pfx = some P) : P ∈ subPfxs n := by
  induction n with
  | null => rw [show all_nodes .null = [] from rfl] at hm; cases hm
  | mk b p l r d ihl ihr =>
    rw [show all_nodes (.mk b p l r d)
        = .mk b p l r d :: (all_nodes l ++ all_nodes r) from rfl] at hm
    rcases List.mem_cons.mp hm with rfl | hm
    · exact mem_subPfxs_mk.mpr (Or.inr (Or.inr (by simpa [node_t.pfx]
        using hP)))
    · rcases List.mem_append.mp hm with hm | hm
      · exact mem_subPfxs_mk.mpr (Or.inl (ihl hm))
      · exact mem_subPfxs_mk.mpr (Or.inr (Or.inl (ihr hm)))

theorem self_mem_all_nodes {n : node_t} (hn : n ≠ .null) :
    n ∈ all_nodes n := by
  cases n with
  | null => exact absurd rfl hn
  | mk b p l r d => exact List.mem_cons_self _ _

/-- Claim C9: in every reachable tree, the prefix of a real node agrees
with the prefix of every real node in its subtree on the first
`bitlen` bits of the ancestor — prefix-bearing ancestors contain their
prefix-bearing descendants. -/
theorem claim_C9 (t : radix_tree_t) (h : Rchb t) (fam : Family)
    (A D : node_t) (PA PD : prefix_t)
    (hA : A ∈ all_nodes (radix_head_by_family t fam))
    (hD : D ∈ all_nodes A)
    (hPA : A.pfx = some PA) (hPD : D.pfx = some PD) :
    agrees PD.add PA.add PA.bitlen := by
  have hIH : InvN fam (radix_head_by_family t fam) :=
    InvT_head (Rchb_InvT h) fam
  have hIA : InvN fam A := InvN_all_nodes hIH A hA
  have hAnn : A ≠ .null := by
    intro hc
    rw [hc] at hPA
    cases hPA
  have hPAmem : PA ∈ subPfxs A := subPfxs_of_all_nodes
    (self_mem_all_nodes hAnn) hPA
  have hPDmem : PD ∈ subPfxs A := subPfxs_of_all_nodes hD hPD
  have hbl : PA.bitlen = A.bit := by
    rcases subPfxs_bitlen hIA PA hPAmem with ⟨_, hb⟩ | hb
    · exact hb
    · cases A with
      | null => exact absurd rfl hAnn
      | mk b p l r d =>
        simp only [node_t.pfx] at hPA
        obtain ⟨j1, j2, j3, j4, j5, j6, j7, j8, j9, j10⟩ :=
          InvN_mk_iff.mp hIA
        have := (j2 PA hPA).2.2
        simp only [node_t.bit] at hb ⊢
        omega
  rw [hbl]
  exact subPfxs_pairwise hIA PD hPDmem PA hPAmem

end PyRadix

namespace PyRadix

/-- Claim C9, witness: in the tree holding 10.0.0.0/8 and 10.1.0.0/16,
the /16 descendant's prefix agrees with the /8 ancestor's prefix on the
first 8 bits. -/
theorem claim_C9_witness :
    agrees ex_10_1_16.add ex_10_8.add ex_10_8.bitlen :=
  claim_C9
    (radix_lookup (radix_lookup New_Radix ex_10_8).tree ex_10_1_16).tree
    (Rchb.ins (Rchb.ins Rchb.new (by decide)) (by decide)) .af_inet
    (radix_head_by_family
      (radix_lookup (radix_lookup New_Radix ex_10_8).tree ex_10_1_16).tree
      .af_inet)
    (radix_head_by_family
      (radix_lookup (radix_lookup New_Radix ex_10_8).tree ex_10_1_16).tree
      .af_inet).l
    ex_10_8 ex_10_1_16 (by decide) (by decide) (by decide) (by decide)

end PyRadix

namespace PyRadix

theorem lookup_climb_stay (db : Nat) (path : List frame_t) (n : node_t)
    (h : ∀ f ∈ path, f.bit < db) : lookup_climb db path n = (path, n) := by
  cases path with
  | nil => rfl
  | cons f fs =>
    rw [lookup_climb,
      if_neg (by have := h f (List.mem_cons_self f fs); omega)]

/-- Re-descending a zipper whose frames were produced by correct guarded
bit tests follows exactly the same path and stops at the hole. -/
theorem lookup_descend_again (addr : List Nat) (bl mb : Nat)
    (path : List frame_t) :
    ∀ (n : node_t) (acc : List frame_t),
      n ≠ .null →
      ¬ (n.bit < bl ∨ n.pfx = none) →
      (∀ f ∈ path, lookup_frame_ok addr bl mb f) →
      (lookup_descend addr bl mb (rebuild path n) acc).1 = path ++ acc ∧
      (lookup_descend addr bl mb (rebuild path n) acc).2.1 = n := by
  induction path using List.reverseRecOn with
  | nil =>
    intro n acc hn hstop _
    cases n with
    | null => exact absurd rfl hn
    | mk b p l r d =>
      rw [show rebuild [] (node_t.mk b p l r d)
          = node_t.mk b p l r d from rfl]
      rw [lookup_descend,
        if_neg (by simpa [node_t.bit, node_t.pfx] using hstop)]
      exact ⟨rfl, rfl⟩
  | append_singleton fs f ih =>
    intro n acc hn hstop hfr
    have hfok := hfr f (by simp)
    have hfs : ∀ g ∈ fs, lookup_frame_ok addr bl mb g :=
      fun g hg => hfr g (by simp [hg])
    rw [rebuild_append]
    rw [show ∀ m, rebuild [f] m = rebuild1 f m from fun m => rfl]
    obtain ⟨fb, fp, fdta, fdir, fo⟩ := f
    have hXn : rebuild fs n ≠ .null := rebuild_ne_null_of fs n hn
    have hcond : fb < bl ∨ fp = none := hfok.2
    cases fdir with
    | right =>
      rw [show rebuild1 ⟨fb, fp, fdta, .right, fo⟩ (rebuild fs n)
          = node_t.mk fb fp fo (rebuild fs n) fdta from rfl]
      rw [lookup_descend, if_pos hcond]
      have hdir : fb < mb ∧ bit_test_search_bit addr fb = true :=
        hfok.1.mp rfl
      rw [if_pos hdir]
      cases hX : rebuild fs n with
      | null => exact absurd hX hXn
      | mk xb xp xl xr xd =>
        dsimp only
        have hih := ih n
          ((⟨fb, fp, fdta, .right, fo⟩ : frame_t) :: acc) hn hstop hfs
        rw [hX] at hih
        refine ⟨?_, hih.2⟩
        rw [List.append_assoc]
        exact hih.1
    | left =>
      rw [show rebuild1 ⟨fb, fp, fdta, .left, fo⟩ (rebuild fs n)
          = node_t.mk fb fp (rebuild fs n) fo fdta from rfl]
      rw [lookup_descend, if_pos hcond]
      have hdir : ¬ (fb < mb ∧ bit_test_search_bit addr fb = true) := by
        intro hc
        have := hfok.1.mpr hc
        cases this
      rw [if_neg hdir]
      cases hX : rebuild fs n with
      | null => exact absurd hX hXn
      | mk xb xp xl xr xd =>
        dsimp only
        have hih := ih n
          ((⟨fb, fp, fdta, .left, fo⟩ : frame_t) :: acc) hn hstop hfs
        rw [hX] at hih
        refine ⟨?_, hih.2⟩
        rw [List.append_assoc]
        exact hih.1

/-- A second `radix_lookup` of a prefix already present at the zipper
`(path1, node1)` returns that very node and leaves the tree untouched. -/
theorem radix_lookup_already (t1 : radix_tree_t) (p : prefix_t)
    (path1 : List frame_t) (node1 : node_t)
    (hp : pfx_valid p)
    (hheadeq : radix_head_by_family t1 p.family = rebuild path1 node1)
    (hpfx : node1.pfx = some p)
    (hbit : node1.bit = p.bitlen)
    (hframes : ∀ f ∈ path1,
      lookup_frame_ok p.add p.bitlen (radix_maxbits_by_family p.family) f
      ∧ f.bit < p.bitlen) :
    (radix_lookup t1 p).node = node1 ∧ (radix_lookup t1 p).tree = t1 := by
  have hn1 : node1 ≠ .null := by
    intro hc
    rw [hc] at hpfx
    cases hpfx
  unfold radix_lookup
  cases hh : radix_head_by_family t1 p.family with
  | null =>
    exfalso
    rw [hh] at hheadeq
    exact rebuild_ne_null_of path1 node1 hn1 hheadeq.symm
  | mk hb hq hl hr hd =>
    dsimp only
    have hmk : node_t.mk hb hq hl hr hd = rebuild path1 node1 := by
      rw [← hh, hheadeq]
    rw [hmk]
    have hstop : ¬ (node1.bit < p.bitlen ∨ node1.pfx = none) := by
      rw [hbit, hpfx]
      simp
    obtain ⟨hd1, hd2⟩ := lookup_descend_again p.add p.bitlen
      (radix_maxbits_by_family p.family) path1 node1 [] hn1 hstop
      (fun f hf => (hframes f hf).1)
    rw [hd1, hd2, List.append_nil]
    rw [node_test_addr_eq hpfx, hbit]
    rw [if_neg (lt_irrefl p.bitlen)]
    rw [find_differ_bit_self p.add hp.2.1 p.bitlen]
    rw [lookup_climb_stay p.bitlen path1 node1
      (fun f hf => (hframes f hf).2)]
    dsimp only
    simp only [radix_lookup_splice]
    rw [if_pos (by simp [hbit])]
    rw [if_neg (by simp [hpfx])]
    refine ⟨rfl, ?_⟩
    dsimp only
    rw [← hheadeq, set_head_self]

/-- Claim C3: on every reachable tree, looking a prefix up twice
returns the same node both times, and the second call changes neither
the tree structure nor `num_active_node`. -/
theorem claim_C3 (t : radix_tree_t) (p : prefix_t) (h : Rchb t)
    (hp : pfx_valid p) :
    (radix_lookup (radix_lookup t p).tree p).node
      = (radix_lookup t p).node ∧
    (radix_lookup (radix_lookup t p).tree p).tree
      = (radix_lookup t p).tree ∧
    (radix_lookup (radix_lookup t p).tree p).tree.num_active_node
      = (radix_lookup t p).tree.num_active_node := by
  have g := radix_lookup_good t p (Rchb_InvT h) hp
  obtain ⟨h1, h2⟩ := radix_lookup_already (radix_lookup t p).tree p
    (radix_lookup t p).path (radix_lookup t p).node hp g.head g.pfx
    (by rw [g.bit]) g.frames
  exact ⟨h1, h2, by rw [h2]⟩

/-- Claim C3, witness: inserting 10.0.0.0/8 into a fresh tree and
looking it up again returns the same node and the same tree. -/
theorem claim_C3_witness :
    (radix_lookup (radix_lookup New_Radix ex_10_8).tree ex_10_8).node
      = (radix_lookup New_Radix ex_10_8).node ∧
    (radix_lookup (radix_lookup New_Radix ex_10_8).tree ex_10_8).tree
      = (radix_lookup New_Radix ex_10_8).tree ∧
    (radix_lookup (radix_lookup New_Radix ex_10_8).tree
        ex_10_8).tree.num_active_node
      = (radix_lookup New_Radix ex_10_8).tree.num_active_node :=
  claim_C3 New_Radix ex_10_8 Rchb.new (by decide)

end PyRadix

namespace PyRadix

/-! ### Claim C1: correctness of `radix_search_best2` -/

theorem maxbits_div8 (fam : Family) :
    8 * (radix_maxbits_by_family fam / 8) = radix_maxbits_by_family fam := by
  cases fam <;> rfl

theorem pfx_byte_bound {P : prefix_t} (hP : pfx_valid P) :
    P.bitlen ≤ 8 * P.add.length := by
  have h1 := hP.1
  have h2 := hP.2.2.1
  rw [h1, maxbits_div8]
  exact h2

theorem pfx_byte_bound2 {P q : prefix_t} (hP : pfx_valid P)
    (hq : pfx_valid q) (hfam : P.family = q.family) :
    P.bitlen ≤ 8 * q.add.length := by
  rw [hq.1, maxbits_div8, ← hfam]
  exact hP.2.2.1

theorem pfx_bitlen_anchor {fam : Family} {A : node_t} {P : prefix_t}
    (h : InvN fam A) (hp : A.pfx = some P) : P.bitlen = A.bit := by
  cases A with
  | null => cases hp
  | mk b p l r d =>
    simp only [node_t.pfx] at hp
    simp only [node_t.bit]
    exact ((InvN_mk_iff.mp h).2.1 P hp).2.2

theorem all_nodes_bit_le {fam : Family} {n : node_t} (h : InvN fam n) :
    ∀ m ∈ all_nodes n, n.bit ≤ m.bit := by
  induction h with
  | null =>
    intro m hm
    rw [show all_nodes .null = [] from rfl] at hm
    cases hm
  | @mk b p l r d h1 h2 h3 h4 h5 h6 h7 h8 h9 h10 ihl ihr =>
    intro m hm
    rw [show all_nodes (.mk b p l r d)
        = .mk b p l r d :: (all_nodes l ++ all_nodes r) from rfl] at hm
    rcases List.mem_cons.mp hm with rfl | hm
    · exact le_refl _
    · rcases List.mem_append.mp hm with hm | hm
      · have hl : l ≠ .null := by
          intro hc
          rw [hc, show all_nodes .null = [] from rfl] at hm
          cases hm
        have hx := ihl m hm
        have := h4 hl
        show b ≤ m.bit
        omega
      · have hr : r ≠ .null := by
          intro hc
          rw [hc, show all_nodes .null = [] from rfl] at hm
          cases hm
        have hx := ihr m hm
        have := h5 hr
        show b ≤ m.bit
        omega

theorem subPfxs_to_node {n : node_t} {P : prefix_t} :
    P ∈ subPfxs n → ∃ A ∈ all_nodes n, A.pfx = some P := by
  induction n with
  | null => intro h; rw [subPfxs_null] at h; cases h
  | mk b p l r d ihl ihr =>
    intro h
    rcases mem_subPfxs_mk.mp h with h | h | h
    · obtain ⟨A, hA, hp⟩ := ihl h
      exact ⟨A, List.mem_cons_of_mem _ (List.mem_append_left _ hA), hp⟩
    · obtain ⟨A, hA, hp⟩ := ihr h
      exact ⟨A, List.mem_cons_of_mem _ (List.mem_append_right _ hA), hp⟩
    · exact ⟨.mk b p l r d, List.mem_cons_self _ _,
        by simp [node_t.pfx, h]⟩

theorem best_descend_mono (q : prefix_t) (incl : Bool) :
    ∀ (n : node_t) (path : List frame_t)
      (st : List (List frame_t × node_t)),
      ∀ e ∈ st, e ∈ best_descend q incl n path st := by
  intro n
  induction n with
  | null => intro path st e he; exact he
  | mk b p l r d ihl ihr =>
    intro path st e he
    rw [best_descend]
    by_cases hc : b ≤ q.bitlen
    · rw [if_pos hc]
      dsimp only
      by_cases hpush : p ≠ none ∧ (incl = true ∨ b ≠ q.bitlen)
      · rw [if_pos hpush]
        by_cases hdir : bit_test_search_bit q.add b = true
        · rw [if_pos hdir]
          exact ihr _ _ e (List.mem_append_left _ he)
        · rw [if_neg hdir]
          exact ihl _ _ e (List.mem_append_left _ he)
      · rw [if_neg hpush]
        by_cases hdir : bit_test_search_bit q.add b = true
        · rw [if_pos hdir]
          exact ihr _ _ e he
        · rw [if_neg hdir]
          exact ihl _ _ e he
    · rw [if_neg hc]
      exact he

theorem best_descend_nodes (q : prefix_t) (incl : Bool) :
    ∀ (n : node_t) (path : List frame_t)
      (st : List (List frame_t × node_t)),
      ∀ e ∈ best_descend q incl n path st,
        e ∈ st ∨ ((e.2) ∈ all_nodes n ∧ (e.2).pfx ≠ none) := by
  intro n
  induction n with
  | null => intro path st e he; exact Or.inl he
  | mk b p l r d ihl ihr =>
    intro path st e he
    have hsubl : ∀ m, m ∈ all_nodes l →
        m ∈ all_nodes (node_t.mk b p l r d) :=
      fun m hm => List.mem_cons_of_mem _ (List.mem_append_left _ hm)
    have hsubr : ∀ m, m ∈ all_nodes r →
        m ∈ all_nodes (node_t.mk b p l r d) :=
      fun m hm => List.mem_cons_of_mem _ (List.mem_append_right _ hm)
    rw [best_descend] at he
    by_cases hc : b ≤ q.bitlen
    · rw [if_pos hc] at he
      dsimp only at he
      by_cases hpush : p ≠ none ∧ (incl = true ∨ b ≠ q.bitlen)
      · rw [if_pos hpush] at he
        have hstep : e ∈ st ++ [(path, node_t.mk b p l r d)] →
            e ∈ st ∨ ((e.2) ∈ all_nodes (node_t.mk b p l r d) ∧
              (e.2).pfx ≠ none) := by
          intro h1
          rcases List.mem_append.mp h1 with h1 | h1
          · exact Or.inl h1
          · rcases List.mem_singleton.mp h1 with rfl
            refine Or.inr ⟨List.mem_cons_self _ _, ?_⟩
            simpa [node_t.pfx] using hpush.1
        by_cases hdir : bit_test_search_bit q.add b = true
        · rw [if_pos hdir] at he
          rcases ihr _ _ e he with h1 | ⟨h1, h2⟩
          · exact hstep h1
          · exact Or.inr ⟨hsubr _ h1, h2⟩
        · rw [if_neg hdir] at he
          rcases ihl _ _ e he with h1 | ⟨h1, h2⟩
          · exact hstep h1
          · exact Or.inr ⟨hsubl _ h1, h2⟩
      · rw [if_neg hpush] at he
        by_cases hdir : bit_test_search_bit q.add b = true
        · rw [if_pos hdir] at he
          rcases ihr _ _ e he with h1 | ⟨h1, h2⟩
          · exact Or.inl h1
          · exact Or.inr ⟨hsubr _ h1, h2⟩
        · rw [if_neg hdir] at he
          rcases ihl _ _ e he with h1 | ⟨h1, h2⟩
          · exact Or.inl h1
          · exact Or.inr ⟨hsubl _ h1, h2⟩
    · rw [if_neg hc] at he
      exact Or.inl he

theorem best_descend_sorted {fam : Family} (q : prefix_t) (incl : Bool) :
    ∀ (n : node_t) (path : List frame_t)
      (st : List (List frame_t × node_t)),
      InvN fam n →
      List.Pairwise (fun a b : List frame_t × node_t =>
        (a.2).bit < (b.2).bit) st →
      (∀ e ∈ st, (e.2).bit < n.bit ∨ n = .null) →
      List.Pairwise (fun a b : List frame_t × node_t =>
        (a.2).bit < (b.2).bit) (best_descend q incl n path st) := by
  intro n
  induction n with
  | null => intro path st _ hpw _; exact hpw
  | mk b p l r d ihl ihr =>
    intro path st hInv hpw hbnd
    obtain ⟨i1, i2, i3, i4, i5, i6, i7, i8, i9, i10⟩ := InvN_mk_iff.mp hInv
    have hlt : ∀ e ∈ st, (e.2).bit < b := by
      intro e he
      have := (hbnd e he).resolve_right (by simp)
      simpa only [node_t.bit] using this
    rw [best_descend]
    by_cases hc : b ≤ q.bitlen
    · rw [if_pos hc]
      dsimp only
      by_cases hpush : p ≠ none ∧ (incl = true ∨ b ≠ q.bitlen)
      · rw [if_pos hpush]
        have hpw1 : List.Pairwise (fun a b : List frame_t × node_t =>
            (a.2).bit < (b.2).bit)
            (st ++ [(path, node_t.mk b p l r d)]) := by
          rw [List.pairwise_append]
          refine ⟨hpw, List.pairwise_singleton _ _, ?_⟩
          intro a ha e he
          rcases List.mem_singleton.mp he with rfl
          simpa only [node_t.bit] using hlt a ha
        have hb1 : ∀ e ∈ st ++ [(path, node_t.mk b p l r d)],
            (e.2).bit ≤ b := by
          intro e he
          rcases List.mem_append.mp he with h1 | h1
          · exact le_of_lt (hlt e h1)
          · rcases List.mem_singleton.mp h1 with rfl
            simp [node_t.bit]
        by_cases hdir : bit_test_search_bit q.add b = true
        · rw [if_pos hdir]
          apply ihr _ _ i7 hpw1
          intro e he
          by_cases hrn : r = node_t.null
          · exact Or.inr hrn
          · left
            have := i5 hrn
            have := hb1 e he
            omega
        · rw [if_neg hdir]
          apply ihl _ _ i6 hpw1
          intro e he
          by_cases hln : l = node_t.null
          · exact Or.inr hln
          · left
            have := i4 hln
            have := hb1 e he
            omega
      · rw [if_neg hpush]
        by_cases hdir : bit_test_search_bit q.add b = true
        · rw [if_pos hdir]
          apply ihr _ _ i7 hpw
          intro e he
          by_cases hrn : r = node_t.null
          · exact Or.inr hrn
          · left
            have := i5 hrn
            have := hlt e he
            omega
        · rw [if_neg hdir]
          apply ihl _ _ i6 hpw
          intro e he
          by_cases hln : l = node_t.null
          · exact Or.inr hln
          · left
            have := i4 hln
            have := hlt e he
            omega
    · rw [if_neg hc]
      exact hpw

theorem best_descend_complete {fam : Family} (q : prefix_t) :
    ∀ (n : node_t) (path : List frame_t)
      (st : List (List frame_t × node_t)) {A : node_t} {S : prefix_t},
      InvN fam n → A ∈ all_nodes n → A.pfx = some S →
      S.bitlen ≤ q.bitlen → agrees S.add q.add S.bitlen →
      ∃ path', (path', A) ∈ best_descend q true n path st := by
  intro n
  induction n with
  | null =>
    intro path st A S _ hA
    rw [show all_nodes .null = [] from rfl] at hA
    cases hA
  | mk b p l r d ihl ihr =>
    intro path st A S hInv hA hApfx hSbl hSag
    obtain ⟨i1, i2, i3, i4, i5, i6, i7, i8, i9, i10⟩ := InvN_mk_iff.mp hInv
    rw [show all_nodes (.mk b p l r d)
        = .mk b p l r d :: (all_nodes l ++ all_nodes r) from rfl] at hA
    rcases List.mem_cons.mp hA with rfl | hA'
    · have hpS : p = some S := by simpa [node_t.pfx] using hApfx
      have hbS : S.bitlen = b := (i2 S hpS).2.2
      rw [best_descend]
      rw [if_pos (by omega : b ≤ q.bitlen)]
      dsimp only
      rw [if_pos (show p ≠ none ∧ (true = true ∨ b ≠ q.bitlen)
        from ⟨by simp [hpS], Or.inl rfl⟩)]
      by_cases hdir : bit_test_search_bit q.add b = true
      · rw [if_pos hdir]
        exact ⟨path, best_descend_mono q true r _ _ _ (by simp)⟩
      · rw [if_neg hdir]
        exact ⟨path, best_descend_mono q true l _ _ _ (by simp)⟩
    · rcases List.mem_append.mp hA' with hAl | hAr
      · have hl_ne : l ≠ node_t.null := by
          intro hc
          rw [hc, show all_nodes .null = [] from rfl] at hAl
          cases hAl
        have hSsub : S ∈ subPfxs l := subPfxs_of_all_nodes hAl hApfx
        have hAanchor : S.bitlen = A.bit :=
          pfx_bitlen_anchor (InvN_all_nodes i6 A hAl) hApfx
        have hlbit : l.bit ≤ A.bit := all_nodes_bit_le i6 A hAl
        have hbl : b < l.bit := i4 hl_ne
        have hbS : b < S.bitlen := by omega
        have hdir : bit_test_search_bit q.add b = false := by
          have h1 : bit_test_search_bit S.add b = false := i8 S hSsub
          have h2 := hSag b hbS
          rw [h2] at h1
          exact h1
        rw [best_descend]
        rw [if_pos (by omega : b ≤ q.bitlen)]
        dsimp only
        rw [if_neg (by rw [hdir]; exact Bool.false_ne_true)]
        exact ihl _ _ i6 hAl hApfx hSbl hSag
      · have hr_ne : r ≠ node_t.null := by
          intro hc
          rw [hc, show all_nodes .null = [] from rfl] at hAr
          cases hAr
        have hSsub : S ∈ subPfxs r := subPfxs_of_all_nodes hAr hApfx
        have hAanchor : S.bitlen = A.bit :=
          pfx_bitlen_anchor (InvN_all_nodes i7 A hAr) hApfx
        have hrbit : r.bit ≤ A.bit := all_nodes_bit_le i7 A hAr
        have hbr : b < r.bit := i5 hr_ne
        have hbS : b < S.bitlen := by omega
        have hdir : bit_test_search_bit q.add b = true := by
          have h1 : bit_test_search_bit S.add b = true := i9 S hSsub
          have h2 := hSag b hbS
          rw [h2] at h1
          exact h1
        rw [best_descend]
        rw [if_pos (by omega : b ≤ q.bitlen)]
        dsimp only
        rw [if_pos hdir]
        exact ihr _ _ i7 hAr hApfx hSbl hSag

theorem best_descend_excl (q : prefix_t) :
    ∀ (n : node_t) (path : List frame_t)
      (st : List (List frame_t × node_t)),
      (∀ e ∈ st, (e.2).bit ≠ q.bitlen) →
      ∀ e ∈ best_descend q false n path st, (e.2).bit ≠ q.bitlen := by
  intro n
  induction n with
  | null => intro path st h e he; exact h e he
  | mk b p l r d ihl ihr =>
    intro path st h e he
    rw [best_descend] at he
    by_cases hc : b ≤ q.bitlen
    · rw [if_pos hc] at he
      dsimp only at he
      by_cases hpush : p ≠ none ∧ (false = true ∨ b ≠ q.bitlen)
      · rw [if_pos hpush] at he
        have hst' : ∀ e' ∈ st ++ [(path, node_t.mk b p l r d)],
            (e'.2).bit ≠ q.bitlen := by
          intro e' he'
          rcases List.mem_append.mp he' with h1 | h1
          · exact h e' h1
          · rcases List.mem_singleton.mp h1 with rfl
            have := hpush.2.resolve_left (by simp)
            simpa only [node_t.bit] using this
        by_cases hdir : bit_test_search_bit q.add b = true
        · rw [if_pos hdir] at he
          exact ihr _ _ hst' e he
        · rw [if_neg hdir] at he
          exact ihl _ _ hst' e he
      · rw [if_neg hpush] at he
        by_cases hdir : bit_test_search_bit q.add b = true
        · rw [if_pos hdir] at he
          exact ihr _ _ h e he
        · rw [if_neg hdir] at he
          exact ihl _ _ h e he
    · rw [if_neg hc] at he
      exact h e he

theorem find?_sorted_max {α : Type} (p : α → Bool) (f : α → Nat) :
    ∀ (l : List α), List.Pairwise (fun a b => f b < f a) l →
      ∀ x, l.find? p = some x → ∀ y ∈ l, p y = true → f y ≤ f x := by
  intro l
  induction l with
  | nil => intro _ x hx; cases hx
  | cons a as ih =>
    intro hpw x hx y hy hpy
    by_cases hpa : p a = true
    · rw [List.find?_cons_of_pos _ hpa] at hx
      injection hx with hx
      subst hx
      rcases List.mem_cons.mp hy with rfl | hy'
      · exact le_refl _
      · exact le_of_lt (List.rel_of_pairwise_cons hpw hy')
    · rw [List.find?_cons_of_neg _ (by simpa using hpa)] at hx
      rcases List.mem_cons.mp hy with rfl | hy'
      · exact absurd hpy hpa
      · exact ih (List.Pairwise.of_cons hpw) x hx y hy' hpy

end PyRadix

namespace PyRadix

set_option maxHeartbeats 1000000 in
/-- Claim C1: on every reachable tree, `radix_search_best` (inclusive)
returns a node whose stored prefix contains the query and whose length
is maximal among all stored prefixes containing it; it returns `none`
exactly when no stored prefix contains the query; and with
`inclusive = false` no candidate whose bit index equals the query
length ever enters the candidate stack. -/
theorem claim_C1 (t : radix_tree_t) (q : prefix_t) (h : Rchb t)
    (hq : pfx_valid q) :
    (∀ n, radix_search_best t q = some n →
      ∃ P, n.pfx = some P ∧
        P ∈ subPfxs (radix_head_by_family t q.family) ∧
        P.bitlen ≤ q.bitlen ∧ agrees P.add q.add P.bitlen ∧
        ∀ S ∈ subPfxs (radix_head_by_family t q.family),
          S.bitlen ≤ q.bitlen → agrees S.add q.add S.bitlen →
          S.bitlen ≤ P.bitlen) ∧
    (radix_search_best t q = none →
      ∀ S ∈ subPfxs (radix_head_by_family t q.family),
        ¬ (S.bitlen ≤ q.bitlen ∧ agrees S.add q.add S.bitlen)) ∧
    (∀ pn ∈ best_descend q false
        (radix_head_by_family t q.family) [] [],
      (pn.2).bit ≠ q.bitlen) := by
  have hH : InvN q.family (radix_head_by_family t q.family) :=
    InvT_head (Rchb_InvT h) q.family
  refine ⟨?_, ?_, ?_⟩
  · intro n hn
    unfold radix_search_best radix_search_best2 radix_search_best2_z at hn
    cases hh : radix_head_by_family t q.family with
    | null => rw [hh] at hn; cases hn
    | mk b p l r d =>
      have hHmk := hH
      rw [hh] at hHmk hn
      dsimp only at hn
      rw [Option.map_eq_some'] at hn
      obtain ⟨pn, hfind, hpn2⟩ := hn
      obtain ⟨path', n'⟩ := pn
      have hfilt := List.find?_some hfind
      have hmem := List.mem_of_find?_eq_some hfind
      rw [List.mem_reverse] at hmem
      dsimp only at hfilt hpn2
      subst hpn2
      cases hpfx : n'.pfx with
      | none => rw [hpfx] at hfilt; simp at hfilt
      | some P =>
        rw [hpfx] at hfilt
        dsimp only at hfilt
        rw [Bool.and_eq_true] at hfilt
        have hPbl : P.bitlen ≤ q.bitlen := of_decide_eq_true hfilt.2
        rcases best_descend_nodes q true _ _ _ _ hmem with hst | ⟨hall, _⟩
        · cases hst
        · have hPsub : P ∈ subPfxs (node_t.mk b p l r d) :=
            subPfxs_of_all_nodes hall hpfx
          have hPv := subPfxs_valid hHmk P hPsub
          have hag : agrees P.add q.add P.bitlen :=
            (comp_with_mask_true_iff hPv.2.2.1 hq.2.1
              (pfx_byte_bound hPv.2)
              (pfx_byte_bound2 hPv.2 hq hPv.1)).mp hfilt.1
          refine ⟨P, rfl, hPsub, hPbl, hag, ?_⟩
          intro S hS hSbl hSag
          obtain ⟨A, hAmem, hApfx⟩ := subPfxs_to_node hS
          obtain ⟨pathS, hstackA⟩ :=
            best_descend_complete q (node_t.mk b p l r d) [] []
              hHmk hAmem hApfx hSbl hSag
          have hSv := subPfxs_valid hHmk S hS
          have hsort := @best_descend_sorted q.family q true
            (node_t.mk b p l r d) [] [] hHmk List.Pairwise.nil
            (fun e he => absurd he (List.not_mem_nil e))
          have hsort' : List.Pairwise
              (fun a c : List frame_t × node_t =>
                (c.2).bit < (a.2).bit)
              (best_descend q true (node_t.mk b p l r d) [] []).reverse := by
            rw [List.pairwise_reverse]
            exact hsort
          have hfiltA : (fun pn : List frame_t × node_t =>
              match (pn.2).pfx with
              | some P => comp_with_mask P.add q.add P.bitlen
                  && decide (P.bitlen ≤ q.bitlen)
              | none => false) (pathS, A) = true := by
            dsimp only
            rw [hApfx]
            dsimp only
            rw [Bool.and_eq_true]
            exact ⟨(comp_with_mask_true_iff hSv.2.2.1 hq.2.1
              (pfx_byte_bound hSv.2)
              (pfx_byte_bound2 hSv.2 hq hSv.1)).mpr hSag,
              decide_eq_true hSbl⟩
          have hmax := find?_sorted_max _ (fun e => (e.2).bit) _ hsort'
            _ hfind (pathS, A) (List.mem_reverse.mpr hstackA) hfiltA
          have hAanchor : S.bitlen = A.bit :=
            pfx_bitlen_anchor (InvN_all_nodes hHmk A hAmem) hApfx
          have hNanchor : P.bitlen = n'.bit :=
            pfx_bitlen_anchor (InvN_all_nodes hHmk n' hall) hpfx
          dsimp only at hmax
          omega
  · intro hnone S hS hScon
    unfold radix_search_best radix_search_best2 radix_search_best2_z
      at hnone
    cases hh : radix_head_by_family t q.family with
    | null =>
      rw [hh, subPfxs_null] at hS
      cases hS
    | mk b p l r d =>
      have hHmk := hH
      rw [hh] at hHmk hnone
      dsimp only at hnone
      rw [Option.map_eq_none'] at hnone
      rw [List.find?_eq_none] at hnone
      obtain ⟨A, hAmem, hApfx⟩ := subPfxs_to_node (by rwa [hh] at hS)
      obtain ⟨pathS, hstackA⟩ :=
        best_descend_complete q (node_t.mk b p l r d) [] []
          hHmk hAmem hApfx hScon.1 hScon.2
      have hSv := subPfxs_valid hH S hS
      apply hnone (pathS, A) (List.mem_reverse.mpr hstackA)
      dsimp only
      rw [hApfx]
      dsimp only
      rw [Bool.and_eq_true]
      exact ⟨(comp_with_mask_true_iff hSv.2.2.1 hq.2.1
        (pfx_byte_bound hSv.2)
        (pfx_byte_bound2 hSv.2 hq hSv.1)).mpr hScon.2,
        decide_eq_true hScon.1⟩
  · intro pn hpn
    exact best_descend_excl q _ [] []
      (fun e he => absurd he (List.not_mem_nil e)) pn hpn

end PyRadix

namespace PyRadix

/-- Claim C1, witness: the best-match theorem applied to the tree
holding 10.0.0.0/8 with query 10.0.0.0/16. -/
theorem claim_C1_witness :
    (∀ n, radix_search_best (radix_lookup New_Radix ex_10_8).tree ex_10_16
        = some n →
      ∃ P, n.pfx = some P ∧
        P ∈ subPfxs (radix_head_by_family
          (radix_lookup New_Radix ex_10_8).tree ex_10_16.family) ∧
        P.bitlen ≤ ex_10_16.bitlen ∧
        agrees P.add ex_10_16.add P.bitlen ∧
        ∀ S ∈ subPfxs (radix_head_by_family
            (radix_lookup New_Radix ex_10_8).tree ex_10_16.family),
          S.bitlen ≤ ex_10_16.bitlen →
          agrees S.add ex_10_16.add S.bitlen →
          S.bitlen ≤ P.bitlen) ∧
    (radix_search_best (radix_lookup New_Radix ex_10_8).tree ex_10_16
        = none →
      ∀ S ∈ subPfxs (radix_head_by_family
          (radix_lookup New_Radix ex_10_8).tree ex_10_16.family),
        ¬ (S.bitlen ≤ ex_10_16.bitlen ∧
           agrees S.add ex_10_16.add S.bitlen)) ∧
    (∀ pn ∈ best_descend ex_10_16 false
        (radix_head_by_family (radix_lookup New_Radix ex_10_8).tree
          ex_10_16.family) [] [],
      (pn.2).bit ≠ ex_10_16.bitlen) :=
  claim_C1 (radix_lookup New_Radix ex_10_8).tree ex_10_16
    (Rchb.ins Rchb.new (by decide)) (by decide)

end PyRadix

namespace PyRadix

/-! ### Claim C2: covering/covered duality -/

/-- `COMP_NODE_PREFIX(C, q)` holds whenever `C`'s subtree stores a
prefix that the query is contained in (or that contains the query):
the stored anchor prefix of `C` then agrees with the query on the
compared bit range. -/
theorem comp_node_pfx_of_contains {q P : prefix_t} {C : node_t}
    {R : prefix_t}
    (hq : pfx_valid q) (hInvC : InvN q.family C) (hCpfx : C.pfx = some R)
    (hPsub : P ∈ subPfxs C) (hqbl : q.bitlen ≤ P.bitlen)
    (hqP : agrees P.add q.add q.bitlen) :
    comp_node_pfx C q = true := by
  have hRmem : R ∈ subPfxs C := by
    cases C with
    | null => cases hCpfx
    | mk b p l r d =>
      simp only [node_t.pfx] at hCpfx
      exact mem_subPfxs_mk.mpr (Or.inr (Or.inr hCpfx))
  have hRv := subPfxs_valid hInvC R hRmem
  have hRanchor : R.bitlen = C.bit := pfx_bitlen_anchor hInvC hCpfx
  have hpair := subPfxs_pairwise hInvC R hRmem P hPsub
  have hm1 : min R.bitlen q.bitlen ≤ R.bitlen := Nat.min_le_left _ _
  have hm2 : min R.bitlen q.bitlen ≤ q.bitlen := Nat.min_le_right _ _
  have hag : agrees R.add q.add (min R.bitlen q.bitlen) := by
    intro i hi
    have h1 : bit_test_search_bit R.add i = bit_test_search_bit P.add i :=
      hpair i (by omega)
    have h2 : bit_test_search_bit P.add i = bit_test_search_bit q.add i :=
      hqP i (by omega)
    rw [h1, h2]
  unfold comp_node_pfx
  rw [hCpfx]
  apply (comp_with_mask_true_iff hRv.2.2.1 hq.2.1 ?_ ?_).mpr hag
  · have := pfx_byte_bound hRv.2
    omega
  · have := pfx_byte_bound hq
    omega

theorem covered_walk_rc_zero (q : prefix_t) (incl : Bool)
    (func : node_t → Int) (hfunc : ∀ m, func m = 0) :
    ∀ (n : node_t) (checked isroot : Bool),
      (covered_walk q incl func checked isroot n).1 = 0 := by
  intro n
  induction n with
  | null => intro checked isroot; rfl
  | mk b p l r d ihl ihr =>
    intro checked isroot
    rw [covered_walk.eq_def]
    dsimp only
    split
    · next h =>
      exfalso
      apply h
      split
      · rfl
      · split
        · rfl
        · exact ihl _ _
    · split
      · next h2 =>
        exfalso
        apply h2
        split
        · rfl
        · split
          · rfl
          · exact ihr _ _
      · split <;> split
        · dsimp only
          exact hfunc _
        · rfl
        · dsimp only
          exact hfunc _
        · rfl

theorem covered_walk_sublist (q : prefix_t) (incl : Bool)
    (func : node_t → Int) :
    ∀ (n : node_t) (checked isroot : Bool),
      List.Sublist (covered_walk q incl func checked isroot n).2
        (real_nodes n) := by
  intro n
  induction n with
  | null => intro checked isroot; exact List.Sublist.refl _
  | mk b p l r d ihl ihr =>
    intro checked isroot
    have hLs : ∀ (c1 : Bool), List.Sublist (match l with
        | node_t.null => ((0 : Int), ([] : List node_t))
        | node_t.mk bl pl ll rl dl =>
          if ¬c1 ∧ pl ≠ none ∧
              comp_node_pfx (.mk bl pl ll rl dl) q = false
          then ((0 : Int), ([] : List node_t))
          else covered_walk q incl func (c1 || (pl ≠ none : Bool)) false
            (.mk bl pl ll rl dl)).2 (real_nodes l) := by
      intro c1
      split
      · exact List.Sublist.refl _
      · split
        · exact List.nil_sublist _
        · exact ihl _ _
    have hRs : ∀ (c1 : Bool), List.Sublist (match r with
        | node_t.null => ((0 : Int), ([] : List node_t))
        | node_t.mk br pr lr rr dr =>
          if ¬c1 ∧ pr ≠ none ∧
              comp_node_pfx (.mk br pr lr rr dr) q = false
          then ((0 : Int), ([] : List node_t))
          else covered_walk q incl func (c1 || (pr ≠ none : Bool)) false
            (.mk br pr lr rr dr)).2 (real_nodes r) := by
      intro c1
      split
      · exact List.Sublist.refl _
      · split
        · exact List.nil_sublist _
        · exact ihr _ _
    rw [covered_walk.eq_def]
    dsimp only
    rw [show real_nodes (node_t.mk b p l r d)
      = real_nodes l ++ real_nodes r
        ++ (if p ≠ none then [node_t.mk b p l r d] else []) from rfl]
    split
    · exact (hLs checked).trans
        ((List.sublist_append_left _ _).trans (List.sublist_append_left _ _))
    · split
      · dsimp only
        exact (List.Sublist.append (hLs checked) (hRs checked)).trans
          (List.sublist_append_left _ _)
      · split <;> split
        · next hemit =>
          refine List.Sublist.append
            (List.Sublist.append (hLs checked) (hRs checked)) ?_
          rw [if_pos hemit.2]
        · exact (List.Sublist.append (hLs checked) (hRs checked)).trans
            (List.sublist_append_left _ _)
        · next hemit =>
          refine List.Sublist.append
            (List.Sublist.append (hLs checked) (hRs checked)) ?_
          rw [if_pos hemit.2]
        · exact (List.Sublist.append (hLs checked) (hRs checked)).trans
            (List.sublist_append_left _ _)

end PyRadix

namespace PyRadix

/-- A given prefix is stored at most once: the real node holding it
occurs at most once among the tree's nodes. -/
theorem real_nodes_count_le_one {fam : Family} {A : node_t} {P : prefix_t}
    {n : node_t} (h : InvN fam n) (hA : A.pfx = some P) :
    List.count A (real_nodes n) ≤ 1 := by
  induction h with
  | null => simp [real_nodes]
  | @mk b p l r d h1 h2 h3 h4 h5 h6 h7 h8 h9 h10 ihl ihr =>
    rw [show real_nodes (node_t.mk b p l r d) = real_nodes l ++ real_nodes r
      ++ (if p ≠ none then [node_t.mk b p l r d] else []) from rfl]
    rw [List.count_append, List.count_append]
    have hPl : 0 < List.count A (real_nodes l) → P ∈ subPfxs l := by
      intro hpos
      exact List.mem_filterMap.mpr ⟨A, List.count_pos_iff.mp hpos, hA⟩
    have hPr : 0 < List.count A (real_nodes r) → P ∈ subPfxs r := by
      intro hpos
      exact List.mem_filterMap.mpr ⟨A, List.count_pos_iff.mp hpos, hA⟩
    have hPbitl : P ∈ subPfxs l → b < P.bitlen := by
      intro hm
      have hln : l ≠ .null := by
        intro hc; rw [hc, subPfxs_null] at hm; cases hm
      have hlb := h4 hln
      rcases subPfxs_bitlen h6 P hm with ⟨_, hb⟩ | hb <;> omega
    have hPbitr : P ∈ subPfxs r → b < P.bitlen := by
      intro hm
      have hrn : r ≠ .null := by
        intro hc; rw [hc, subPfxs_null] at hm; cases hm
      have hrb := h5 hrn
      rcases subPfxs_bitlen h7 P hm with ⟨_, hb⟩ | hb <;> omega
    have hcs : List.count A
        (if p ≠ none then [node_t.mk b p l r d] else []) ≤ 1 := by
      split
      · simpa using List.count_le_length A [node_t.mk b p l r d]
      · simp
    have hself : 0 < List.count A
        (if p ≠ none then [node_t.mk b p l r d] else []) → p = some P := by
      intro hpos
      split at hpos
      · have hm : A ∈ [node_t.mk b p l r d] := List.count_pos_iff.mp hpos
        rcases List.mem_singleton.mp hm with rfl
        simpa [node_t.pfx] using hA
      · simp at hpos
    have hx1 : ¬ (0 < List.count A (real_nodes l) ∧
        0 < List.count A (real_nodes r)) := by
      rintro ⟨hcl, hcr⟩
      have hfa := h8 P (hPl hcl)
      have htr := h9 P (hPr hcr)
      rw [hfa] at htr
      cases htr
    have hx2 : ¬ (0 < List.count A (real_nodes l) ∧
        0 < List.count A (if p ≠ none then [node_t.mk b p l r d]
          else [])) := by
      rintro ⟨hcl, hcsp⟩
      have hpb := (h2 P (hself hcsp)).2.2
      have := hPbitl (hPl hcl)
      omega
    have hx3 : ¬ (0 < List.count A (real_nodes r) ∧
        0 < List.count A (if p ≠ none then [node_t.mk b p l r d]
          else [])) := by
      rintro ⟨hcr, hcsp⟩
      have hpb := (h2 P (hself hcsp)).2.2
      have := hPbitr (hPr hcr)
      omega
    have hil : List.count A (real_nodes l) ≤ 1 := ihl
    have hir : List.count A (real_nodes r) ≤ 1 := ihr
    omega

end PyRadix

namespace PyRadix

set_option maxHeartbeats 1000000 in
/-- The covered-walk stack machine reaches and reports every real node
of the walked subtree whose prefix the query contains (callback always
returning 0, inclusive mode). -/
theorem covered_walk_emits (q : prefix_t) (func : node_t → Int)
    (hfunc : ∀ m, func m = 0) {P : prefix_t}
    (hq : pfx_valid q)
    (hqbl : q.bitlen ≤ P.bitlen) (hqP : agrees P.add q.add q.bitlen) :
    ∀ (n : node_t) (checked isroot : Bool) {A : node_t},
      InvN q.family n → A ∈ all_nodes n → A.pfx = some P →
      A ∈ (covered_walk q true func checked isroot n).2 := by
  intro n
  induction n with
  | null =>
    intro checked isroot A _ hA _
    rw [show all_nodes .null = [] from rfl] at hA
    cases hA
  | mk b p l r d ihl ihr =>
    intro checked isroot A hInv hA hApfx
    obtain ⟨i1, i2, i3, i4, i5, i6, i7, i8, i9, i10⟩ := InvN_mk_iff.mp hInv
    rw [covered_walk.eq_def]
    dsimp only
    simp only [reduceIte]
    split
    · next h =>
      exfalso
      apply h
      split
      · rfl
      · split
        · rfl
        · exact covered_walk_rc_zero q true func hfunc _ _ _
    · split
      · next h2 =>
        exfalso
        apply h2
        split
        · rfl
        · split
          · rfl
          · exact covered_walk_rc_zero q true func hfunc _ _ _
      · rw [show all_nodes (node_t.mk b p l r d)
          = node_t.mk b p l r d :: (all_nodes l ++ all_nodes r) from rfl]
          at hA
        rcases List.mem_cons.mp hA with rfl | hA'
        · have hpS : p = some P := by simpa [node_t.pfx] using hApfx
          have hbS : P.bitlen = b := (i2 P hpS).2.2
          split
          · exact List.mem_append_right _ (by simp)
          · next hnot =>
            exfalso
            apply hnot
            constructor
            · cases isroot with
              | false => exact Or.inl (by simp)
              | true =>
                right
                omega
            · simp [hpS]
        · rcases List.mem_append.mp hA' with hAl | hAr
          · split
            · apply List.mem_append_left
              apply List.mem_append_left
              split
              · next heq =>
                rw [show all_nodes node_t.null = [] from rfl] at hAl
                cases hAl
              · split
                · next hskip =>
                  exfalso
                  obtain ⟨_, hplne, hcompf⟩ := hskip
                  obtain ⟨R, hR⟩ := Option.ne_none_iff_exists'.mp hplne
                  have hcomp := comp_node_pfx_of_contains hq i6
                    (by simpa [node_t.pfx] using hR)
                    (subPfxs_of_all_nodes hAl hApfx) hqbl hqP
                  rw [hcomp] at hcompf
                  cases hcompf
                · exact ihl _ _ i6 hAl hApfx
            · apply List.mem_append_left
              split
              · next heq =>
                rw [show all_nodes node_t.null = [] from rfl] at hAl
                cases hAl
              · split
                · next hskip =>
                  exfalso
                  obtain ⟨_, hplne, hcompf⟩ := hskip
                  obtain ⟨R, hR⟩ := Option.ne_none_iff_exists'.mp hplne
                  have hcomp := comp_node_pfx_of_contains hq i6
                    (by simpa [node_t.pfx] using hR)
                    (subPfxs_of_all_nodes hAl hApfx) hqbl hqP
                  rw [hcomp] at hcompf
                  cases hcompf
                · exact ihl _ _ i6 hAl hApfx
          · split
            · apply List.mem_append_left
              apply List.mem_append_right
              split
              · next heq =>
                rw [show all_nodes node_t.null = [] from rfl] at hAr
                cases hAr
              · split
                · next hskip =>
                  exfalso
                  obtain ⟨_, hprne, hcompf⟩ := hskip
                  obtain ⟨R, hR⟩ := Option.ne_none_iff_exists'.mp hprne
                  have hcomp := comp_node_pfx_of_contains hq i7
                    (by simpa [node_t.pfx] using hR)
                    (subPfxs_of_all_nodes hAr hApfx) hqbl hqP
                  rw [hcomp] at hcompf
                  cases hcompf
                · exact ihr _ _ i7 hAr hApfx
            · apply List.mem_append_right
              split
              · next heq =>
                rw [show all_nodes node_t.null = [] from rfl] at hAr
                cases hAr
              · split
                · next hskip =>
                  exfalso
                  obtain ⟨_, hprne, hcompf⟩ := hskip
                  obtain ⟨R, hR⟩ := Option.ne_none_iff_exists'.mp hprne
                  have hcomp := comp_node_pfx_of_contains hq i7
                    (by simpa [node_t.pfx] using hR)
                    (subPfxs_of_all_nodes hAr hApfx) hqbl hqP
                  rw [hcomp] at hcompf
                  cases hcompf
                · exact ihr _ _ i7 hAr hApfx

end PyRadix

namespace PyRadix

/-- The anchoring loop of `radix_search_covered` stops at a non-null
node whose subtree still holds every covered stored prefix, and its
`prefixed_node` bookkeeping only records nodes passing
`COMP_NODE_PREFIX`. -/
theorem covered_find_reaches (q : prefix_t) (hq : pfx_valid q)
    {P : prefix_t} (hqbl : q.bitlen ≤ P.bitlen)
    (hqP : agrees P.add q.add q.bitlen) :
    ∀ (n prev prefixed : node_t) {A : node_t},
      InvN q.family n → A ∈ all_nodes n → A.pfx = some P →
      (prefixed = .null ∨ (prefixed.pfx ≠ none ∧
        comp_node_pfx prefixed q = true)) →
      (covered_find q n prev prefixed).1 ≠ .null ∧
      A ∈ all_nodes (covered_find q n prev prefixed).1 ∧
      InvN q.family (covered_find q n prev prefixed).1 ∧
      ((covered_find q n prev prefixed).2.2 = .null ∨
       ((covered_find q n prev prefixed).2.2.pfx ≠ none ∧
        comp_node_pfx (covered_find q n prev prefixed).2.2 q = true)) := by
  intro n
  induction n with
  | null =>
    intro prev prefixed A _ hA
    rw [show all_nodes .null = [] from rfl] at hA
    cases hA
  | mk b p l r d ihl ihr =>
    intro prev prefixed A hInv hA hApfx hpre
    obtain ⟨i1, i2, i3, i4, i5, i6, i7, i8, i9, i10⟩ := InvN_mk_iff.mp hInv
    have hAInv : InvN q.family A := InvN_all_nodes hInv A hA
    have hAanchor : P.bitlen = A.bit := pfx_bitlen_anchor hAInv hApfx
    rw [covered_find]
    by_cases hble : b ≤ q.bitlen
    · rw [if_pos hble]
      by_cases hbeq : b = q.bitlen
      · rw [if_pos hbeq]
        exact ⟨by simp, hA, hInv, hpre⟩
      · rw [if_neg hbeq]
        dsimp only
        have hbq : b < q.bitlen := by omega
        have hpre' : (if p ≠ none then node_t.mk b p l r d else prefixed)
            = .null ∨
            ((if p ≠ none then node_t.mk b p l r d else prefixed).pfx
              ≠ none ∧
             comp_node_pfx
              (if p ≠ none then node_t.mk b p l r d else prefixed) q
              = true) := by
          split
          · next hp =>
            right
            refine ⟨by simpa [node_t.pfx] using hp, ?_⟩
            obtain ⟨R, hR⟩ := Option.ne_none_iff_exists'.mp hp
            exact comp_node_pfx_of_contains hq hInv
              (by simpa [node_t.pfx] using hR)
              (subPfxs_of_all_nodes hA hApfx) hqbl hqP
          · exact hpre
        rw [show all_nodes (node_t.mk b p l r d)
          = node_t.mk b p l r d :: (all_nodes l ++ all_nodes r) from rfl]
          at hA
        rcases List.mem_cons.mp hA with rfl | hA'
        · exfalso
          have hpS : p = some P := by simpa [node_t.pfx] using hApfx
          have := (i2 P hpS).2.2
          omega
        · rcases List.mem_append.mp hA' with hAl | hAr
          · have hPsubl : P ∈ subPfxs l := subPfxs_of_all_nodes hAl hApfx
            have hdir : bit_test_search_bit q.add b = false := by
              have h1 := i8 P hPsubl
              have h2 := hqP b hbq
              rw [h2] at h1
              exact h1
            rw [if_neg (by rw [hdir]; exact Bool.false_ne_true)]
            exact ihl _ _ i6 hAl hApfx hpre'
          · have hPsubr : P ∈ subPfxs r := subPfxs_of_all_nodes hAr hApfx
            have hdir : bit_test_search_bit q.add b = true := by
              have h1 := i9 P hPsubr
              have h2 := hqP b hbq
              rw [h2] at h1
              exact h1
            rw [if_pos hdir]
            exact ihr _ _ i7 hAr hApfx hpre'
    · rw [if_neg hble]
      exact ⟨by simp, hA, hInv, hpre⟩

end PyRadix

namespace PyRadix

/-- `radix_search_covered` (inclusive, callback always 0) invokes the
callback exactly once on each real node whose stored prefix the query
contains. -/
theorem covered_exactly_once (t : radix_tree_t) (q : prefix_t)
    (func : node_t → Int) (hfunc : ∀ m, func m = 0)
    (hI : InvT t) (hq : pfx_valid q)
    {A : node_t} {P : prefix_t}
    (hA : A ∈ all_nodes (radix_head_by_family t q.family))
    (hApfx : A.pfx = some P)
    (hqbl : q.bitlen ≤ P.bitlen) (hqP : agrees P.add q.add q.bitlen) :
    List.count A (radix_search_covered t q func true).2 = 1 := by
  have hH : InvN q.family (radix_head_by_family t q.family) :=
    InvT_head hI q.family
  unfold radix_search_covered
  dsimp only
  obtain ⟨hex_ne, hAex, hInvEx, hpreinv⟩ := covered_find_reaches q hq hqbl
    hqP (radix_head_by_family t q.family) .null .null hH hA hApfx
    (Or.inl rfl)
  cases hfd : (covered_find q (radix_head_by_family t q.family)
      .null .null).1 with
  | null => exact absurd hfd hex_ne
  | mk eb ep el er ed =>
    rw [hfd] at hAex hInvEx
    dsimp only
    have hcount : ∀ c : Bool, List.count A
        (covered_walk q true func c true (node_t.mk eb ep el er ed)).2
        = 1 := by
      intro c
      apply le_antisymm
      · exact le_trans
          (List.Sublist.count_le (covered_walk_sublist q true func _ _ _) A)
          (real_nodes_count_le_one hInvEx hApfx)
      · exact List.count_pos_iff.mpr
          (covered_walk_emits q func hfunc hq hqbl hqP _ _ _
            hInvEx hAex hApfx)
    split
    · next hep =>
      split
      · next hguard =>
        exfalso
        obtain ⟨_, hcf⟩ := hguard
        obtain ⟨R, hR⟩ := Option.ne_none_iff_exists'.mp hep
        have hct := comp_node_pfx_of_contains hq hInvEx hR
          (subPfxs_of_all_nodes hAex hApfx) hqbl hqP
        rw [hct] at hcf
        cases hcf
      · exact hcount _
    · next hep =>
      split
      · next hguard =>
        exfalso
        obtain ⟨hne, hcf⟩ := hguard
        rcases hpreinv with h0 | ⟨_, hct⟩
        · exact hne h0
        · rw [hct] at hcf
          cases hcf
      · exact hcount _

end PyRadix

namespace PyRadix

theorem all_nodes_eq_of_bit_le {fam : Family} {n A : node_t}
    (h : InvN fam n) (hA : A ∈ all_nodes n) (hbit : A.bit ≤ n.bit) :
    A = n := by
  cases n with
  | null =>
    rw [show all_nodes .null = [] from rfl] at hA
    cases hA
  | mk b p l r d =>
    obtain ⟨i1, i2, i3, i4, i5, i6, i7, i8, i9, i10⟩ := InvN_mk_iff.mp h
    rw [show all_nodes (node_t.mk b p l r d)
      = node_t.mk b p l r d :: (all_nodes l ++ all_nodes r) from rfl] at hA
    rcases List.mem_cons.mp hA with rfl | hA'
    · rfl
    · exfalso
      have hbit' : A.bit ≤ b := hbit
      rcases List.mem_append.mp hA' with hm | hm
      · have hln : l ≠ .null := by
          intro hc; rw [hc, show all_nodes .null = [] from rfl] at hm
          cases hm
        have h1 := all_nodes_bit_le i6 A hm
        have h2 := i4 hln
        omega
      · have hrn : r ≠ .null := by
          intro hc; rw [hc, show all_nodes .null = [] from rfl] at hm
          cases hm
        have h1 := all_nodes_bit_le i7 A hm
        have h2 := i5 hrn
        omega

/-- Every ancestor value of an invariant zipper sits at a strictly
smaller bit than the hole, and the spine is strictly decreasing. -/
theorem ancestor_nodes_bits {fam : Family} :
    ∀ (path : List frame_t) (n : node_t),
      InvN fam (rebuild path n) → n ≠ .null →
      (∀ y ∈ ancestor_nodes path n, y.bit < n.bit) ∧
      List.Pairwise (fun x y : node_t => y.bit < x.bit)
        (n :: ancestor_nodes path n) := by
  intro path
  induction path with
  | nil =>
    intro n _ _
    exact ⟨fun y hy => absurd hy (List.not_mem_nil y),
      List.pairwise_singleton _ _⟩
  | cons f fs ih =>
    intro n h hn
    rw [rebuild] at h
    obtain ⟨ih1, ih2⟩ := ih (rebuild1 f n) h (rebuild1_ne_null f n)
    have hfb : f.bit < n.bit :=
      frame_bit_lt_of_rebuild1 (InvN_of_rebuild h) hn
    have hrb : (rebuild1 f n).bit = f.bit := rebuild1_bit f n
    have hall : ∀ y ∈ ancestor_nodes (f :: fs) n, y.bit < n.bit := by
      intro y hy
      rw [show ancestor_nodes (f :: fs) n
        = rebuild1 f n :: ancestor_nodes fs (rebuild1 f n) from rfl] at hy
      rcases List.mem_cons.mp hy with rfl | hy'
      · omega
      · have := ih1 y hy'
        omega
    refine ⟨hall, ?_⟩
    rw [show ancestor_nodes (f :: fs) n
      = rebuild1 f n :: ancestor_nodes fs (rebuild1 f n) from rfl]
    exact List.Pairwise.cons (fun y hy => hall y (by
      rw [show ancestor_nodes (f :: fs) n
        = rebuild1 f n :: ancestor_nodes fs (rebuild1 f n) from rfl]
      exact hy)) ih2

theorem best_descend_rebuild_entries (q : prefix_t) (incl : Bool) :
    ∀ (n : node_t) (path : List frame_t)
      (st : List (List frame_t × node_t)),
      (∀ e ∈ st, rebuild e.1 e.2 = rebuild path n) →
      ∀ e ∈ best_descend q incl n path st,
        rebuild e.1 e.2 = rebuild path n := by
  intro n
  induction n with
  | null => intro path st h e he; exact h e he
  | mk b p l r d ihl ihr =>
    intro path st h e he
    have hR : rebuild (frameR (node_t.mk b p l r d) :: path) r
        = rebuild path (node_t.mk b p l r d) := by
      rw [rebuild]
      rfl
    have hL : rebuild (frameL (node_t.mk b p l r d) :: path) l
        = rebuild path (node_t.mk b p l r d) := by
      rw [rebuild]
      rfl
    rw [best_descend] at he
    by_cases hc : b ≤ q.bitlen
    · rw [if_pos hc] at he
      dsimp only at he
      by_cases hpush : p ≠ none ∧ (incl = true ∨ b ≠ q.bitlen)
      · rw [if_pos hpush] at he
        have hst' : ∀ e' ∈ st ++ [(path, node_t.mk b p l r d)],
            rebuild e'.1 e'.2 = rebuild path (node_t.mk b p l r d) := by
          intro e' he'
          rcases List.mem_append.mp he' with h1 | h1
          · exact h e' h1
          · rcases List.mem_singleton.mp h1 with rfl
            rfl
        by_cases hdir : bit_test_search_bit q.add b = true
        · rw [if_pos hdir] at he
          rw [← hR]
          exact ihr _ _ (fun e' he' => by rw [hR]; exact hst' e' he') e he
        · rw [if_neg hdir] at he
          rw [← hL]
          exact ihl _ _ (fun e' he' => by rw [hL]; exact hst' e' he') e he
      · rw [if_neg hpush] at he
        by_cases hdir : bit_test_search_bit q.add b = true
        · rw [if_pos hdir] at he
          rw [← hR]
          exact ihr _ _ (fun e' he' => by rw [hR]; exact h e' he') e he
        · rw [if_neg hdir] at he
          rw [← hL]
          exact ihl _ _ (fun e' he' => by rw [hL]; exact h e' he') e he
    · rw [if_neg hc] at he
      exact h e he

set_option maxHeartbeats 1000000 in
/-- Every candidate the inclusive best-match descent stacks has the
node holding a stored containing prefix on its spine (itself or one of
its ancestors). -/
theorem best_descend_spine {q Q : prefix_t} {A : node_t} :
    ∀ (n : node_t) (path : List frame_t)
      (st : List (List frame_t × node_t)),
      InvN q.family n →
      A.pfx = some Q → Q.bitlen ≤ q.bitlen → agrees Q.add q.add Q.bitlen →
      (A ∈ all_nodes n ∨ A ∈ ancestor_nodes path n) →
      (∀ e ∈ st, A ∈ all_nodes e.2 ∨ A ∈ ancestor_nodes e.1 e.2) →
      ∀ e ∈ best_descend q true n path st,
        A ∈ all_nodes e.2 ∨ A ∈ ancestor_nodes e.1 e.2 := by
  intro n
  induction n with
  | null => intro path st _ _ _ _ _ hst e he; exact hst e he
  | mk b p l r d ihl ihr =>
    intro path st hInv hApfx hQbl hQag hcur hst e he
    obtain ⟨i1, i2, i3, i4, i5, i6, i7, i8, i9, i10⟩ := InvN_mk_iff.mp hInv
    have hchainR : ancestor_nodes (frameR (node_t.mk b p l r d) :: path) r
        = node_t.mk b p l r d :: ancestor_nodes path (node_t.mk b p l r d)
        := rfl
    have hchainL : ancestor_nodes (frameL (node_t.mk b p l r d) :: path) l
        = node_t.mk b p l r d :: ancestor_nodes path (node_t.mk b p l r d)
        := rfl
    rw [best_descend] at he
    by_cases hc : b ≤ q.bitlen
    · rw [if_pos hc] at he
      dsimp only at he
      have hst' : ∀ e' ∈ (if p ≠ none ∧ ((true : Bool) = true ∨ b ≠ q.bitlen)
          then st ++ [(path, node_t.mk b p l r d)] else st),
          A ∈ all_nodes e'.2 ∨ A ∈ ancestor_nodes e'.1 e'.2 := by
        intro e' he'
        split at he'
        · rcases List.mem_append.mp he' with h1 | h1
          · exact hst e' h1
          · rcases List.mem_singleton.mp h1 with rfl
            exact hcur
        · exact hst e' he'
      by_cases hdir : bit_test_search_bit q.add b = true
      · rw [if_pos hdir] at he
        refine ihr _ _ i7 hApfx hQbl hQag ?_ hst' e he
        rcases hcur with hents | hchain
        · rw [show all_nodes (node_t.mk b p l r d)
            = node_t.mk b p l r d :: (all_nodes l ++ all_nodes r)
            from rfl] at hents
          rcases List.mem_cons.mp hents with rfl | hents'
          · right
            rw [hchainR]
            exact List.mem_cons_self _ _
          · rcases List.mem_append.mp hents' with hm | hm
            · exfalso
              have hln : l ≠ .null := by
                intro hcn
                rw [hcn, show all_nodes .null = [] from rfl] at hm
                cases hm
              have hAanchor : Q.bitlen = A.bit :=
                pfx_bitlen_anchor (InvN_all_nodes i6 A hm) hApfx
              have h1 := all_nodes_bit_le i6 A hm
              have h2 := i4 hln
              have hbQ : b < Q.bitlen := by omega
              have h3 := i8 Q (subPfxs_of_all_nodes hm hApfx)
              have h4 := hQag b hbQ
              rw [h4] at h3
              rw [hdir] at h3
              cases h3
            · exact Or.inl hm
        · right
          rw [hchainR]
          exact List.mem_cons_of_mem _ hchain
      · rw [if_neg hdir] at he
        refine ihl _ _ i6 hApfx hQbl hQag ?_ hst' e he
        rcases hcur with hents | hchain
        · rw [show all_nodes (node_t.mk b p l r d)
            = node_t.mk b p l r d :: (all_nodes l ++ all_nodes r)
            from rfl] at hents
          rcases List.mem_cons.mp hents with rfl | hents'
          · right
            rw [hchainL]
            exact List.mem_cons_self _ _
          · rcases List.mem_append.mp hents' with hm | hm
            · exact Or.inl hm
            · exfalso
              have hrn : r ≠ .null := by
                intro hcn
                rw [hcn, show all_nodes .null = [] from rfl] at hm
                cases hm
              have hAanchor : Q.bitlen = A.bit :=
                pfx_bitlen_anchor (InvN_all_nodes i7 A hm) hApfx
              have h1 := all_nodes_bit_le i7 A hm
              have h2 := i5 hrn
              have hbQ : b < Q.bitlen := by omega
              have h3 := i9 Q (subPfxs_of_all_nodes hm hApfx)
              have h4 := hQag b hbQ
              rw [h4] at h3
              have h5 : bit_test_search_bit q.add b = false := by
                cases hx : bit_test_search_bit q.add b
                · rfl
                · exact absurd hx hdir
              rw [h5] at h3
              cases h3
        · right
          rw [hchainL]
          exact List.mem_cons_of_mem _ hchain
    · rw [if_neg hc] at he
      exact hst e he

end PyRadix

namespace PyRadix

/-- With a callback that always returns 0, the covering walk visits
exactly the prefix-bearing nodes of the spine, from the start node to
the root, and reports 0. -/
theorem covering_walk_eq (func : node_t → Int) (hf : ∀ m, func m = 0) :
    ∀ (path : List frame_t) (n : node_t),
      covering_walk func n path
        = (0, (n :: ancestor_nodes path n).filter
            (fun m => decide (m.pfx ≠ none))) := by
  intro path
  induction path with
  | nil =>
    intro n
    rw [covering_walk.eq_def]
    by_cases hp : n.pfx = none
    · simp [hp, ancestor_nodes]
    · simp [hf, hp, ancestor_nodes]
  | cons f fs ih =>
    intro n
    rw [covering_walk.eq_def]
    have hchain : ancestor_nodes (f :: fs) n
        = rebuild1 f n :: ancestor_nodes fs (rebuild1 f n) := rfl
    by_cases hp : n.pfx = none
    · simp [hp, hchain, ih (rebuild1 f n)]
    · simp [hf, hp, hchain, ih (rebuild1 f n)]

end PyRadix

namespace PyRadix

set_option maxHeartbeats 1000000 in
/-- `radix_search_covering` with an always-0 callback invokes it
exactly once on the node holding a stored prefix that contains the
query prefix. -/
theorem covering_exactly_once (t : radix_tree_t) (q : prefix_t)
    (func : node_t → Int) (hfunc : ∀ m, func m = 0)
    (hI : InvT t) (hq : pfx_valid q)
    {B : node_t} {Q : prefix_t}
    (hB : B ∈ all_nodes (radix_head_by_family t q.family))
    (hBpfx : B.pfx = some Q)
    (hQbl : Q.bitlen ≤ q.bitlen) (hQag : agrees Q.add q.add Q.bitlen) :
    List.count B (radix_search_covering t q func).2 = 1 := by
  have hH : InvN q.family (radix_head_by_family t q.family) :=
    InvT_head hI q.family
  cases hh : radix_head_by_family t q.family with
  | null =>
    rw [hh, show all_nodes .null = [] from rfl] at hB
    cases hB
  | mk b p l r d =>
    have hHmk := hH
    rw [hh] at hHmk hB
    have hQsub : Q ∈ subPfxs (node_t.mk b p l r d) :=
      subPfxs_of_all_nodes hB hBpfx
    have hQv := subPfxs_valid hHmk Q hQsub
    obtain ⟨pathB, hstackB⟩ :=
      best_descend_complete q (node_t.mk b p l r d) [] []
        hHmk hB hBpfx hQbl hQag
    have hfiltB : (fun pn : List frame_t × node_t =>
        match (pn.2).pfx with
        | some P => comp_with_mask P.add q.add P.bitlen
            && decide (P.bitlen ≤ q.bitlen)
        | none => false) (pathB, B) = true := by
      dsimp only
      rw [hBpfx]
      dsimp only
      rw [Bool.and_eq_true]
      exact ⟨(comp_with_mask_true_iff hQv.2.2.1 hq.2.1
        (pfx_byte_bound hQv.2)
        (pfx_byte_bound2 hQv.2 hq hQv.1)).mpr hQag,
        decide_eq_true hQbl⟩
    cases hzc : radix_search_best2_z t q true with
    | none =>
      exfalso
      unfold radix_search_best2_z at hzc
      rw [hh] at hzc
      dsimp only at hzc
      rw [List.find?_eq_none] at hzc
      exact hzc (pathB, B) (List.mem_reverse.mpr hstackB) hfiltB
    | some pn =>
      obtain ⟨path1, n1⟩ := pn
      have hgoal_eq : radix_search_covering t q func
          = covering_walk func n1 path1 := by
        unfold radix_search_covering
        rw [hzc]
      rw [hgoal_eq]
      have hfind := hzc
      unfold radix_search_best2_z at hfind
      rw [hh] at hfind
      dsimp only at hfind
      have hpn_pred := List.find?_some hfind
      have hpn_mem := List.mem_reverse.mp (List.mem_of_find?_eq_some hfind)
      dsimp only at hpn_pred
      cases hpfx1 : n1.pfx with
      | none =>
        rw [hpfx1] at hpn_pred
        simp at hpn_pred
      | some P1 =>
        have hn1ne : n1 ≠ .null := by
          intro hc
          rw [hc] at hpfx1
          simp [node_t.pfx] at hpfx1
        rcases best_descend_nodes q true _ _ _ _ hpn_mem
          with hst | ⟨hall1, _⟩
        · cases hst
        have hreb : rebuild path1 n1 = node_t.mk b p l r d :=
          best_descend_rebuild_entries q true (node_t.mk b p l r d) [] []
            (fun e he => absurd he (List.not_mem_nil e)) (path1, n1) hpn_mem
        have hsort := @best_descend_sorted q.family q true
          (node_t.mk b p l r d) [] [] hHmk List.Pairwise.nil
          (fun e he => absurd he (List.not_mem_nil e))
        have hsort' : List.Pairwise
            (fun a c : List frame_t × node_t => (c.2).bit < (a.2).bit)
            (best_descend q true (node_t.mk b p l r d) [] []).reverse := by
          rw [List.pairwise_reverse]
          exact hsort
        have hmax := find?_sorted_max _ (fun e => (e.2).bit) _ hsort'
          _ hfind (pathB, B) (List.mem_reverse.mpr hstackB) hfiltB
        dsimp only at hmax
        have hspine := @best_descend_spine q Q B
          (node_t.mk b p l r d) [] [] hHmk hBpfx hQbl hQag
          (Or.inl hB) (fun e he => absurd he (List.not_mem_nil e))
          (path1, n1) hpn_mem
        have hBin : B ∈ n1 :: ancestor_nodes path1 n1 := by
          rcases hspine with hin | hanc
          · have hBeq : B = n1 := all_nodes_eq_of_bit_le
              (InvN_all_nodes hHmk n1 hall1) hin hmax
            rw [hBeq]
            exact List.mem_cons_self _ _
          · exact List.mem_cons_of_mem _ hanc
        have hIreb : InvN q.family (rebuild path1 n1) := by
          rw [hreb]
          exact hHmk
        obtain ⟨_, hpw⟩ := ancestor_nodes_bits path1 n1 hIreb hn1ne
        have hnodup : (n1 :: ancestor_nodes path1 n1).Nodup := by
          refine List.Pairwise.imp ?_ hpw
          intro x y hxy heq
          rw [heq] at hxy
          exact lt_irrefl _ hxy
        rw [covering_walk_eq func hfunc path1 n1]
        dsimp only
        apply List.count_eq_one_of_mem
        · exact List.Nodup.filter _ hnodup
        · rw [List.mem_filter]
          refine ⟨hBin, ?_⟩
          rw [hBpfx]
          simp

end PyRadix

namespace PyRadix

/-- Claim C2: on every reachable tree, for stored prefixes `P` and `Q`
with `Q` containing `P`, enumerating `covered(Q)` (inclusive) with an
always-0 callback invokes it exactly once on the node holding `P`, and
enumerating `covering(P)` invokes it exactly once on the node holding
`Q`. -/
theorem claim_C2 (t : radix_tree_t) (h : Rchb t) (fam : Family)
    (func : node_t → Int) (hfunc : ∀ m, func m = 0)
    (A B : node_t) (P Q : prefix_t)
    (hA : A ∈ all_nodes (radix_head_by_family t fam))
    (hB : B ∈ all_nodes (radix_head_by_family t fam))
    (hApfx : A.pfx = some P) (hBpfx : B.pfx = some Q)
    (hbl : Q.bitlen ≤ P.bitlen)
    (hag : agrees P.add Q.add Q.bitlen) :
    List.count A (radix_search_covered t Q func true).2 = 1 ∧
    List.count B (radix_search_covering t P func).2 = 1 := by
  have hI : InvT t := Rchb_InvT h
  have hH : InvN fam (radix_head_by_family t fam) := InvT_head hI fam
  have hPv := subPfxs_valid hH P (subPfxs_of_all_nodes hA hApfx)
  have hQv := subPfxs_valid hH Q (subPfxs_of_all_nodes hB hBpfx)
  constructor
  · exact covered_exactly_once t Q func hfunc hI hQv.2
      (by rw [hQv.1]; exact hA) hApfx hbl hag
  · exact covering_exactly_once t P func hfunc hI hPv.2
      (by rw [hPv.1]; exact hB) hBpfx hbl (agrees_symm hag)

/-- Claim C2, witness: in the tree holding 10.0.0.0/8 and 10.1.0.0/16,
covered(10.0.0.0/8) reports the node holding 10.1.0.0/16 exactly once
and covering(10.1.0.0/16) reports the node holding 10.0.0.0/8 exactly
once. -/
theorem claim_C2_witness :
    List.count
      (radix_head_by_family
        (radix_lookup (radix_lookup New_Radix ex_10_8).tree
          ex_10_1_16).tree .af_inet).l
      (radix_search_covered
        (radix_lookup (radix_lookup New_Radix ex_10_8).tree
          ex_10_1_16).tree ex_10_8 (fun _ => 0) true).2 = 1 ∧
    List.count
      (radix_head_by_family
        (radix_lookup (radix_lookup New_Radix ex_10_8).tree
          ex_10_1_16).tree .af_inet)
      (radix_search_covering
        (radix_lookup (radix_lookup New_Radix ex_10_8).tree
          ex_10_1_16).tree ex_10_1_16 (fun _ => 0)).2 = 1 :=
  claim_C2
    (radix_lookup (radix_lookup New_Radix ex_10_8).tree ex_10_1_16).tree
    (Rchb.ins (Rchb.ins Rchb.new (by decide)) (by decide)) .af_inet
    (fun _ => 0) (fun _ => rfl)
    (radix_head_by_family
      (radix_lookup (radix_lookup New_Radix ex_10_8).tree
        ex_10_1_16).tree .af_inet).l
    (radix_head_by_family
      (radix_lookup (radix_lookup New_Radix ex_10_8).tree
        ex_10_1_16).tree .af_inet)
    ex_10_1_16 ex_10_8
    (by decide) (by decide) (by decide) (by decide) (by decide)
    (by unfold agrees; decide)

end PyRadix
